import Mathlib

/-!
Strassen matrix multiplication (`strassen.cpp`)

A shallow embedding of `subtractMatrix`, `addMatrix` and `strassen` from
`src/strassen.cpp`, together with the properties of the design document.

Modelling conventions.

* `vector<vector<int>>` is a list of rows, `List (List Int)`; rows may have any
  length, exactly as in the source.
* An element access `M[i][j]` outside the allocated storage is undefined
  behaviour in C++; here every read and write is bounds checked and the run
  stops with `Fault.outOfBounds`.
* `int` is a 32-bit signed integer. The definitions ending in `32` (`addMatrix32`,
  `subtractMatrix32`, `baseCase32`, `strassenFuel32`, `strassen32`) carry the source's
  arithmetic: every `+`, `-` and `*` is reduced modulo `2^32` into `[-2^31, 2^31)`
  (`wrap32`). Every statement about entry values that come out of an addition,
  subtraction or product is made on these definitions.
* The definitions without the suffix run the same control flow, indices and shapes over
  unbounded integers. `strassenFuel32_wrapM` shows that the 32-bit run is the entrywise
  reduction of that run: both take the same branches and fault at the same places.
  They carry the statements that do not depend on overflow (shapes, indices, counts,
  termination, runs on small concrete operands).
* `for (int i = 0; i < n; i++) body` is `forLoop body n`.
* The recursion of `strassen` is driven by a fuel counter; `strassen` supplies
  `A.size() + 1`, and a run that would need more stops with `Fault.outOfFuel`.
* `strassenCount` is `strassenFuel` with counters (`Cost`) kept alongside the outcome;
  erasing the counters gives back `strassenFuel`.
-/

namespace Strassen

/-- The type `vector<vector<int>>`: a list of rows. -/
abbrev Matrix := List (List Int)

/-- Ways in which a run of the embedded program can stop without a value. -/
inductive Fault where
  | outOfBounds
  | outOfFuel
  deriving DecidableEq, Repr

/-- Outcome of a run: a value, or a fault. -/
inductive Run (α : Type) where
  | ok (a : α)
  | fault (f : Fault)
  deriving DecidableEq, Repr

/-- Sequencing of runs: the first fault stops the computation. -/
def Run.bind {α β : Type} : Run α → (α → Run β) → Run β
  | .ok a, f => f a
  | .fault e, _ => .fault e

instance : Monad Run where
  pure := Run.ok
  bind := Run.bind

/-- The constructor `vector<vector<int>>(n, vector<int>(n))`: an `n × n` matrix of zeros. -/
def mkMatrix (n : Nat) : Matrix := List.replicate n (List.replicate n 0)

/-- The read `M[i][j]`. -/
def getE (M : Matrix) (i j : Nat) : Run Int :=
  match M[i]? with
  | none => .fault .outOfBounds
  | some row =>
    match row[j]? with
    | none => .fault .outOfBounds
    | some v => .ok v

/-- The write `M[i][j] = v`. -/
def setE (M : Matrix) (i j : Nat) (v : Int) : Run Matrix :=
  match M[i]? with
  | none => .fault .outOfBounds
  | some row => if j < row.length then .ok (M.set i (row.set j v)) else .fault .outOfBounds

/-- The loop `for (int i = 0; i < n; i++) body(i)` acting on a state `s`. -/
def forLoop {σ : Type} (body : Nat → σ → Run σ) : Nat → σ → Run σ
  | 0, s => .ok s
  | k + 1, s => Run.bind (forLoop body k s) (body k)

/-- Source `subtractMatrix` (lines 22-30) over unbounded integers: loops, indices and
shapes as in the source, the difference not reduced (see `subtractMatrix32`). -/
def subtractMatrix (A B : Matrix) : Run Matrix :=
  let n := A.length
  forLoop (fun i C => forLoop (fun j C => do
    let a ← getE A i j
    let b ← getE B i j
    setE C i j (a - b)) n C) n (mkMatrix n)

/-- Source `addMatrix` (lines 36-43) over unbounded integers: loops, indices and shapes
as in the source, the sum not reduced (see `addMatrix32`). -/
def addMatrix (A B : Matrix) : Run Matrix :=
  let n := A.length
  forLoop (fun i C => forLoop (fun j C => do
    let a ← getE A i j
    let b ← getE B i j
    setE C i j (a + b)) n C) n (mkMatrix n)

/-- The eight quadrant matrices `a11 … b22` declared at lines 69-76. -/
structure Quadrants where
  a11 : Matrix
  a12 : Matrix
  a21 : Matrix
  a22 : Matrix
  b11 : Matrix
  b12 : Matrix
  b21 : Matrix
  b22 : Matrix
  deriving DecidableEq, Repr

/-- The body of the split loop (lines 81-89) at indices `i`, `j`. -/
def splitBody (A B : Matrix) (new_size i j : Nat) (q : Quadrants) : Run Quadrants := do
  let a11 ← setE q.a11 i j (← getE A i j)
  let a12 ← setE q.a12 i j (← getE A i (j + new_size))
  let a21 ← setE q.a21 i j (← getE A (i + new_size) j)
  let a22 ← setE q.a22 i j (← getE A (i + new_size) (j + new_size))
  let b11 ← setE q.b11 i j (← getE B i j)
  let b12 ← setE q.b12 i j (← getE B i (j + new_size))
  let b21 ← setE q.b21 i j (← getE B (i + new_size) j)
  let b22 ← setE q.b22 i j (← getE B (i + new_size) (j + new_size))
  pure ⟨a11, a12, a21, a22, b11, b12, b21, b22⟩

/-- The split step of `strassen` (lines 69-91): eight zero matrices of dimension
`new_size`, filled by the double loop. -/
def splitLoop (A B : Matrix) (new_size : Nat) : Run Quadrants :=
  let z := mkMatrix new_size
  forLoop (fun i q => forLoop (fun j q => splitBody A B new_size i j q) new_size q) new_size
    ⟨z, z, z, z, z, z, z, z⟩

/-- The body of the join loop (lines 115-118) at indices `i`, `j`. -/
def joinBody (c11 c12 c21 c22 : Matrix) (new_size i j : Nat) (C : Matrix) : Run Matrix := do
  let C ← setE C i j (← getE c11 i j)
  let C ← setE C i (j + new_size) (← getE c12 i j)
  let C ← setE C (i + new_size) j (← getE c21 i j)
  setE C (i + new_size) (j + new_size) (← getE c22 i j)

/-- The join step of `strassen` (lines 112-121): a fresh zero matrix of dimension `n`
receives the four quadrants. -/
def joinLoop (n new_size : Nat) (c11 c12 c21 c22 : Matrix) : Run Matrix :=
  forLoop (fun i C => forLoop (fun j C => joinBody c11 c12 c21 c22 new_size i j C) new_size C)
    new_size (mkMatrix n)

/-- The base case of `strassen` (lines 60-65), taken for every `n <= 2`, over unbounded
integers (see `baseCase32` for the source's 32-bit arithmetic). -/
def baseCase (A B : Matrix) (n : Nat) : Run Matrix := do
  let C := mkMatrix n
  let C ← setE C 0 0 ((← getE A 0 0) * (← getE B 0 0) + (← getE A 0 1) * (← getE B 1 0))
  let C ← setE C 0 1 ((← getE A 0 0) * (← getE B 0 1) + (← getE A 0 1) * (← getE B 1 1))
  let C ← setE C 1 0 ((← getE A 1 0) * (← getE B 0 0) + (← getE A 1 1) * (← getE B 1 0))
  let C ← setE C 1 1 ((← getE A 1 0) * (← getE B 0 1) + (← getE A 1 1) * (← getE B 1 1))
  pure C

/-- Source `strassen` (lines 48-124) with an explicit bound `fuel` on the depth of the
recursion, over unbounded integers. A shape mismatch hands back the empty matrix.
Control flow, indices and shapes are those of the source; entry values agree with the
source's modulo `2^32` (see `strassenFuel32` and `strassenFuel32_wrapM`). -/
def strassenFuel : Nat → Matrix → Matrix → Run Matrix
  | 0, _, _ => .fault .outOfFuel
  | fuel + 1, A, B =>
    let n := A.length
    if n ≠ B.length then .ok []
    else if n ≤ 2 then baseCase A B n
    else do
      let new_size := n / 2
      let q ← splitLoop A B new_size
      let p1 ← strassenFuel fuel q.a11 (← subtractMatrix q.b12 q.b22)
      let p2 ← strassenFuel fuel (← addMatrix q.a11 q.a12) q.b22
      let p3 ← strassenFuel fuel (← addMatrix q.a21 q.a22) q.b11
      let p4 ← strassenFuel fuel q.a22 (← subtractMatrix q.b21 q.b11)
      let p5 ← strassenFuel fuel (← addMatrix q.a11 q.a22) (← addMatrix q.b11 q.b22)
      let p6 ← strassenFuel fuel (← subtractMatrix q.a12 q.a22) (← addMatrix q.b21 q.b22)
      let p7 ← strassenFuel fuel (← subtractMatrix q.a11 q.a21) (← addMatrix q.b11 q.b12)
      let c11 ← addMatrix (← subtractMatrix (← addMatrix p5 p4) p2) p6
      let c12 ← addMatrix p1 p2
      let c21 ← addMatrix p3 p4
      let c22 ← subtractMatrix (← subtractMatrix (← addMatrix p5 p1) p3) p7
      joinLoop n new_size c11 c12 c21 c22

/-- Source `strassen`: the recursion started with fuel `A.size() + 1`. -/
def strassen (A B : Matrix) : Run Matrix := strassenFuel (A.length + 1) A B

/-! ## Specification-side vocabulary -/

/-- The entry `M[i][j]`, read as `0` outside the stored rows and columns. -/
def entry (M : Matrix) (i j : Nat) : Int := (M.getD i []).getD j 0

/-- The `n × n` matrix whose entry at `(i, j)` is `f i j`. -/
def ofFn (n : Nat) (f : Nat → Nat → Int) : Matrix :=
  (List.range n).map fun i => (List.range n).map fun j => f i j

/-- A matrix with `n` rows, every one of length `n`. -/
def IsSquare (M : Matrix) (n : Nat) : Prop := M.length = n ∧ ∀ row ∈ M, row.length = n

instance (M : Matrix) (n : Nat) : Decidable (IsSquare M n) :=
  inferInstanceAs (Decidable (M.length = n ∧ ∀ row ∈ M, row.length = n))

/-- The table `f` with the value at `(i, j)` replaced by `v`. -/
def upd (f : Nat → Nat → Int) (i j : Nat) (v : Int) : Nat → Nat → Int :=
  fun i' j' => if i' = i ∧ j' = j then v else f i' j'

/-- An `n × n` matrix being filled row by row with `val`: the cells before `(i, j)` in
row-major order hold `val`, the others are still zero. -/
def fill (n : Nat) (val : Nat → Nat → Int) (i j : Nat) : Matrix :=
  ofFn n fun i' j' => if i' < i ∨ (i' = i ∧ j' < j) then val i' j' else 0

/-- The table of the matrix assembled from four quadrant tables of dimension `h`:
`c11` at offset `(0, 0)`, `c12` at `(0, h)`, `c21` at `(h, 0)`, `c22` at `(h, h)`, and
zero outside the `2h × 2h` block. -/
def joinVal (h : Nat) (c11 c12 c21 c22 : Nat → Nat → Int) : Nat → Nat → Int :=
  fun i j =>
    if i < h then
      if j < h then c11 i j else if j < 2 * h then c12 i (j - h) else 0
    else if i < 2 * h then
      if j < h then c21 (i - h) j else if j < 2 * h then c22 (i - h) (j - h) else 0
    else 0

/-- The cells of the joined matrix already written when the join loop is about to run
round `(i, j)`. -/
def joinDone (h i j i' j' : Nat) : Prop :=
  j' < 2 * h ∧ ((i' < i ∨ (h ≤ i' ∧ i' < h + i)) ∨
    ((i' = i ∨ i' = h + i) ∧ (j' < j ∨ (h ≤ j' ∧ j' < h + j))))

instance (h i j i' j' : Nat) : Decidable (joinDone h i j i' j') :=
  inferInstanceAs (Decidable (j' < 2 * h ∧ ((i' < i ∨ (h ≤ i' ∧ i' < h + i)) ∨
    ((i' = i ∨ i' = h + i) ∧ (j' < j ∨ (h ≤ j' ∧ j' < h + j))))))

/-- The standard cubic matrix product: entry `(i, j)` is the sum over `t` of
`A[i][t] * B[t][j]`. -/
def naiveMul (A B : Matrix) : Matrix :=
  let n := A.length
  ofFn n fun i j => ((List.range n).map fun t => entry A i t * entry B t j).sum

/-- The first operand of test 3 in `main` (lines 198-207): `A3[i][j] = 10 * i + j + 1`. -/
def test3A : Matrix := ofFn 10 fun i j => 10 * (i : Int) + j + 1

/-- The second operand of test 3 in `main` (lines 198-207): `B3[i][j] = 10 * i + j + 101`. -/
def test3B : Matrix := ofFn 10 fun i j => 10 * (i : Int) + j + 101

/-- The `n × n` identity matrix. -/
def identity (n : Nat) : Matrix := ofFn n fun i j => if i = j then 1 else 0

/-- The loop `while (n > 2) n = n / 2`, run for at most `fuel` rounds. -/
def halveWhileAboveTwo : Nat → Nat → Nat
  | 0, n => n
  | fuel + 1, n => if 2 < n then halveWhileAboveTwo fuel (n / 2) else n

/-- The dimensions whose repeated halving ends at 2: `2^(k+1) ≤ n < 3 * 2^k` for some `k`. -/
def EndsAtTwo (n : Nat) : Prop := ∃ k, 2 ^ (k + 1) ≤ n ∧ n < 3 * 2 ^ k

/-! ## Instrumented run: counting invocations and multiplications -/

/-- Counters of one run of `strassen`: invocations of `strassen` (the top-level call
included), invocations that complete the base case, scalar multiplications (the eight
products of lines 61-64 per completed base case), and invocations that take the
shape-mismatch branch of line 52. -/
structure Cost where
  invocations : Nat
  baseCases : Nat
  mults : Nat
  mismatches : Nat
  deriving DecidableEq, Repr

/-- Componentwise sum of two counters. -/
def Cost.add (a b : Cost) : Cost :=
  ⟨a.invocations + b.invocations, a.baseCases + b.baseCases, a.mults + b.mults,
    a.mismatches + b.mismatches⟩

/-- The outcome of a run together with what it has counted up to its end or fault. -/
structure Counted (α : Type) where
  run : Run α
  cost : Cost

/-- Sequencing of counted runs: counters add up, and stop at the first fault. -/
def Counted.bind {α β : Type} (x : Counted α) (f : α → Counted β) : Counted β :=
  match x.run with
  | .ok a => ⟨(f a).run, x.cost.add (f a).cost⟩
  | .fault e => ⟨.fault e, x.cost⟩

instance : Monad Counted where
  pure a := ⟨.ok a, ⟨0, 0, 0, 0⟩⟩
  bind := Counted.bind

instance : MonadLift Run Counted where
  monadLift r := ⟨r, ⟨0, 0, 0, 0⟩⟩

/-- Add `c` to the counters. -/
def charge (c : Cost) : Counted Unit := ⟨.ok (), c⟩

/-- Source `strassen` (lines 48-124) as in `strassenFuel`, with the counters of `Cost`
kept alongside. -/
def strassenCount : Nat → Matrix → Matrix → Counted Matrix
  | 0, _, _ => ⟨.fault .outOfFuel, ⟨0, 0, 0, 0⟩⟩
  | fuel + 1, A, B => do
    charge ⟨1, 0, 0, 0⟩
    let n := A.length
    if n ≠ B.length then
      charge ⟨0, 0, 0, 1⟩
      pure []
    else if n ≤ 2 then
      let C ← baseCase A B n
      charge ⟨0, 1, 8, 0⟩
      pure C
    else
      let new_size := n / 2
      let q ← splitLoop A B new_size
      let p1 ← strassenCount fuel q.a11 (← subtractMatrix q.b12 q.b22)
      let p2 ← strassenCount fuel (← addMatrix q.a11 q.a12) q.b22
      let p3 ← strassenCount fuel (← addMatrix q.a21 q.a22) q.b11
      let p4 ← strassenCount fuel q.a22 (← subtractMatrix q.b21 q.b11)
      let p5 ← strassenCount fuel (← addMatrix q.a11 q.a22) (← addMatrix q.b11 q.b22)
      let p6 ← strassenCount fuel (← subtractMatrix q.a12 q.a22) (← addMatrix q.b21 q.b22)
      let p7 ← strassenCount fuel (← subtractMatrix q.a11 q.a21) (← addMatrix q.b11 q.b12)
      let c11 ← addMatrix (← subtractMatrix (← addMatrix p5 p4) p2) p6
      let c12 ← addMatrix p1 p2
      let c21 ← addMatrix p3 p4
      let c22 ← subtractMatrix (← subtractMatrix (← addMatrix p5 p1) p3) p7
      joinLoop n new_size c11 c12 c21 c22

/-- Number of invocations of `strassen` on dimension `2^(k+1)`: `1 + 7 + … + 7^k`. -/
def invocationsPow : Nat → Nat
  | 0 => 1
  | k + 1 => 1 + 7 * invocationsPow k

/-- Number of scalar products in the standard definition of the product of two `n × n`
matrices: `n` products for each of the `n * n` entries. -/
def naiveMults (n : Nat) : Nat :=
  ((List.range n).map fun _ => ((List.range n).map fun _ => (List.range n).length).sum).sum

/-! ## The same program over 32-bit integers that wrap -/

/-- The value of a 32-bit signed integer after an operation whose exact result is `x`:
reduction modulo `2^32` into `[-2^31, 2^31)`. -/
def wrap32 (x : Int) : Int := (x + 2147483648) % 4294967296 - 2147483648

/-- Source `subtractMatrix` (lines 22-30): `C[i][j] = A[i][j] - B[i][j]` on 32-bit `int`. -/
def subtractMatrix32 (A B : Matrix) : Run Matrix :=
  let n := A.length
  forLoop (fun i C => forLoop (fun j C => do
    let a ← getE A i j
    let b ← getE B i j
    setE C i j (wrap32 (a - b))) n C) n (mkMatrix n)

/-- Source `addMatrix` (lines 36-43): `C[i][j] = A[i][j] + B[i][j]` on 32-bit `int`. -/
def addMatrix32 (A B : Matrix) : Run Matrix :=
  let n := A.length
  forLoop (fun i C => forLoop (fun j C => do
    let a ← getE A i j
    let b ← getE B i j
    setE C i j (wrap32 (a + b))) n C) n (mkMatrix n)

/-- The base case of `strassen` (lines 60-65) on 32-bit `int`: each product and each sum
is reduced. -/
def baseCase32 (A B : Matrix) (n : Nat) : Run Matrix := do
  let C := mkMatrix n
  let C ← setE C 0 0 (wrap32 (wrap32 ((← getE A 0 0) * (← getE B 0 0))
    + wrap32 ((← getE A 0 1) * (← getE B 1 0))))
  let C ← setE C 0 1 (wrap32 (wrap32 ((← getE A 0 0) * (← getE B 0 1))
    + wrap32 ((← getE A 0 1) * (← getE B 1 1))))
  let C ← setE C 1 0 (wrap32 (wrap32 ((← getE A 1 0) * (← getE B 0 0))
    + wrap32 ((← getE A 1 1) * (← getE B 1 0))))
  let C ← setE C 1 1 (wrap32 (wrap32 ((← getE A 1 0) * (← getE B 0 1))
    + wrap32 ((← getE A 1 1) * (← getE B 1 1))))
  pure C

/-- Source `strassen` (lines 48-124) on 32-bit `int`, with an explicit bound `fuel` on the
depth of the recursion. -/
def strassenFuel32 : Nat → Matrix → Matrix → Run Matrix
  | 0, _, _ => .fault .outOfFuel
  | fuel + 1, A, B =>
    let n := A.length
    if n ≠ B.length then .ok []
    else if n ≤ 2 then baseCase32 A B n
    else do
      let new_size := n / 2
      let q ← splitLoop A B new_size
      let p1 ← strassenFuel32 fuel q.a11 (← subtractMatrix32 q.b12 q.b22)
      let p2 ← strassenFuel32 fuel (← addMatrix32 q.a11 q.a12) q.b22
      let p3 ← strassenFuel32 fuel (← addMatrix32 q.a21 q.a22) q.b11
      let p4 ← strassenFuel32 fuel q.a22 (← subtractMatrix32 q.b21 q.b11)
      let p5 ← strassenFuel32 fuel (← addMatrix32 q.a11 q.a22) (← addMatrix32 q.b11 q.b22)
      let p6 ← strassenFuel32 fuel (← subtractMatrix32 q.a12 q.a22)
        (← addMatrix32 q.b21 q.b22)
      let p7 ← strassenFuel32 fuel (← subtractMatrix32 q.a11 q.a21)
        (← addMatrix32 q.b11 q.b12)
      let c11 ← addMatrix32 (← subtractMatrix32 (← addMatrix32 p5 p4) p2) p6
      let c12 ← addMatrix32 p1 p2
      let c21 ← addMatrix32 p3 p4
      let c22 ← subtractMatrix32 (← subtractMatrix32 (← addMatrix32 p5 p1) p3) p7
      joinLoop n new_size c11 c12 c21 c22

/-- Source `strassen` over wrapping 32-bit integers. -/
def strassen32 (A B : Matrix) : Run Matrix := strassenFuel32 (A.length + 1) A B

/-- The standard cubic product over wrapping 32-bit integers: each entry accumulates
`sum = sum + A[i][t] * B[t][j]` for `t = 0 … n-1`, every operation wrapping. -/
def naiveMul32 (A B : Matrix) : Matrix :=
  let n := A.length
  ofFn n fun i j =>
    (List.range n).foldl (fun acc t => wrap32 (acc + wrap32 (entry A i t * entry B t j))) 0

/-- A `4 × 4` operand with `2^30` at `(0, 0)` and `(2, 2)`: the Strassen operand
`a11 + a22` overflows on it. -/
def overflowA : Matrix :=
  [[1073741824, 0, 0, 0], [0, 0, 0, 0], [0, 0, 1073741824, 0], [0, 0, 0, 0]]

/-- A `5 × 5` operand with entries `2147483647 - i - j`, all within the 32-bit range. -/
def largeFive : Matrix := ofFn 5 fun i j => 2147483647 - (i : Int) - j

/-- Entrywise reduction of a matrix into the 32-bit range. -/
def wrapM (M : Matrix) : Matrix := M.map (List.map wrap32)

/-- Entrywise reduction of the eight quadrants. -/
def Quadrants.wrap (q : Quadrants) : Quadrants :=
  ⟨wrapM q.a11, wrapM q.a12, wrapM q.a21, wrapM q.a22,
   wrapM q.b11, wrapM q.b12, wrapM q.b21, wrapM q.b22⟩

/-- The outcome of a run with `f` applied to its value. -/
def Run.map {α β : Type} (f : α → β) : Run α → Run β
  | .ok a => .ok (f a)
  | .fault e => .fault e

/-- Every entry lies in the range of a 32-bit signed integer. -/
def InRange32 (M : Matrix) : Prop := ∀ row ∈ M, ∀ x ∈ row, -2147483648 ≤ x ∧ x < 2147483648

instance (M : Matrix) : Decidable (InRange32 M) :=
  inferInstanceAs (Decidable (∀ row ∈ M, ∀ x ∈ row, -2147483648 ≤ x ∧ x < 2147483648))

/-! ## Basic facts on runs and matrices -/

@[simp] theorem Run.ok_bind {α β : Type} (a : α) (f : α → Run β) :
    (Run.ok a >>= f) = f a := rfl

@[simp] theorem Run.bind_ok_eq {α β : Type} (a : α) (f : α → Run β) :
    Run.bind (Run.ok a) f = f a := rfl

@[simp] theorem Run.pure_eq {α : Type} (a : α) : (pure a : Run α) = Run.ok a := rfl

@[simp] theorem length_ofFn (n : Nat) (f : Nat → Nat → Int) : (ofFn n f).length = n := by
  simp [ofFn]

theorem getElem?_ofFn {n i : Nat} (f : Nat → Nat → Int) (hi : i < n) :
    (ofFn n f)[i]? = some ((List.range n).map fun j => f i j) := by
  simp [ofFn, List.getElem?_map, List.getElem?_range hi]

theorem getElem?_ofFn_none {n i : Nat} (f : Nat → Nat → Int) (hi : n ≤ i) :
    (ofFn n f)[i]? = none := by
  simp [ofFn, hi]

theorem ofFn_congr {n : Nat} {f g : Nat → Nat → Int}
    (h : ∀ i j, i < n → j < n → f i j = g i j) : ofFn n f = ofFn n g := by
  unfold ofFn
  apply List.map_congr_left
  intro i hi
  apply List.map_congr_left
  intro j hj
  exact h i j (List.mem_range.mp hi) (List.mem_range.mp hj)

theorem mkMatrix_eq_ofFn (n : Nat) : mkMatrix n = ofFn n fun _ _ => 0 := by
  unfold mkMatrix ofFn
  apply List.ext_getElem <;> simp

theorem isSquare_ofFn (n : Nat) (f : Nat → Nat → Int) : IsSquare (ofFn n f) n := by
  refine ⟨length_ofFn n f, ?_⟩
  intro row hrow
  simp only [ofFn, List.mem_map] at hrow
  obtain ⟨i, _, rfl⟩ := hrow
  simp

theorem entry_ofFn {n i j : Nat} (f : Nat → Nat → Int) (hi : i < n) (hj : j < n) :
    entry (ofFn n f) i j = f i j := by
  simp [entry, List.getD_eq_getElem?_getD, getElem?_ofFn f hi, List.getElem?_range hj]

theorem getE_ofFn {n i j : Nat} (f : Nat → Nat → Int) (hi : i < n) (hj : j < n) :
    getE (ofFn n f) i j = .ok (f i j) := by
  simp [getE, getElem?_ofFn f hi, List.getElem?_range hj]

theorem setE_ofFn {n i j : Nat} (f : Nat → Nat → Int) (v : Int) (hi : i < n) (hj : j < n) :
    setE (ofFn n f) i j v = .ok (ofFn n (upd f i j v)) := by
  simp only [setE, getElem?_ofFn f hi, List.length_map, List.length_range, hj, if_true]
  congr 1
  apply List.ext_getElem
  · simp
  · intro a h1 h2
    have ha : a < n := by simpa using h2
    simp only [List.getElem_set, ofFn, List.getElem_map, List.getElem_range]
    by_cases hia : i = a
    · subst hia
      simp only [if_true]
      apply List.ext_getElem
      · simp
      · intro b h3 h4
        simp only [List.getElem_set, List.getElem_map, List.getElem_range, upd]
        by_cases hjb : j = b
        · subst hjb; simp
        · have : ¬ b = j := fun h => hjb h.symm
          simp [hjb, this]
    · have : ¬ a = i := fun h => hia h.symm
      simp only [hia, if_false]
      apply List.map_congr_left
      intro b _
      simp [upd, this]

theorem eq_ofFn_of_isSquare {M : Matrix} {n : Nat} (h : IsSquare M n) :
    M = ofFn n (entry M) := by
  obtain ⟨hlen, hrows⟩ := h
  apply List.ext_getElem
  · simp [hlen]
  · intro a h1 h2
    have hrow : (M[a]).length = n := hrows _ (List.getElem_mem h1)
    simp only [ofFn, List.getElem_map, List.getElem_range]
    apply List.ext_getElem
    · simp [hrow]
    · intro b h3 h4
      simp [entry, List.getD_eq_getElem?_getD, List.getElem?_eq_getElem h1,
        List.getElem?_eq_getElem h3]

/-! ## Loops -/

theorem forLoop_succ {σ : Type} (body : Nat → σ → Run σ) (k : Nat) (s : σ) :
    forLoop body (k + 1) s = Run.bind (forLoop body k s) (body k) := rfl

/-- A loop whose state after `i` rounds is known to be `F i`. -/
theorem forLoop_eq {σ : Type} (body : Nat → σ → Run σ) (n : Nat) (F : Nat → σ)
    (hstep : ∀ i, i < n → body i (F i) = .ok (F (i + 1))) :
    forLoop body n (F 0) = .ok (F n) := by
  induction n with
  | zero => rfl
  | succ k ih =>
    rw [forLoop_succ, ih (fun i hi => hstep i (Nat.lt_succ_of_lt hi))]
    exact hstep k (Nat.lt_succ_self k)

/-- A double loop whose state before round `(i, j)` is known to be `G i j`. -/
theorem nestedLoop_eq {σ : Type} (body : Nat → Nat → σ → Run σ) (n m : Nat)
    (G : Nat → Nat → σ)
    (hstep : ∀ i j, i < n → j < m → body i j (G i j) = .ok (G i (j + 1)))
    (hrow : ∀ i, i < n → G i m = G (i + 1) 0) :
    forLoop (fun i s => forLoop (fun j s => body i j s) m s) n (G 0 0) = .ok (G n 0) := by
  apply forLoop_eq (fun i s => forLoop (fun j s => body i j s) m s) n (fun i => G i 0)
  intro i hi
  show forLoop (fun j s => body i j s) m (G i 0) = .ok (G (i + 1) 0)
  rw [← hrow i hi]
  exact forLoop_eq (fun j s => body i j s) m (fun j => G i j) (fun j hj => hstep i j hi hj)

theorem fill_zero (n : Nat) (val : Nat → Nat → Int) : fill n val 0 0 = mkMatrix n := by
  rw [mkMatrix_eq_ofFn]
  apply ofFn_congr
  intro i j _ _
  simp

theorem fill_row (n : Nat) (val : Nat → Nat → Int) (i : Nat) :
    fill n val i n = fill n val (i + 1) 0 := by
  apply ofFn_congr
  intro i' j' _ hj
  have h : (i' < i ∨ i' = i ∧ j' < n) ↔ (i' < i + 1 ∨ i' = i + 1 ∧ j' < 0) := by omega
  simp only [h]

theorem fill_full (n : Nat) (val : Nat → Nat → Int) : fill n val n 0 = ofFn n val := by
  apply ofFn_congr
  intro i' j' hi _
  simp [hi]

theorem setE_fill {n i j : Nat} (val : Nat → Nat → Int) (hi : i < n) (hj : j < n) :
    setE (fill n val i j) i j (val i j) = .ok (fill n val i (j + 1)) := by
  unfold fill
  rw [setE_ofFn _ _ hi hj]
  congr 1
  apply ofFn_congr
  intro i' j' _ _
  simp only [upd]
  by_cases h : i' = i ∧ j' = j
  · obtain ⟨rfl, rfl⟩ := h
    simp
  · have h2 : (i' < i ∨ i' = i ∧ j' < j + 1) ↔ (i' < i ∨ i' = i ∧ j' < j) := by omega
    simp only [h, if_false, h2]

/-! ## The elementwise combiner -/

theorem addMatrix_ofFn (n : Nat) (f g : Nat → Nat → Int) :
    addMatrix (ofFn n f) (ofFn n g) = .ok (ofFn n fun i j => f i j + g i j) := by
  unfold addMatrix
  simp only [length_ofFn]
  rw [← fill_zero n (fun i j => f i j + g i j), ← fill_full n (fun i j => f i j + g i j)]
  apply nestedLoop_eq (fun i j C => do
    let a ← getE (ofFn n f) i j
    let b ← getE (ofFn n g) i j
    setE C i j (a + b)) n n (fill n fun i j => f i j + g i j)
  · intro i j hi hj
    simp only [getE_ofFn f hi hj, getE_ofFn g hi hj, Run.ok_bind]
    exact setE_fill (fun i j => f i j + g i j) hi hj
  · intro i _
    exact fill_row n _ i

theorem subtractMatrix_ofFn (n : Nat) (f g : Nat → Nat → Int) :
    subtractMatrix (ofFn n f) (ofFn n g) = .ok (ofFn n fun i j => f i j - g i j) := by
  unfold subtractMatrix
  simp only [length_ofFn]
  rw [← fill_zero n (fun i j => f i j - g i j), ← fill_full n (fun i j => f i j - g i j)]
  apply nestedLoop_eq (fun i j C => do
    let a ← getE (ofFn n f) i j
    let b ← getE (ofFn n g) i j
    setE C i j (a - b)) n n (fill n fun i j => f i j - g i j)
  · intro i j hi hj
    simp only [getE_ofFn f hi hj, getE_ofFn g hi hj, Run.ok_bind]
    exact setE_fill (fun i j => f i j - g i j) hi hj
  · intro i _
    exact fill_row n _ i

/-! ## The split step -/

/-- The four quadrants of the table `f` cut at `h`, and of `g`, as the split loop
builds them. -/
theorem splitLoop_ofFn (n h : Nat) (f g : Nat → Nat → Int) (hn : 2 * h ≤ n) :
    splitLoop (ofFn n f) (ofFn n g) h = .ok
      ⟨ofFn h fun i j => f i j, ofFn h fun i j => f i (j + h),
       ofFn h fun i j => f (i + h) j, ofFn h fun i j => f (i + h) (j + h),
       ofFn h fun i j => g i j, ofFn h fun i j => g i (j + h),
       ofFn h fun i j => g (i + h) j, ofFn h fun i j => g (i + h) (j + h)⟩ := by
  unfold splitLoop
  simp only
  have key := nestedLoop_eq (fun i j q => splitBody (ofFn n f) (ofFn n g) h i j q) h h
    (fun i j => (⟨fill h (fun i j => f i j) i j, fill h (fun i j => f i (j + h)) i j,
       fill h (fun i j => f (i + h) j) i j, fill h (fun i j => f (i + h) (j + h)) i j,
       fill h (fun i j => g i j) i j, fill h (fun i j => g i (j + h)) i j,
       fill h (fun i j => g (i + h) j) i j, fill h (fun i j => g (i + h) (j + h)) i j⟩ :
       Quadrants))
    (by
      intro i j hi hj
      have h1 : i < n := by omega
      have h2 : j < n := by omega
      have h3 : i + h < n := by omega
      have h4 : j + h < n := by omega
      simp only [splitBody, getE_ofFn f h1 h2, getE_ofFn f h1 h4, getE_ofFn f h3 h2,
        getE_ofFn f h3 h4, getE_ofFn g h1 h2, getE_ofFn g h1 h4, getE_ofFn g h3 h2,
        getE_ofFn g h3 h4, Run.ok_bind,
        setE_fill (fun i j => f i j) hi hj, setE_fill (fun i j => f i (j + h)) hi hj,
        setE_fill (fun i j => f (i + h) j) hi hj,
        setE_fill (fun i j => f (i + h) (j + h)) hi hj,
        setE_fill (fun i j => g i j) hi hj, setE_fill (fun i j => g i (j + h)) hi hj,
        setE_fill (fun i j => g (i + h) j) hi hj,
        setE_fill (fun i j => g (i + h) (j + h)) hi hj, Run.pure_eq])
    (by
      intro i _
      simp only [fill_row])
  simp only [fill_zero, fill_full] at key
  exact key

/-! ## The join step -/

theorem joinVal_11 {h i j : Nat} (c11 c12 c21 c22 : Nat → Nat → Int) (hi : i < h) (hj : j < h) :
    joinVal h c11 c12 c21 c22 i j = c11 i j := by
  simp [joinVal, hi, hj]

theorem joinVal_12 {h i j : Nat} (c11 c12 c21 c22 : Nat → Nat → Int) (hi : i < h) (hj : j < h) :
    joinVal h c11 c12 c21 c22 i (j + h) = c12 i j := by
  have h1 : ¬ j + h < h := by omega
  have h2 : j + h < 2 * h := by omega
  simp [joinVal, hi, h1, h2]

theorem joinVal_21 {h i j : Nat} (c11 c12 c21 c22 : Nat → Nat → Int) (hi : i < h) (hj : j < h) :
    joinVal h c11 c12 c21 c22 (i + h) j = c21 i j := by
  have h1 : ¬ i + h < h := by omega
  have h2 : i + h < 2 * h := by omega
  simp [joinVal, hj, h1, h2]

theorem joinVal_22 {h i j : Nat} (c11 c12 c21 c22 : Nat → Nat → Int) (hi : i < h) (hj : j < h) :
    joinVal h c11 c12 c21 c22 (i + h) (j + h) = c22 i j := by
  have h1 : ¬ i + h < h := by omega
  have h2 : i + h < 2 * h := by omega
  have h3 : ¬ j + h < h := by omega
  have h4 : j + h < 2 * h := by omega
  simp [joinVal, h1, h2, h3, h4]

theorem joinVal_outside {h i j : Nat} (c11 c12 c21 c22 : Nat → Nat → Int)
    (hij : 2 * h ≤ i ∨ 2 * h ≤ j) : joinVal h c11 c12 c21 c22 i j = 0 := by
  unfold joinVal
  split_ifs <;> first | rfl | omega

/-- One round of the join loop on the partially written result. -/
theorem joinBody_step (n h : Nat) (c11 c12 c21 c22 : Nat → Nat → Int) (hn : 2 * h ≤ n)
    (i j : Nat) (hi : i < h) (hj : j < h) :
    joinBody (ofFn h c11) (ofFn h c12) (ofFn h c21) (ofFn h c22) h i j
      (ofFn n fun i' j' => if joinDone h i j i' j' then joinVal h c11 c12 c21 c22 i' j' else 0)
    = .ok (ofFn n fun i' j' =>
        if joinDone h i (j + 1) i' j' then joinVal h c11 c12 c21 c22 i' j' else 0) := by
  have h1 : i < n := by omega
  have h2 : j < n := by omega
  have h3 : i + h < n := by omega
  have h4 : j + h < n := by omega
  simp only [joinBody, getE_ofFn c11 hi hj, getE_ofFn c12 hi hj, getE_ofFn c21 hi hj,
    getE_ofFn c22 hi hj, Run.ok_bind, setE_ofFn _ _ h1 h2, setE_ofFn _ _ h1 h4,
    setE_ofFn _ _ h3 h2, setE_ofFn _ _ h3 h4]
  congr 1
  apply ofFn_congr
  intro i' j' _ _
  simp only [upd]
  by_cases e4 : i' = i + h ∧ j' = j + h
  · obtain ⟨rfl, rfl⟩ := e4
    have hd : joinDone h i (j + 1) (i + h) (j + h) := by unfold joinDone; omega
    simp [hd, joinVal_22 c11 c12 c21 c22 hi hj]
  · by_cases e3 : i' = i + h ∧ j' = j
    · obtain ⟨rfl, rfl⟩ := e3
      have hd : joinDone h i (j' + 1) (i + h) j' := by unfold joinDone; omega
      have hne : ¬ (j' = j' + h) := by omega
      simp [hd, joinVal_21 c11 c12 c21 c22 hi hj, hne]
    · by_cases e2 : i' = i ∧ j' = j + h
      · obtain ⟨rfl, rfl⟩ := e2
        have hd : joinDone h i' (j + 1) i' (j + h) := by unfold joinDone; omega
        have hne : ¬ (i' = i' + h) := by omega
        simp [hd, joinVal_12 c11 c12 c21 c22 hi hj, hne]
      · by_cases e1 : i' = i ∧ j' = j
        · obtain ⟨rfl, rfl⟩ := e1
          have hd : joinDone h i' (j' + 1) i' j' := by unfold joinDone; omega
          have hne : ¬ (i' = i' + h) := by omega
          have hne2 : ¬ (j' = j' + h) := by omega
          simp [hd, joinVal_11 c11 c12 c21 c22 hi hj, hne, hne2]
        · have hd : joinDone h i (j + 1) i' j' ↔ joinDone h i j i' j' := by
            unfold joinDone; omega
          simp only [e4, e3, e2, e1, if_false, hd]

/-- The join loop writes the four quadrant tables at their offsets. -/
theorem joinLoop_ofFn (n h : Nat) (c11 c12 c21 c22 : Nat → Nat → Int) (hn : 2 * h ≤ n) :
    joinLoop n h (ofFn h c11) (ofFn h c12) (ofFn h c21) (ofFn h c22)
      = .ok (ofFn n (joinVal h c11 c12 c21 c22)) := by
  unfold joinLoop
  have key := nestedLoop_eq
    (fun i j C => joinBody (ofFn h c11) (ofFn h c12) (ofFn h c21) (ofFn h c22) h i j C) h h
    (fun i j => ofFn n fun i' j' =>
      if joinDone h i j i' j' then joinVal h c11 c12 c21 c22 i' j' else 0)
    (fun i j hi hj => joinBody_step n h c11 c12 c21 c22 hn i j hi hj)
    (by
      intro i hi
      apply ofFn_congr
      intro i' j' _ _
      have hd : joinDone h i h i' j' ↔ joinDone h (i + 1) 0 i' j' := by
        unfold joinDone; omega
      simp only [hd])
  have e0 : (ofFn n fun i' j' =>
      if joinDone h 0 0 i' j' then joinVal h c11 c12 c21 c22 i' j' else 0) = mkMatrix n := by
    rw [mkMatrix_eq_ofFn]
    apply ofFn_congr
    intro i' j' _ _
    have hd : ¬ joinDone h 0 0 i' j' := by unfold joinDone; omega
    simp [hd]
  have e1 : (ofFn n fun i' j' =>
      if joinDone h h 0 i' j' then joinVal h c11 c12 c21 c22 i' j' else 0)
      = ofFn n (joinVal h c11 c12 c21 c22) := by
    apply ofFn_congr
    intro i' j' _ _
    by_cases hd : joinDone h h 0 i' j'
    · simp [hd]
    · have : 2 * h ≤ i' ∨ 2 * h ≤ j' := by unfold joinDone at hd; omega
      simp [hd, joinVal_outside c11 c12 c21 c22 this]
  simp only [] at key
  rw [e0, e1] at key
  exact key

/-! ## The recursive multiplier -/

theorem sum_range_double (h : Nat) (F : Nat → Int) :
    ∑ t in Finset.range (2 * h), F t
      = ∑ t in Finset.range h, F t + ∑ t in Finset.range h, F (t + h) := by
  rw [two_mul, Finset.sum_range_add]
  congr 1
  apply Finset.sum_congr rfl
  intro t _
  rw [Nat.add_comm]

/-- The base case on two `2 × 2` tables is the product of the tables. -/
theorem baseCase_two (f g : Nat → Nat → Int) :
    baseCase (ofFn 2 f) (ofFn 2 g) 2
      = .ok (ofFn 2 fun i j => ∑ t in Finset.range 2, f i t * g t j) := by
  have h0 : (0 : Nat) < 2 := by decide
  have h1 : (1 : Nat) < 2 := by decide
  simp only [baseCase, mkMatrix_eq_ofFn, getE_ofFn f h0 h0, getE_ofFn f h0 h1,
    getE_ofFn f h1 h0, getE_ofFn f h1 h1, getE_ofFn g h0 h0, getE_ofFn g h0 h1,
    getE_ofFn g h1 h0, getE_ofFn g h1 h1, Run.ok_bind, setE_ofFn _ _ h0 h0,
    setE_ofFn _ _ h0 h1, setE_ofFn _ _ h1 h0, setE_ofFn _ _ h1 h1, Run.pure_eq]
  congr 1
  apply ofFn_congr
  intro i j hi hj
  interval_cases i <;> interval_cases j <;> simp [upd, Finset.sum_range_succ]

/-- The seven-product combination of one recursion level, entry by entry: the joined
quadrant tables are the product of the two `2h × 2h` tables. -/
theorem strassen_combine (h : Nat) (f g : Nat → Nat → Int) (i j : Nat)
    (hi : i < 2 * h) (hj : j < 2 * h) :
    joinVal h
      (fun i j =>
        (∑ t in Finset.range h, (f i t + f (i + h) (t + h)) * (g t j + g (t + h) (j + h))
          + ∑ t in Finset.range h, f (i + h) (t + h) * (g (t + h) j - g t j)
          - ∑ t in Finset.range h, (f i t + f i (t + h)) * g (t + h) (j + h))
          + ∑ t in Finset.range h, (f i (t + h) - f (i + h) (t + h))
              * (g (t + h) j + g (t + h) (j + h)))
      (fun i j =>
        ∑ t in Finset.range h, f i t * (g t (j + h) - g (t + h) (j + h))
          + ∑ t in Finset.range h, (f i t + f i (t + h)) * g (t + h) (j + h))
      (fun i j =>
        ∑ t in Finset.range h, (f (i + h) t + f (i + h) (t + h)) * g t j
          + ∑ t in Finset.range h, f (i + h) (t + h) * (g (t + h) j - g t j))
      (fun i j =>
        ((∑ t in Finset.range h, (f i t + f (i + h) (t + h)) * (g t j + g (t + h) (j + h))
          + ∑ t in Finset.range h, f i t * (g t (j + h) - g (t + h) (j + h)))
          - ∑ t in Finset.range h, (f (i + h) t + f (i + h) (t + h)) * g t j)
          - ∑ t in Finset.range h, (f i t - f (i + h) t) * (g t j + g t (j + h)))
      i j
    = ∑ t in Finset.range (2 * h), f i t * g t j := by
  rw [sum_range_double]
  by_cases hi' : i < h
  · by_cases hj' : j < h
    · rw [joinVal_11 _ _ _ _ hi' hj']
      simp only [← Finset.sum_add_distrib, ← Finset.sum_sub_distrib]
      apply Finset.sum_congr rfl
      intro t _
      ring
    · obtain ⟨j0, rfl⟩ : ∃ j0, j = j0 + h := ⟨j - h, by omega⟩
      have hj0 : j0 < h := by omega
      rw [joinVal_12 _ _ _ _ hi' hj0]
      simp only [← Finset.sum_add_distrib, ← Finset.sum_sub_distrib]
      apply Finset.sum_congr rfl
      intro t _
      ring
  · obtain ⟨i0, rfl⟩ : ∃ i0, i = i0 + h := ⟨i - h, by omega⟩
    have hi0 : i0 < h := by omega
    by_cases hj' : j < h
    · rw [joinVal_21 _ _ _ _ hi0 hj']
      simp only [← Finset.sum_add_distrib, ← Finset.sum_sub_distrib]
      apply Finset.sum_congr rfl
      intro t _
      ring
    · obtain ⟨j0, rfl⟩ : ∃ j0, j = j0 + h := ⟨j - h, by omega⟩
      have hj0 : j0 < h := by omega
      rw [joinVal_22 _ _ _ _ hi0 hj0]
      simp only [← Finset.sum_add_distrib, ← Finset.sum_sub_distrib]
      apply Finset.sum_congr rfl
      intro t _
      ring

/-- With enough fuel, `strassen` on two tables of dimension `2^(k+1)` returns the table
of their product. -/
theorem strassenFuel_ofFn (k : Nat) : ∀ (fuel : Nat) (f g : Nat → Nat → Int), k < fuel →
    strassenFuel fuel (ofFn (2 ^ (k + 1)) f) (ofFn (2 ^ (k + 1)) g)
      = .ok (ofFn (2 ^ (k + 1)) fun i j => ∑ t in Finset.range (2 ^ (k + 1)), f i t * g t j) := by
  induction k with
  | zero =>
    intro fuel f g hfuel
    obtain ⟨fuel', rfl⟩ : ∃ m, fuel = m + 1 := ⟨fuel - 1, by omega⟩
    simp only [strassenFuel, length_ofFn, ne_eq, not_true_eq_false, if_false]
    exact baseCase_two f g
  | succ k ih =>
    intro fuel f g hfuel
    obtain ⟨fuel', rfl⟩ : ∃ m, fuel = m + 1 := ⟨fuel - 1, by omega⟩
    have ih' := fun f g => ih fuel' f g (by omega)
    have hpos : 0 < 2 ^ k := Nat.pow_pos (by decide)
    have hbig : ¬ 2 ^ (k + 1 + 1) ≤ 2 := by
      have : 2 ^ (k + 1 + 1) = 4 * 2 ^ k := by ring
      omega
    have hhalf : 2 ^ (k + 1 + 1) / 2 = 2 ^ (k + 1) := by
      rw [pow_succ 2 (k + 1)]
      exact Nat.mul_div_cancel _ (by decide)
    have hdouble : 2 ^ (k + 1 + 1) = 2 * 2 ^ (k + 1) := by ring
    rw [strassenFuel]
    simp only [length_ofFn, ne_eq, not_true_eq_false, if_false, hbig, hhalf]
    rw [splitLoop_ofFn (2 ^ (k + 1 + 1)) (2 ^ (k + 1)) f g (by omega)]
    simp only [Run.ok_bind, addMatrix_ofFn, subtractMatrix_ofFn, ih']
    rw [joinLoop_ofFn _ _ _ _ _ _ (by omega)]
    congr 1
    apply ofFn_congr
    intro i j hi hj
    rw [hdouble] at hi hj ⊢
    exact strassen_combine (2 ^ (k + 1)) f g i j hi hj

/-! ## The naive product -/

theorem list_sum_range (n : Nat) (F : Nat → Int) :
    ((List.range n).map F).sum = ∑ t in Finset.range n, F t := by
  induction n with
  | zero => simp
  | succ k ih => simp [List.range_succ, Finset.sum_range_succ, ih]

theorem naiveMul_ofFn (n : Nat) (f g : Nat → Nat → Int) :
    naiveMul (ofFn n f) (ofFn n g)
      = ofFn n fun i j => ∑ t in Finset.range n, f i t * g t j := by
  unfold naiveMul
  simp only [length_ofFn]
  apply ofFn_congr
  intro i j hi hj
  rw [list_sum_range]
  apply Finset.sum_congr rfl
  intro t ht
  have ht' : t < n := Finset.mem_range.mp ht
  rw [entry_ofFn f hi ht', entry_ofFn g ht' hj]

theorem exists_ofFn_of_isSquare {M : Matrix} {n : Nat} (h : IsSquare M n) :
    ∃ f : Nat → Nat → Int, M = ofFn n f :=
  ⟨entry M, eq_ofFn_of_isSquare h⟩

/-- With enough fuel, `strassen` on square operands of dimension `2^(k+1)` returns the
naive product. -/
theorem strassenFuel_eq_naiveMul (k fuel : Nat) (A B : Matrix) (hfuel : k < fuel)
    (hA : IsSquare A (2 ^ (k + 1))) (hB : IsSquare B (2 ^ (k + 1))) :
    strassenFuel fuel A B = .ok (naiveMul A B) := by
  obtain ⟨f, rfl⟩ := exists_ofFn_of_isSquare hA
  obtain ⟨g, rfl⟩ := exists_ofFn_of_isSquare hB
  rw [strassenFuel_ofFn k fuel f g hfuel, naiveMul_ofFn]

theorem lt_two_pow_succ (k : Nat) : k < 2 ^ (k + 1) + 1 := by
  have h := Nat.lt_two_pow k
  have h2 : 2 ^ (k + 1) = 2 * 2 ^ k := by ring
  omega

theorem joinVal_quadrants (h : Nat) (f : Nat → Nat → Int) (i j : Nat)
    (hi : i < 2 * h) (hj : j < 2 * h) :
    joinVal h (fun i j => f i j) (fun i j => f i (j + h)) (fun i j => f (i + h) j)
      (fun i j => f (i + h) (j + h)) i j = f i j := by
  unfold joinVal
  by_cases hi' : i < h
  · by_cases hj' : j < h
    · simp [hi', hj']
    · have e : j - h + h = j := by omega
      simp [hi', hj', hj, e]
  · by_cases hj' : j < h
    · have e : i - h + h = i := by omega
      simp [hi', hj', hi, e]
    · have e : j - h + h = j := by omega
      have e2 : i - h + h = i := by omega
      simp [hi', hj', hi, hj, e, e2]

/-! ## The claims -/

set_option maxRecDepth 100000 in
/-- Claim C2 (fails on the code): on the `10 × 10` operands of test 3 the run halves
10 to 5 and 5 to 2; the odd level leaves its last row and column at zero, and the
returned matrix differs from the naive product of the same operands. -/
theorem strassen_test3_not_product :
    strassen test3A test3B = .ok
      [[6240, 6280, 6320, 6360, 0, 6440, 6480, 6520, 6560, 0],
       [17520, 17640, 17760, 17880, 0, 18120, 18240, 18360, 18480, 0],
       [28800, 29000, 29200, 29400, 0, 29800, 30000, 30200, 30400, 0],
       [40080, 40360, 40640, 40920, 0, 41480, 41760, 42040, 42320, 0],
       [0, 0, 0, 0, 0, 0, 0, 0, 0, 0],
       [62640, 63080, 63520, 63960, 0, 64840, 65280, 65720, 66160, 0],
       [73920, 74440, 74960, 75480, 0, 76520, 77040, 77560, 78080, 0],
       [85200, 85800, 86400, 87000, 0, 88200, 88800, 89400, 90000, 0],
       [96480, 97160, 97840, 98520, 0, 99880, 100560, 101240, 101920, 0],
       [0, 0, 0, 0, 0, 0, 0, 0, 0, 0]] ∧
    naiveMul test3A test3B =
      [[8855, 8910, 8965, 9020, 9075, 9130, 9185, 9240, 9295, 9350],
       [23455, 23610, 23765, 23920, 24075, 24230, 24385, 24540, 24695, 24850],
       [38055, 38310, 38565, 38820, 39075, 39330, 39585, 39840, 40095, 40350],
       [52655, 53010, 53365, 53720, 54075, 54430, 54785, 55140, 55495, 55850],
       [67255, 67710, 68165, 68620, 69075, 69530, 69985, 70440, 70895, 71350],
       [81855, 82410, 82965, 83520, 84075, 84630, 85185, 85740, 86295, 86850],
       [96455, 97110, 97765, 98420, 99075, 99730, 100385, 101040, 101695, 102350],
       [111055, 111810, 112565, 113320, 114075, 114830, 115585, 116340, 117095, 117850],
       [125655, 126510, 127365, 128220, 129075, 129930, 130785, 131640, 132495, 133350],
       [140255, 141210, 142165, 143120, 144075, 145030, 145985, 146940, 147895, 148850]] ∧
    strassen test3A test3B ≠ .ok (naiveMul test3A test3B) ∧
    IsSquare test3A 10 ∧ IsSquare test3B 10 := by
  refine ⟨by decide, by decide, by decide, by decide, by decide⟩

/-- Claim C3: when the operands differ in their number of rows, `strassen` hands back
the empty matrix, whatever the rows contain and already with fuel for a single
invocation (no recursive call, no element access). -/
theorem strassen_shape_mismatch (fuel : Nat) (A B : Matrix) (h : A.length ≠ B.length) :
    strassenFuel (fuel + 1) A B = .ok [] ∧ strassen A B = .ok [] := by
  constructor
  · simp [strassenFuel, h]
  · simp [strassen, strassenFuel, h]

theorem strassen_shape_mismatch_witness :
    strassenFuel (0 + 1) [[1, 2], [3, 4]] [[5]] = .ok [] ∧
      strassen [[1, 2], [3, 4]] [[5]] = .ok [] :=
  strassen_shape_mismatch 0 [[1, 2], [3, 4]] [[5]] (by decide)

/-- Claim C5 (fails on the code): on `1 × 1` operands the base case is entered and
reads `A[0][1]`, which does not exist; the run faults instead of returning
`[[a * b]]`. -/
theorem strassen_one_by_one_out_of_bounds (a b : Int) :
    strassen [[a]] [[b]] = .fault .outOfBounds ∧ getE [[a]] 0 1 = .fault .outOfBounds := by
  exact ⟨rfl, rfl⟩

set_option maxRecDepth 100000 in
/-- Claim C6: on the `4 × 4` operands of test 2 `strassen` returns the naive product
`[[250, …], …, [1354, …, 1528]]`, with entry `[0][0] = 250`, using exactly one level of
recursion above the base case (fuel 2 suffices, fuel 1 does not). -/
theorem strassen_test2 :
    strassen [[1, 2, 3, 4], [5, 6, 7, 8], [9, 10, 11, 12], [13, 14, 15, 16]]
        [[17, 18, 19, 20], [21, 22, 23, 24], [25, 26, 27, 28], [29, 30, 31, 32]]
      = .ok [[250, 260, 270, 280], [618, 644, 670, 696], [986, 1028, 1070, 1112],
             [1354, 1412, 1470, 1528]] ∧
    naiveMul [[1, 2, 3, 4], [5, 6, 7, 8], [9, 10, 11, 12], [13, 14, 15, 16]]
        [[17, 18, 19, 20], [21, 22, 23, 24], [25, 26, 27, 28], [29, 30, 31, 32]]
      = [[250, 260, 270, 280], [618, 644, 670, 696], [986, 1028, 1070, 1112],
         [1354, 1412, 1470, 1528]] ∧
    entry [[250, 260, 270, 280], [618, 644, 670, 696], [986, 1028, 1070, 1112],
           [1354, 1412, 1470, 1528]] 0 0 = 250 ∧
    (1 * 17 + 2 * 21 + 3 * 25 + 4 * 29 : Int) = 250 ∧
    strassenFuel 2 [[1, 2, 3, 4], [5, 6, 7, 8], [9, 10, 11, 12], [13, 14, 15, 16]]
        [[17, 18, 19, 20], [21, 22, 23, 24], [25, 26, 27, 28], [29, 30, 31, 32]]
      = .ok [[250, 260, 270, 280], [618, 644, 670, 696], [986, 1028, 1070, 1112],
             [1354, 1412, 1470, 1528]] ∧
    strassenFuel 1 [[1, 2, 3, 4], [5, 6, 7, 8], [9, 10, 11, 12], [13, 14, 15, 16]]
        [[17, 18, 19, 20], [21, 22, 23, 24], [25, 26, 27, 28], [29, 30, 31, 32]]
      = .fault .outOfFuel := by
  refine ⟨by decide, by decide, by decide, by decide, by decide, by decide⟩

/-- Claim C7: for every square matrix `A` of dimension `2^k`, `k ≥ 1`, and the identity
matrix `I` of that dimension, `strassen A I` and `strassen I A` both return `A`. -/
theorem strassen_identity (k : Nat) (A : Matrix) (hk : 1 ≤ k) (hA : IsSquare A (2 ^ k)) :
    strassen A (identity (2 ^ k)) = .ok A ∧ strassen (identity (2 ^ k)) A = .ok A := by
  obtain ⟨k', rfl⟩ : ∃ m, k = m + 1 := ⟨k - 1, by omega⟩
  obtain ⟨f, rfl⟩ := exists_ofFn_of_isSquare hA
  unfold strassen identity
  simp only [length_ofFn]
  rw [strassenFuel_ofFn k' _ _ _ (lt_two_pow_succ k'),
    strassenFuel_ofFn k' _ _ _ (lt_two_pow_succ k')]
  constructor
  · congr 1
    apply ofFn_congr
    intro i j _ hj
    simp [Finset.sum_ite_eq', hj]
  · congr 1
    apply ofFn_congr
    intro i j hi _
    simp [Finset.sum_ite_eq, hi]

theorem strassen_identity_witness :
    strassen [[1, 2], [3, 4]] (identity (2 ^ 1)) = .ok [[1, 2], [3, 4]] ∧
      strassen (identity (2 ^ 1)) [[1, 2], [3, 4]] = .ok [[1, 2], [3, 4]] :=
  strassen_identity 1 [[1, 2], [3, 4]] (by decide) (by decide)

/-- Claim C8: for square matrices `A`, `B` of even dimension `n`, the split loop with
`new_size = n / 2` succeeds, and the join loop applied to the four quadrants of `A`
(resp. of `B`) into a fresh `n × n` matrix gives back `A` (resp. `B`). -/
theorem join_split_inverse (n : Nat) (A B : Matrix) (hn : n % 2 = 0)
    (hA : IsSquare A n) (hB : IsSquare B n) :
    ∃ q, splitLoop A B (n / 2) = .ok q ∧
      joinLoop n (n / 2) q.a11 q.a12 q.a21 q.a22 = .ok A ∧
      joinLoop n (n / 2) q.b11 q.b12 q.b21 q.b22 = .ok B := by
  obtain ⟨f, rfl⟩ := exists_ofFn_of_isSquare hA
  obtain ⟨g, rfl⟩ := exists_ofFn_of_isSquare hB
  have h2 : 2 * (n / 2) = n := by omega
  refine ⟨_, splitLoop_ofFn n (n / 2) f g (by omega), ?_, ?_⟩
  · simp only
    rw [joinLoop_ofFn n (n / 2) _ _ _ _ (by omega)]
    congr 1
    apply ofFn_congr
    intro i j hi hj
    exact joinVal_quadrants (n / 2) f i j (by omega) (by omega)
  · simp only
    rw [joinLoop_ofFn n (n / 2) _ _ _ _ (by omega)]
    congr 1
    apply ofFn_congr
    intro i j hi hj
    exact joinVal_quadrants (n / 2) g i j (by omega) (by omega)

theorem join_split_inverse_witness :
    ∃ q, splitLoop [[1, 2], [3, 4]] [[5, 6], [7, 8]] (2 / 2) = .ok q ∧
      joinLoop 2 (2 / 2) q.a11 q.a12 q.a21 q.a22 = .ok [[1, 2], [3, 4]] ∧
      joinLoop 2 (2 / 2) q.b11 q.b12 q.b21 q.b22 = .ok [[5, 6], [7, 8]] :=
  join_split_inverse 2 [[1, 2], [3, 4]] [[5, 6], [7, 8]] (by decide) (by decide) (by decide)

/-- Claim C9: for square matrices `A`, `B` of even dimension `n` and `h = n / 2`, the
split loop succeeds and produces `h × h` quadrants with `a11[i][j] = A[i][j]`,
`a12[i][j] = A[i][j+h]`, `a21[i][j] = A[i+h][j]`, `a22[i][j] = A[i+h][j+h]`, and the
same for the quadrants of `B`. -/
theorem split_quadrants (n : Nat) (A B : Matrix) (hn : n % 2 = 0)
    (hA : IsSquare A n) (hB : IsSquare B n) :
    ∃ q, splitLoop A B (n / 2) = .ok q ∧
      (IsSquare q.a11 (n / 2) ∧ IsSquare q.a12 (n / 2) ∧ IsSquare q.a21 (n / 2) ∧
        IsSquare q.a22 (n / 2) ∧ IsSquare q.b11 (n / 2) ∧ IsSquare q.b12 (n / 2) ∧
        IsSquare q.b21 (n / 2) ∧ IsSquare q.b22 (n / 2)) ∧
      ∀ i j, i < n / 2 → j < n / 2 →
        (entry q.a11 i j = entry A i j ∧ entry q.a12 i j = entry A i (j + n / 2) ∧
          entry q.a21 i j = entry A (i + n / 2) j ∧
          entry q.a22 i j = entry A (i + n / 2) (j + n / 2)) ∧
        (entry q.b11 i j = entry B i j ∧ entry q.b12 i j = entry B i (j + n / 2) ∧
          entry q.b21 i j = entry B (i + n / 2) j ∧
          entry q.b22 i j = entry B (i + n / 2) (j + n / 2)) := by
  obtain ⟨f, rfl⟩ := exists_ofFn_of_isSquare hA
  obtain ⟨g, rfl⟩ := exists_ofFn_of_isSquare hB
  refine ⟨_, splitLoop_ofFn n (n / 2) f g (by omega), ?_, ?_⟩
  · exact ⟨isSquare_ofFn _ _, isSquare_ofFn _ _, isSquare_ofFn _ _, isSquare_ofFn _ _,
      isSquare_ofFn _ _, isSquare_ofFn _ _, isSquare_ofFn _ _, isSquare_ofFn _ _⟩
  · intro i j hi hj
    have h1 : i < n := by omega
    have h2 : j < n := by omega
    have h3 : i + n / 2 < n := by omega
    have h4 : j + n / 2 < n := by omega
    simp only [entry_ofFn _ hi hj, entry_ofFn f h1 h2, entry_ofFn f h1 h4,
      entry_ofFn f h3 h2, entry_ofFn f h3 h4, entry_ofFn g h1 h2, entry_ofFn g h1 h4,
      entry_ofFn g h3 h2, entry_ofFn g h3 h4, and_self]

theorem split_quadrants_witness :
    ∃ q, splitLoop [[1, 2], [3, 4]] [[5, 6], [7, 8]] (2 / 2) = .ok q ∧
      (IsSquare q.a11 (2 / 2) ∧ IsSquare q.a12 (2 / 2) ∧ IsSquare q.a21 (2 / 2) ∧
        IsSquare q.a22 (2 / 2) ∧ IsSquare q.b11 (2 / 2) ∧ IsSquare q.b12 (2 / 2) ∧
        IsSquare q.b21 (2 / 2) ∧ IsSquare q.b22 (2 / 2)) ∧
      ∀ i j, i < 2 / 2 → j < 2 / 2 →
        (entry q.a11 i j = entry [[1, 2], [3, 4]] i j ∧
          entry q.a12 i j = entry [[1, 2], [3, 4]] i (j + 2 / 2) ∧
          entry q.a21 i j = entry [[1, 2], [3, 4]] (i + 2 / 2) j ∧
          entry q.a22 i j = entry [[1, 2], [3, 4]] (i + 2 / 2) (j + 2 / 2)) ∧
        (entry q.b11 i j = entry [[5, 6], [7, 8]] i j ∧
          entry q.b12 i j = entry [[5, 6], [7, 8]] i (j + 2 / 2) ∧
          entry q.b21 i j = entry [[5, 6], [7, 8]] (i + 2 / 2) j ∧
          entry q.b22 i j = entry [[5, 6], [7, 8]] (i + 2 / 2) (j + 2 / 2)) :=
  split_quadrants 2 [[1, 2], [3, 4]] [[5, 6], [7, 8]] (by decide) (by decide) (by decide)

/-- Claim C10: for every `k ≥ 0` and `k × k` quadrants, the join loop produces a matrix
of dimension `2k` holding `c11` at offset `(0, 0)`, `c12` at `(0, k)`, `c21` at `(k, 0)`
and `c22` at `(k, k)`, and the split loop applied to the joined matrices returns exactly
the quadrants that were joined. -/
theorem split_join_inverse (k : Nat) (q : Quadrants)
    (ha11 : IsSquare q.a11 k) (ha12 : IsSquare q.a12 k) (ha21 : IsSquare q.a21 k)
    (ha22 : IsSquare q.a22 k) (hb11 : IsSquare q.b11 k) (hb12 : IsSquare q.b12 k)
    (hb21 : IsSquare q.b21 k) (hb22 : IsSquare q.b22 k) :
    ∃ JA JB, joinLoop (2 * k) k q.a11 q.a12 q.a21 q.a22 = .ok JA ∧
      joinLoop (2 * k) k q.b11 q.b12 q.b21 q.b22 = .ok JB ∧
      IsSquare JA (2 * k) ∧ IsSquare JB (2 * k) ∧
      (∀ i j, i < k → j < k →
        entry JA i j = entry q.a11 i j ∧ entry JA i (j + k) = entry q.a12 i j ∧
        entry JA (i + k) j = entry q.a21 i j ∧ entry JA (i + k) (j + k) = entry q.a22 i j) ∧
      splitLoop JA JB k = .ok q := by
  obtain ⟨a11, a12, a21, a22, b11, b12, b21, b22⟩ := q
  simp only at ha11 ha12 ha21 ha22 hb11 hb12 hb21 hb22 ⊢
  obtain ⟨f11, rfl⟩ := exists_ofFn_of_isSquare ha11
  obtain ⟨f12, rfl⟩ := exists_ofFn_of_isSquare ha12
  obtain ⟨f21, rfl⟩ := exists_ofFn_of_isSquare ha21
  obtain ⟨f22, rfl⟩ := exists_ofFn_of_isSquare ha22
  obtain ⟨g11, rfl⟩ := exists_ofFn_of_isSquare hb11
  obtain ⟨g12, rfl⟩ := exists_ofFn_of_isSquare hb12
  obtain ⟨g21, rfl⟩ := exists_ofFn_of_isSquare hb21
  obtain ⟨g22, rfl⟩ := exists_ofFn_of_isSquare hb22
  refine ⟨_, _, joinLoop_ofFn (2 * k) k f11 f12 f21 f22 (le_refl _),
    joinLoop_ofFn (2 * k) k g11 g12 g21 g22 (le_refl _), isSquare_ofFn _ _,
    isSquare_ofFn _ _, ?_, ?_⟩
  · intro i j hi hj
    have h1 : i < 2 * k := by omega
    have h2 : j < 2 * k := by omega
    have h3 : i + k < 2 * k := by omega
    have h4 : j + k < 2 * k := by omega
    rw [entry_ofFn _ h1 h2, entry_ofFn _ h1 h4, entry_ofFn _ h3 h2, entry_ofFn _ h3 h4,
      entry_ofFn _ hi hj, entry_ofFn _ hi hj, entry_ofFn _ hi hj, entry_ofFn _ hi hj,
      joinVal_11 _ _ _ _ hi hj, joinVal_12 _ _ _ _ hi hj, joinVal_21 _ _ _ _ hi hj,
      joinVal_22 _ _ _ _ hi hj]
    exact ⟨rfl, rfl, rfl, rfl⟩
  · rw [splitLoop_ofFn (2 * k) k _ _ (le_refl _)]
    have e11 : ∀ c11 c12 c21 c22 : Nat → Nat → Int,
        (ofFn k fun i j => joinVal k c11 c12 c21 c22 i j) = ofFn k c11 :=
      fun c11 c12 c21 c22 => ofFn_congr fun i j hi hj => joinVal_11 c11 c12 c21 c22 hi hj
    have e12 : ∀ c11 c12 c21 c22 : Nat → Nat → Int,
        (ofFn k fun i j => joinVal k c11 c12 c21 c22 i (j + k)) = ofFn k c12 :=
      fun c11 c12 c21 c22 => ofFn_congr fun i j hi hj => joinVal_12 c11 c12 c21 c22 hi hj
    have e21 : ∀ c11 c12 c21 c22 : Nat → Nat → Int,
        (ofFn k fun i j => joinVal k c11 c12 c21 c22 (i + k) j) = ofFn k c21 :=
      fun c11 c12 c21 c22 => ofFn_congr fun i j hi hj => joinVal_21 c11 c12 c21 c22 hi hj
    have e22 : ∀ c11 c12 c21 c22 : Nat → Nat → Int,
        (ofFn k fun i j => joinVal k c11 c12 c21 c22 (i + k) (j + k)) = ofFn k c22 :=
      fun c11 c12 c21 c22 => ofFn_congr fun i j hi hj => joinVal_22 c11 c12 c21 c22 hi hj
    rw [e11, e12, e21, e22, e11, e12, e21, e22]

theorem split_join_inverse_witness :
    ∃ JA JB, joinLoop (2 * 1) 1 [[1]] [[2]] [[3]] [[4]] = .ok JA ∧
      joinLoop (2 * 1) 1 [[5]] [[6]] [[7]] [[8]] = .ok JB ∧
      IsSquare JA (2 * 1) ∧ IsSquare JB (2 * 1) ∧
      (∀ i j, i < 1 → j < 1 →
        entry JA i j = entry [[1]] i j ∧ entry JA i (j + 1) = entry [[2]] i j ∧
        entry JA (i + 1) j = entry [[3]] i j ∧ entry JA (i + 1) (j + 1) = entry [[4]] i j) ∧
      splitLoop JA JB 1 = .ok ⟨[[1]], [[2]], [[3]], [[4]], [[5]], [[6]], [[7]], [[8]]⟩ :=
  split_join_inverse 1 ⟨[[1]], [[2]], [[3]], [[4]], [[5]], [[6]], [[7]], [[8]]⟩
    (by decide) (by decide) (by decide) (by decide) (by decide) (by decide) (by decide)
    (by decide)

/-! ## Outcomes of runs -/

theorem Run.bind_eq_ok {α β : Type} {x : Run α} {f : α → Run β} {b : β}
    (h : (x >>= f) = .ok b) : ∃ a, x = .ok a ∧ f a = .ok b := by
  cases x with
  | ok a => exact ⟨a, rfl, h⟩
  | fault e => cases h

/-- Propositional form of `Run.ok_bind`, for rewriting inside long runs. -/
theorem Run.ok_bind_step {α β : Type} (a : α) (f : α → Run β) :
    (Run.ok a >>= f) = f a := id rfl

theorem Run.fault_bind {α β : Type} (e : Fault) (f : α → Run β) :
    (Run.fault e >>= f) = .fault e := id rfl

theorem endsAtTwo_small {n : Nat} (hn : n ≤ 2) : EndsAtTwo n ↔ n = 2 := by
  constructor
  · rintro ⟨k, h1, h2⟩
    have : 2 ≤ 2 ^ (k + 1) := by
      have := Nat.pow_pos (n := k) (show 0 < 2 by decide)
      rw [pow_succ]; omega
    omega
  · rintro rfl
    exact ⟨0, by decide, by decide⟩

theorem endsAtTwo_half {n : Nat} (hn : 2 < n) : EndsAtTwo n ↔ EndsAtTwo (n / 2) := by
  constructor
  · rintro ⟨k, h1, h2⟩
    cases k with
    | zero => simp at h1 h2; omega
    | succ k =>
      refine ⟨k, ?_, ?_⟩
      · rw [pow_succ] at h1; omega
      · rw [pow_succ] at h2; omega
  · rintro ⟨k, h1, h2⟩
    refine ⟨k + 1, ?_, ?_⟩
    · rw [pow_succ 2 (k + 1)]; omega
    · rw [pow_succ 2 k]; omega

theorem halveWhileAboveTwo_eq_two (fuel : Nat) : ∀ n, n ≤ fuel + 2 →
    (halveWhileAboveTwo fuel n = 2 ↔ EndsAtTwo n) := by
  induction fuel with
  | zero =>
    intro n hn
    rw [endsAtTwo_small hn]
    rfl
  | succ fuel ih =>
    intro n hn
    by_cases h : 2 < n
    · rw [endsAtTwo_half h]
      simp only [halveWhileAboveTwo, h, if_true]
      exact ih (n / 2) (by omega)
    · simp only [halveWhileAboveTwo, h, if_false]
      rw [endsAtTwo_small (by omega)]

theorem endsAtTwo_iff (n : Nat) :
    EndsAtTwo n ↔ ∃ k, 1 ≤ k ∧ 2 ^ k ≤ n ∧ n < 3 * 2 ^ (k - 1) := by
  constructor
  · rintro ⟨k, h1, h2⟩
    exact ⟨k + 1, by omega, h1, by simpa using h2⟩
  · rintro ⟨k, hk, h1, h2⟩
    obtain ⟨m, rfl⟩ : ∃ m, k = m + 1 := ⟨k - 1, by omega⟩
    exact ⟨m, h1, by simpa using h2⟩

theorem getE_ofFn_row_out {n i j : Nat} (f : Nat → Nat → Int) (hi : n ≤ i) :
    getE (ofFn n f) i j = .fault .outOfBounds := by
  simp [getE, getElem?_ofFn_none f hi]

theorem getE_ofFn_col_out {n i j : Nat} (f : Nat → Nat → Int) (hi : i < n) (hj : n ≤ j) :
    getE (ofFn n f) i j = .fault .outOfBounds := by
  simp [getE, getElem?_ofFn f hi, List.getElem?_eq_none, hj]

theorem baseCase_zero (f g : Nat → Nat → Int) :
    baseCase (ofFn 0 f) (ofFn 0 g) 0 = .fault .outOfBounds := by
  simp only [baseCase, getE_ofFn_row_out f (Nat.le_refl 0), Run.fault_bind]

theorem baseCase_one (f g : Nat → Nat → Int) :
    baseCase (ofFn 1 f) (ofFn 1 g) 1 = .fault .outOfBounds := by
  have h0 : (0 : Nat) < 1 := by decide
  simp only [baseCase, getE_ofFn f h0 h0, getE_ofFn g h0 h0,
    getE_ofFn_col_out f h0 (Nat.le_refl 1), Run.ok_bind_step, Run.fault_bind]

/-- A completed run on two tables of dimension `n` returns a table of dimension `n`; above
the base case that table is zero outside its leading `2 (n/2) × 2 (n/2)` block. -/
theorem strassenFuel_table (fuel : Nat) : ∀ (n : Nat) (f g : Nat → Nat → Int) (C : Matrix),
    strassenFuel fuel (ofFn n f) (ofFn n g) = .ok C →
    ∃ c, C = ofFn n c ∧
      (2 < n → ∀ i j, 2 * (n / 2) ≤ i ∨ 2 * (n / 2) ≤ j → c i j = 0) := by
  induction fuel with
  | zero => intro n f g C h; cases h
  | succ fuel ih =>
    intro n f g C h
    rw [strassenFuel] at h
    simp only [length_ofFn, ne_eq, not_true_eq_false, if_false] at h
    by_cases hn : n ≤ 2
    · simp only [hn, if_true] at h
      have h3 : n = 0 ∨ n = 1 ∨ n = 2 := by omega
      rcases h3 with rfl | rfl | rfl
      · rw [baseCase_zero] at h; cases h
      · rw [baseCase_one] at h; cases h
      · rw [baseCase_two] at h
        exact ⟨_, (Run.ok.inj h).symm, fun h2 => absurd h2 (by decide)⟩
    · simp only [hn, if_false] at h
      have hle : 2 * (n / 2) ≤ n := by omega
      rw [splitLoop_ofFn n (n / 2) f g hle] at h
      simp only [Run.ok_bind_step, addMatrix_ofFn, subtractMatrix_ofFn] at h
      obtain ⟨p1, e1, h⟩ := Run.bind_eq_ok h
      obtain ⟨c1, rfl, -⟩ := ih _ _ _ _ e1
      obtain ⟨p2, e2, h⟩ := Run.bind_eq_ok h
      obtain ⟨c2, rfl, -⟩ := ih _ _ _ _ e2
      obtain ⟨p3, e3, h⟩ := Run.bind_eq_ok h
      obtain ⟨c3, rfl, -⟩ := ih _ _ _ _ e3
      obtain ⟨p4, e4, h⟩ := Run.bind_eq_ok h
      obtain ⟨c4, rfl, -⟩ := ih _ _ _ _ e4
      obtain ⟨p5, e5, h⟩ := Run.bind_eq_ok h
      obtain ⟨c5, rfl, -⟩ := ih _ _ _ _ e5
      obtain ⟨p6, e6, h⟩ := Run.bind_eq_ok h
      obtain ⟨c6, rfl, -⟩ := ih _ _ _ _ e6
      obtain ⟨p7, e7, h⟩ := Run.bind_eq_ok h
      obtain ⟨c7, rfl, -⟩ := ih _ _ _ _ e7
      simp only [Run.ok_bind_step, addMatrix_ofFn, subtractMatrix_ofFn] at h
      rw [joinLoop_ofFn n (n / 2) _ _ _ _ hle] at h
      refine ⟨_, (Run.ok.inj h).symm, ?_⟩
      intro _ i j hij
      exact joinVal_outside _ _ _ _ hij

/-- The outcome of `strassen` on two tables of dimension `n` is decided by `n` alone: a
table when halving `n` ends at 2, an out-of-bounds access otherwise. -/
theorem strassenFuel_outcome (fuel : Nat) : ∀ (n : Nat) (f g : Nat → Nat → Int), n < fuel →
    (EndsAtTwo n → ∃ c, strassenFuel fuel (ofFn n f) (ofFn n g) = .ok (ofFn n c)) ∧
    (¬ EndsAtTwo n → strassenFuel fuel (ofFn n f) (ofFn n g) = .fault .outOfBounds) := by
  induction fuel with
  | zero => intro n f g h; omega
  | succ fuel ih =>
    intro n f g hfuel
    rw [strassenFuel]
    simp only [length_ofFn, ne_eq, not_true_eq_false, if_false]
    by_cases hn : n ≤ 2
    · simp only [hn, if_true]
      rw [endsAtTwo_small hn]
      have h3 : n = 0 ∨ n = 1 ∨ n = 2 := by omega
      rcases h3 with rfl | rfl | rfl
      · exact ⟨fun h => absurd h (by decide), fun _ => baseCase_zero f g⟩
      · exact ⟨fun h => absurd h (by decide), fun _ => baseCase_one f g⟩
      · exact ⟨fun _ => ⟨_, baseCase_two f g⟩, fun h => absurd rfl h⟩
    · simp only [hn, if_false]
      have hle : 2 * (n / 2) ≤ n := by omega
      have hlt : n / 2 < fuel := by omega
      rw [endsAtTwo_half (by omega), splitLoop_ofFn n (n / 2) f g hle]
      simp only [Run.ok_bind_step, addMatrix_ofFn, subtractMatrix_ofFn]
      constructor
      · intro hgood
        obtain ⟨c1, e1⟩ := (ih (n / 2) (fun i j => f i j)
          (fun i j => g i (j + n / 2) - g (i + n / 2) (j + n / 2)) hlt).1 hgood
        obtain ⟨c2, e2⟩ := (ih (n / 2) (fun i j => f i j + f i (j + n / 2))
          (fun i j => g (i + n / 2) (j + n / 2)) hlt).1 hgood
        obtain ⟨c3, e3⟩ := (ih (n / 2) (fun i j => f (i + n / 2) j + f (i + n / 2) (j + n / 2))
          (fun i j => g i j) hlt).1 hgood
        obtain ⟨c4, e4⟩ := (ih (n / 2) (fun i j => f (i + n / 2) (j + n / 2))
          (fun i j => g (i + n / 2) j - g i j) hlt).1 hgood
        obtain ⟨c5, e5⟩ := (ih (n / 2) (fun i j => f i j + f (i + n / 2) (j + n / 2))
          (fun i j => g i j + g (i + n / 2) (j + n / 2)) hlt).1 hgood
        obtain ⟨c6, e6⟩ := (ih (n / 2) (fun i j => f i (j + n / 2) - f (i + n / 2) (j + n / 2))
          (fun i j => g (i + n / 2) j + g (i + n / 2) (j + n / 2)) hlt).1 hgood
        obtain ⟨c7, e7⟩ := (ih (n / 2) (fun i j => f i j - f (i + n / 2) j)
          (fun i j => g i j + g i (j + n / 2)) hlt).1 hgood
        simp only [e1, e2, e3, e4, e5, e6, e7, Run.ok_bind_step, addMatrix_ofFn,
          subtractMatrix_ofFn]
        exact ⟨_, joinLoop_ofFn n (n / 2) _ _ _ _ hle⟩
      · intro hbad
        rw [(ih (n / 2) (fun i j => f i j)
          (fun i j => g i (j + n / 2) - g (i + n / 2) (j + n / 2)) hlt).2 hbad]
        exact Run.fault_bind _ _

/-- Claim C16: for square `n × n` operands, `strassen` completes without an
out-of-bounds access and returns an `n × n` matrix exactly when halving `n` while it
exceeds 2 ends at 2, that is when `2^k ≤ n < 3 * 2^(k-1)` for some `k ≥ 1`; for every
other `n` the run stops at an access outside the storage. -/
theorem index_safety (n : Nat) (A B : Matrix) (hA : IsSquare A n) (hB : IsSquare B n) :
    ((∃ C, strassen A B = .ok C ∧ IsSquare C n) ↔
      ∃ k, 1 ≤ k ∧ 2 ^ k ≤ n ∧ n < 3 * 2 ^ (k - 1)) ∧
    ((∃ k, 1 ≤ k ∧ 2 ^ k ≤ n ∧ n < 3 * 2 ^ (k - 1)) ↔ halveWhileAboveTwo n n = 2) ∧
    ((¬ ∃ k, 1 ≤ k ∧ 2 ^ k ≤ n ∧ n < 3 * 2 ^ (k - 1)) →
      strassen A B = .fault .outOfBounds) := by
  obtain ⟨f, rfl⟩ := exists_ofFn_of_isSquare hA
  obtain ⟨g, rfl⟩ := exists_ofFn_of_isSquare hB
  rw [← endsAtTwo_iff]
  have hout := strassenFuel_outcome (n + 1) n f g (Nat.lt_succ_self n)
  unfold strassen
  simp only [length_ofFn]
  refine ⟨⟨?_, ?_⟩, ?_, hout.2⟩
  · rintro ⟨C, hC, -⟩
    by_contra hbad
    rw [hout.2 hbad] at hC
    cases hC
  · intro hgood
    obtain ⟨c, hc⟩ := hout.1 hgood
    exact ⟨_, hc, isSquare_ofFn _ _⟩
  · exact (halveWhileAboveTwo_eq_two n n (by omega)).symm

theorem index_safety_witness :
    ((∃ C, strassen [[1, 2], [3, 4]] [[5, 6], [7, 8]] = .ok C ∧ IsSquare C 2) ↔
      ∃ k, 1 ≤ k ∧ 2 ^ k ≤ 2 ∧ 2 < 3 * 2 ^ (k - 1)) ∧
    ((∃ k, 1 ≤ k ∧ 2 ^ k ≤ 2 ∧ 2 < 3 * 2 ^ (k - 1)) ↔ halveWhileAboveTwo 2 2 = 2) ∧
    ((¬ ∃ k, 1 ≤ k ∧ 2 ^ k ≤ 2 ∧ 2 < 3 * 2 ^ (k - 1)) →
      strassen [[1, 2], [3, 4]] [[5, 6], [7, 8]] = .fault .outOfBounds) :=
  index_safety 2 [[1, 2], [3, 4]] [[5, 6], [7, 8]] (by decide) (by decide)

/-! ## Termination: no run exhausts its fuel -/

theorem Run.bind_ne_fuel {α β : Type} {x : Run α} {f : α → Run β}
    (hx : x ≠ .fault .outOfFuel) (hf : ∀ a, x = .ok a → f a ≠ .fault .outOfFuel) :
    (x >>= f) ≠ .fault .outOfFuel := by
  cases x with
  | ok a => exact hf a rfl
  | fault e =>
    intro h
    have h' : (Run.fault e : Run β) = .fault .outOfFuel := h
    cases h'
    exact hx rfl

theorem getE_ne_fuel (M : Matrix) (i j : Nat) : getE M i j ≠ .fault .outOfFuel := by
  unfold getE
  split
  · simp
  · split <;> simp

theorem setE_ne_fuel (M : Matrix) (i j : Nat) (v : Int) :
    setE M i j v ≠ .fault .outOfFuel := by
  unfold setE
  split
  · simp
  · split <;> simp

theorem setE_length {M M' : Matrix} {i j : Nat} {v : Int} (h : setE M i j v = .ok M') :
    M'.length = M.length := by
  unfold setE at h
  split at h
  · cases h
  · split at h
    · cases h
      simp
    · cases h

theorem forLoop_ne_fuel {σ : Type} (body : Nat → σ → Run σ)
    (hbody : ∀ i s, body i s ≠ .fault .outOfFuel) (n : Nat) (s : σ) :
    forLoop body n s ≠ .fault .outOfFuel := by
  induction n with
  | zero => simp [forLoop]
  | succ k ih => exact Run.bind_ne_fuel ih (fun a _ => hbody k a)

/-- A property kept by every completed round is kept by the completed loop. -/
theorem forLoop_inv {σ : Type} (body : Nat → σ → Run σ) (P : σ → Prop)
    (hstep : ∀ i s s', P s → body i s = .ok s' → P s') (n : Nat) (s s' : σ)
    (h0 : P s) (h : forLoop body n s = .ok s') : P s' := by
  induction n generalizing s' with
  | zero =>
    cases h
    exact h0
  | succ k ih =>
    obtain ⟨s1, h1, h2⟩ := Run.bind_eq_ok (x := forLoop body k s) (f := body k) h
    exact hstep k s1 s' (ih s1 h1) h2

theorem length_mkMatrix (n : Nat) : (mkMatrix n).length = n := by
  simp [mkMatrix]

theorem addMatrix_ne_fuel (A B : Matrix) : addMatrix A B ≠ .fault .outOfFuel := by
  unfold addMatrix
  apply forLoop_ne_fuel
  intro i C
  apply forLoop_ne_fuel
  intro j C
  exact Run.bind_ne_fuel (getE_ne_fuel _ _ _) fun a _ =>
    Run.bind_ne_fuel (getE_ne_fuel _ _ _) fun b _ => setE_ne_fuel _ _ _ _

theorem subtractMatrix_ne_fuel (A B : Matrix) : subtractMatrix A B ≠ .fault .outOfFuel := by
  unfold subtractMatrix
  apply forLoop_ne_fuel
  intro i C
  apply forLoop_ne_fuel
  intro j C
  exact Run.bind_ne_fuel (getE_ne_fuel _ _ _) fun a _ =>
    Run.bind_ne_fuel (getE_ne_fuel _ _ _) fun b _ => setE_ne_fuel _ _ _ _

theorem addMatrix_length {A B C : Matrix} (h : addMatrix A B = .ok C) :
    C.length = A.length := by
  unfold addMatrix at h
  refine forLoop_inv _ (fun C => C.length = A.length) ?_ _ _ _ (length_mkMatrix _) h
  intro i s s' hs hi
  refine forLoop_inv _ (fun C => C.length = A.length) ?_ _ _ _ hs hi
  intro j t t' ht hj
  obtain ⟨a, -, hj⟩ := Run.bind_eq_ok hj
  obtain ⟨b, -, hj⟩ := Run.bind_eq_ok hj
  rw [setE_length hj, ht]

theorem subtractMatrix_length {A B C : Matrix} (h : subtractMatrix A B = .ok C) :
    C.length = A.length := by
  unfold subtractMatrix at h
  refine forLoop_inv _ (fun C => C.length = A.length) ?_ _ _ _ (length_mkMatrix _) h
  intro i s s' hs hi
  refine forLoop_inv _ (fun C => C.length = A.length) ?_ _ _ _ hs hi
  intro j t t' ht hj
  obtain ⟨a, -, hj⟩ := Run.bind_eq_ok hj
  obtain ⟨b, -, hj⟩ := Run.bind_eq_ok hj
  rw [setE_length hj, ht]

theorem splitBody_ne_fuel (A B : Matrix) (h i j : Nat) (q : Quadrants) :
    splitBody A B h i j q ≠ .fault .outOfFuel := by
  unfold splitBody
  refine Run.bind_ne_fuel (getE_ne_fuel _ _ _) fun _ _ =>
    Run.bind_ne_fuel (setE_ne_fuel _ _ _ _) fun _ _ =>
    Run.bind_ne_fuel (getE_ne_fuel _ _ _) fun _ _ =>
    Run.bind_ne_fuel (setE_ne_fuel _ _ _ _) fun _ _ =>
    Run.bind_ne_fuel (getE_ne_fuel _ _ _) fun _ _ =>
    Run.bind_ne_fuel (setE_ne_fuel _ _ _ _) fun _ _ =>
    Run.bind_ne_fuel (getE_ne_fuel _ _ _) fun _ _ =>
    Run.bind_ne_fuel (setE_ne_fuel _ _ _ _) fun _ _ =>
    Run.bind_ne_fuel (getE_ne_fuel _ _ _) fun _ _ =>
    Run.bind_ne_fuel (setE_ne_fuel _ _ _ _) fun _ _ =>
    Run.bind_ne_fuel (getE_ne_fuel _ _ _) fun _ _ =>
    Run.bind_ne_fuel (setE_ne_fuel _ _ _ _) fun _ _ =>
    Run.bind_ne_fuel (getE_ne_fuel _ _ _) fun _ _ =>
    Run.bind_ne_fuel (setE_ne_fuel _ _ _ _) fun _ _ =>
    Run.bind_ne_fuel (getE_ne_fuel _ _ _) fun _ _ =>
    Run.bind_ne_fuel (setE_ne_fuel _ _ _ _) fun _ _ => ?_
  intro hc
  cases hc

theorem splitLoop_ne_fuel (A B : Matrix) (h : Nat) :
    splitLoop A B h ≠ .fault .outOfFuel := by
  unfold splitLoop
  apply forLoop_ne_fuel
  intro i q
  apply forLoop_ne_fuel
  intro j q
  exact splitBody_ne_fuel A B h i j q

theorem splitBody_length {A B : Matrix} {h i j : Nat} {q q' : Quadrants}
    (hq : splitBody A B h i j q = .ok q') :
    q'.a11.length = q.a11.length ∧ q'.a12.length = q.a12.length ∧
      q'.a21.length = q.a21.length ∧ q'.a22.length = q.a22.length := by
  unfold splitBody at hq
  obtain ⟨x1, -, hq⟩ := Run.bind_eq_ok hq
  obtain ⟨a11, h1, hq⟩ := Run.bind_eq_ok hq
  obtain ⟨x2, -, hq⟩ := Run.bind_eq_ok hq
  obtain ⟨a12, h2, hq⟩ := Run.bind_eq_ok hq
  obtain ⟨x3, -, hq⟩ := Run.bind_eq_ok hq
  obtain ⟨a21, h3, hq⟩ := Run.bind_eq_ok hq
  obtain ⟨x4, -, hq⟩ := Run.bind_eq_ok hq
  obtain ⟨a22, h4, hq⟩ := Run.bind_eq_ok hq
  obtain ⟨x5, -, hq⟩ := Run.bind_eq_ok hq
  obtain ⟨b11, -, hq⟩ := Run.bind_eq_ok hq
  obtain ⟨x6, -, hq⟩ := Run.bind_eq_ok hq
  obtain ⟨b12, -, hq⟩ := Run.bind_eq_ok hq
  obtain ⟨x7, -, hq⟩ := Run.bind_eq_ok hq
  obtain ⟨b21, -, hq⟩ := Run.bind_eq_ok hq
  obtain ⟨x8, -, hq⟩ := Run.bind_eq_ok hq
  obtain ⟨b22, -, hq⟩ := Run.bind_eq_ok hq
  cases hq
  exact ⟨setE_length h1, setE_length h2, setE_length h3, setE_length h4⟩

theorem splitLoop_length {A B : Matrix} {h : Nat} {q : Quadrants}
    (hq : splitLoop A B h = .ok q) :
    q.a11.length = h ∧ q.a12.length = h ∧ q.a21.length = h ∧ q.a22.length = h := by
  unfold splitLoop at hq
  refine forLoop_inv _ (fun q : Quadrants =>
    q.a11.length = h ∧ q.a12.length = h ∧ q.a21.length = h ∧ q.a22.length = h)
    ?_ _ _ _ ?_ hq
  · intro i s s' hs hi
    refine forLoop_inv _ (fun q : Quadrants =>
      q.a11.length = h ∧ q.a12.length = h ∧ q.a21.length = h ∧ q.a22.length = h)
      ?_ _ _ _ hs hi
    intro j t t' ht hj
    obtain ⟨e1, e2, e3, e4⟩ := splitBody_length hj
    exact ⟨e1.trans ht.1, e2.trans ht.2.1, e3.trans ht.2.2.1, e4.trans ht.2.2.2⟩
  · exact ⟨length_mkMatrix h, length_mkMatrix h, length_mkMatrix h, length_mkMatrix h⟩

theorem joinLoop_ne_fuel (n h : Nat) (c11 c12 c21 c22 : Matrix) :
    joinLoop n h c11 c12 c21 c22 ≠ .fault .outOfFuel := by
  unfold joinLoop
  apply forLoop_ne_fuel
  intro i C
  apply forLoop_ne_fuel
  intro j C
  unfold joinBody
  exact Run.bind_ne_fuel (getE_ne_fuel _ _ _) fun _ _ =>
    Run.bind_ne_fuel (setE_ne_fuel _ _ _ _) fun _ _ =>
    Run.bind_ne_fuel (getE_ne_fuel _ _ _) fun _ _ =>
    Run.bind_ne_fuel (setE_ne_fuel _ _ _ _) fun _ _ =>
    Run.bind_ne_fuel (getE_ne_fuel _ _ _) fun _ _ =>
    Run.bind_ne_fuel (setE_ne_fuel _ _ _ _) fun _ _ =>
    Run.bind_ne_fuel (getE_ne_fuel _ _ _) fun _ _ => setE_ne_fuel _ _ _ _

theorem baseCase_ne_fuel (A B : Matrix) (n : Nat) :
    baseCase A B n ≠ .fault .outOfFuel := by
  unfold baseCase
  refine Run.bind_ne_fuel (getE_ne_fuel _ _ _) fun _ _ =>
    Run.bind_ne_fuel (getE_ne_fuel _ _ _) fun _ _ =>
    Run.bind_ne_fuel (getE_ne_fuel _ _ _) fun _ _ =>
    Run.bind_ne_fuel (getE_ne_fuel _ _ _) fun _ _ =>
    Run.bind_ne_fuel (setE_ne_fuel _ _ _ _) fun _ _ =>
    Run.bind_ne_fuel (getE_ne_fuel _ _ _) fun _ _ =>
    Run.bind_ne_fuel (getE_ne_fuel _ _ _) fun _ _ =>
    Run.bind_ne_fuel (getE_ne_fuel _ _ _) fun _ _ =>
    Run.bind_ne_fuel (getE_ne_fuel _ _ _) fun _ _ =>
    Run.bind_ne_fuel (setE_ne_fuel _ _ _ _) fun _ _ =>
    Run.bind_ne_fuel (getE_ne_fuel _ _ _) fun _ _ =>
    Run.bind_ne_fuel (getE_ne_fuel _ _ _) fun _ _ =>
    Run.bind_ne_fuel (getE_ne_fuel _ _ _) fun _ _ =>
    Run.bind_ne_fuel (getE_ne_fuel _ _ _) fun _ _ =>
    Run.bind_ne_fuel (setE_ne_fuel _ _ _ _) fun _ _ =>
    Run.bind_ne_fuel (getE_ne_fuel _ _ _) fun _ _ =>
    Run.bind_ne_fuel (getE_ne_fuel _ _ _) fun _ _ =>
    Run.bind_ne_fuel (getE_ne_fuel _ _ _) fun _ _ =>
    Run.bind_ne_fuel (getE_ne_fuel _ _ _) fun _ _ =>
    Run.bind_ne_fuel (setE_ne_fuel _ _ _ _) fun _ _ => ?_
  intro hc
  cases hc

/-- Fuel above the number of rows of the first operand is never exhausted: the recursion
descends from `n` to `n / 2 < n`. -/
theorem strassenFuel_ne_fuel (fuel : Nat) : ∀ A B : Matrix, A.length < fuel →
    strassenFuel fuel A B ≠ .fault .outOfFuel := by
  induction fuel with
  | zero => intro A B h; omega
  | succ fuel ih =>
    intro A B hlt
    rw [strassenFuel]
    simp only []
    split
    · intro hc; cases hc
    · split
      · exact baseCase_ne_fuel _ _ _
      · rename_i hsame hbig
        refine Run.bind_ne_fuel (splitLoop_ne_fuel _ _ _) fun q hq => ?_
        obtain ⟨l11, l12, l21, l22⟩ := splitLoop_length hq
        have hhalf : A.length / 2 < fuel := by omega
        refine Run.bind_ne_fuel (subtractMatrix_ne_fuel _ _) fun d1 _ => ?_
        refine Run.bind_ne_fuel (ih _ _ (by rw [l11]; exact hhalf)) fun p1 _ => ?_
        refine Run.bind_ne_fuel (addMatrix_ne_fuel _ _) fun s2 hs2 => ?_
        refine Run.bind_ne_fuel
          (ih _ _ (by rw [addMatrix_length hs2, l11]; exact hhalf)) fun p2 _ => ?_
        refine Run.bind_ne_fuel (addMatrix_ne_fuel _ _) fun s3 hs3 => ?_
        refine Run.bind_ne_fuel
          (ih _ _ (by rw [addMatrix_length hs3, l21]; exact hhalf)) fun p3 _ => ?_
        refine Run.bind_ne_fuel (subtractMatrix_ne_fuel _ _) fun d4 _ => ?_
        refine Run.bind_ne_fuel (ih _ _ (by rw [l22]; exact hhalf)) fun p4 _ => ?_
        refine Run.bind_ne_fuel (addMatrix_ne_fuel _ _) fun s5 hs5 => ?_
        refine Run.bind_ne_fuel (addMatrix_ne_fuel _ _) fun t5 _ => ?_
        refine Run.bind_ne_fuel
          (ih _ _ (by rw [addMatrix_length hs5, l11]; exact hhalf)) fun p5 _ => ?_
        refine Run.bind_ne_fuel (subtractMatrix_ne_fuel _ _) fun s6 hs6 => ?_
        refine Run.bind_ne_fuel (addMatrix_ne_fuel _ _) fun t6 _ => ?_
        refine Run.bind_ne_fuel
          (ih _ _ (by rw [subtractMatrix_length hs6, l12]; exact hhalf)) fun p6 _ => ?_
        refine Run.bind_ne_fuel (subtractMatrix_ne_fuel _ _) fun s7 hs7 => ?_
        refine Run.bind_ne_fuel (addMatrix_ne_fuel _ _) fun t7 _ => ?_
        refine Run.bind_ne_fuel
          (ih _ _ (by rw [subtractMatrix_length hs7, l11]; exact hhalf)) fun p7 _ => ?_
        exact Run.bind_ne_fuel (addMatrix_ne_fuel _ _) fun _ _ =>
          Run.bind_ne_fuel (subtractMatrix_ne_fuel _ _) fun _ _ =>
          Run.bind_ne_fuel (addMatrix_ne_fuel _ _) fun _ _ =>
          Run.bind_ne_fuel (addMatrix_ne_fuel _ _) fun _ _ =>
          Run.bind_ne_fuel (addMatrix_ne_fuel _ _) fun _ _ =>
          Run.bind_ne_fuel (addMatrix_ne_fuel _ _) fun _ _ =>
          Run.bind_ne_fuel (subtractMatrix_ne_fuel _ _) fun _ _ =>
          Run.bind_ne_fuel (subtractMatrix_ne_fuel _ _) fun _ _ => joinLoop_ne_fuel _ _ _ _ _ _

/-- Below the recursion threshold, or on a shape mismatch, the fuel is not consulted
beyond the first unit: no recursive call is made. -/
theorem strassenFuel_no_recursion (fuel : Nat) (A B : Matrix)
    (h : A.length ≠ B.length ∨ A.length ≤ 2) :
    strassenFuel (fuel + 1) A B = strassenFuel 1 A B := by
  rw [strassenFuel, strassenFuel]
  by_cases h1 : A.length ≠ B.length
  · rw [if_pos h1, if_pos h1]
  · have h2 : A.length ≤ 2 := by
      rcases h with h | h
      · exact absurd h h1
      · exact h
    rw [if_neg h1, if_neg h1, if_pos h2, if_pos h2]

/-- Claim C19: `strassen` never exhausts its fuel, on any operands: fuel above the number
of rows always suffices because a recursive call is made only for `n > 2`, on operands with
`n / 2 < n` rows. On square operands of dimension `2^k`, `k ≥ 1`, it returns a
`2^k × 2^k` matrix, and on a shape mismatch it returns the empty matrix without
recursing. -/
theorem strassen_terminates (A B : Matrix) :
    strassen A B ≠ .fault .outOfFuel ∧
    (∀ fuel, A.length < fuel → strassenFuel fuel A B ≠ .fault .outOfFuel) ∧
    (A.length ≠ B.length ∨ A.length ≤ 2 → strassen A B = strassenFuel 1 A B) ∧
    (∀ q, A.length = B.length → 2 < A.length → splitLoop A B (A.length / 2) = .ok q →
      A.length / 2 < A.length ∧ q.a11.length = A.length / 2 ∧ q.a12.length = A.length / 2 ∧
        q.a21.length = A.length / 2 ∧ q.a22.length = A.length / 2) ∧
    (A.length ≠ B.length → strassenFuel 1 A B = .ok [] ∧ strassen A B = .ok []) ∧
    (∀ k, 1 ≤ k → IsSquare A (2 ^ k) → IsSquare B (2 ^ k) →
      ∃ C, strassen A B = .ok C ∧ IsSquare C (2 ^ k)) := by
  refine ⟨strassenFuel_ne_fuel _ A B (Nat.lt_succ_self _),
    fun fuel h => strassenFuel_ne_fuel fuel A B h,
    fun h => strassenFuel_no_recursion _ A B h, ?_, ?_, ?_⟩
  · intro q _ hbig hq
    exact ⟨by omega, splitLoop_length hq⟩
  · intro h
    have e : strassenFuel 1 A B = .ok [] := by
      rw [strassenFuel, if_pos h]
    exact ⟨e, (strassenFuel_no_recursion _ A B (Or.inl h)).trans e⟩
  · intro k hk hA hB
    obtain ⟨k', rfl⟩ : ∃ m, k = m + 1 := ⟨k - 1, by omega⟩
    refine ⟨naiveMul A B, ?_, ?_⟩
    · unfold strassen
      rw [hA.1]
      exact strassenFuel_eq_naiveMul k' _ A B (lt_two_pow_succ k') hA hB
    · obtain ⟨f, rfl⟩ := exists_ofFn_of_isSquare hA
      obtain ⟨g, rfl⟩ := exists_ofFn_of_isSquare hB
      rw [naiveMul_ofFn]
      exact isSquare_ofFn _ _

theorem strassen_terminates_witness :
    (∃ C, strassen [[1, 2], [3, 4]] [[5, 6], [7, 8]] = .ok C ∧ IsSquare C (2 ^ 1)) ∧
    strassen [[1, 2], [3, 4]] [[5, 6], [7, 8]] = strassenFuel 1 [[1, 2], [3, 4]] [[5, 6], [7, 8]] :=
  ⟨(strassen_terminates [[1, 2], [3, 4]] [[5, 6], [7, 8]]).2.2.2.2.2 1 (by decide) (by decide)
      (by decide),
    (strassen_terminates [[1, 2], [3, 4]] [[5, 6], [7, 8]]).2.2.1 (Or.inr (by decide))⟩

/-! ## Counted runs -/

theorem Counted.run_bind {α β : Type} (x : Counted α) (f : α → Counted β) :
    (x >>= f).run = x.run >>= fun a => (f a).run := by
  obtain ⟨r, c⟩ := x
  cases r <;> exact id rfl

theorem Counted.run_lift {α : Type} (r : Run α) : (liftM r : Counted α).run = r := id rfl

theorem Counted.cost_lift {α : Type} (r : Run α) :
    (liftM r : Counted α).cost = ⟨0, 0, 0, 0⟩ := id rfl

theorem Counted.run_pure {α : Type} (a : α) : (pure a : Counted α).run = .ok a := id rfl

theorem Counted.cost_pure {α : Type} (a : α) : (pure a : Counted α).cost = ⟨0, 0, 0, 0⟩ :=
  id rfl

theorem Counted.run_charge (c : Cost) : (charge c).run = .ok () := id rfl

theorem Counted.cost_charge (c : Cost) : (charge c).cost = c := id rfl

theorem Cost.zero_add (c : Cost) : Cost.add ⟨0, 0, 0, 0⟩ c = c := by
  obtain ⟨a, b, d, e⟩ := c
  simp [Cost.add]

theorem Counted.eq_mk {α : Type} (x : Counted α) {r : Run α} {c : Cost}
    (hr : x.run = r) (hc : x.cost = c) : x = ⟨r, c⟩ := by
  obtain ⟨r', c'⟩ := x
  simp only at hr hc
  rw [hr, hc]

theorem Counted.lift_ok_bind {α β : Type} (a : α) (f : α → Counted β) :
    ((liftM (Run.ok a) : Counted α) >>= f) = f a := by
  obtain ⟨r, c⟩ : ∃ r c, f a = ⟨r, c⟩ := ⟨(f a).run, (f a).cost, rfl⟩
  show Counted.bind ⟨Run.ok a, ⟨0, 0, 0, 0⟩⟩ f = f a
  simp only [Counted.bind, Cost.zero_add]

theorem Counted.cost_bind_of_ok {α β : Type} (x : Counted α) (f : α → Counted β) (a : α)
    (hx : x.run = .ok a) : (x >>= f).cost = x.cost.add (f a).cost := by
  obtain ⟨r, c⟩ := x
  simp only at hx
  subst hx
  exact id rfl

theorem Counted.cost_mk_ok_bind {α β : Type} (a : α) (c : Cost) (f : α → Counted β) :
    ((⟨.ok a, c⟩ : Counted α) >>= f).cost = c.add (f a).cost := id rfl

theorem Counted.cost_charge_bind {β : Type} (c : Cost) (f : Unit → Counted β) :
    (charge c >>= f).cost = c.add (f ()).cost := id rfl

theorem Run.bind_ok_right {α : Type} (x : Run α) : (x >>= fun a => Run.ok a) = x := by
  cases x <;> exact id rfl

theorem Counted.mismatches_bind {α β : Type} (x : Counted α) (f : α → Counted β)
    (hx : x.cost.mismatches = 0) (hf : ∀ a, x.run = .ok a → (f a).cost.mismatches = 0) :
    (x >>= f).cost.mismatches = 0 := by
  obtain ⟨r, c⟩ := x
  cases r with
  | ok a =>
    show (Cost.add c (f a).cost).mismatches = 0
    have h1 := hf a rfl
    simp only at hx
    simp only [Cost.add, hx, h1]
  | fault e => exact hx

theorem Counted.mismatches_lift_bind {α β : Type} (r : Run α) (f : α → Counted β)
    (hf : ∀ a, r = .ok a → (f a).cost.mismatches = 0) :
    ((liftM r : Counted α) >>= f).cost.mismatches = 0 :=
  Counted.mismatches_bind _ f rfl hf

/-- Erasing the counters of the instrumented run gives the run of `strassenFuel`. -/
theorem strassenCount_run (fuel : Nat) : ∀ A B : Matrix,
    (strassenCount fuel A B).run = strassenFuel fuel A B := by
  induction fuel with
  | zero => intro A B; rfl
  | succ fuel ih =>
    intro A B
    rw [strassenCount, strassenFuel]
    simp only [Counted.run_bind, Counted.run_charge, Run.ok_bind_step, apply_ite Counted.run,
      Counted.run_lift, Counted.run_pure, Run.bind_ok_right, ih]

theorem length_ne_nil_of_pos {M : Matrix} {m : Nat} (h : M.length = m) (hm : 1 ≤ m) :
    M ≠ [] := by
  intro hc
  rw [hc] at h
  simp at h
  omega

/-- On square operands of a common dimension `m ≥ 1` no run returns the empty matrix. -/
theorem strassenFuel_ne_empty (fuel m : Nat) (X Y : Matrix) (hm : 1 ≤ m)
    (hX : IsSquare X m) (hY : IsSquare Y m) : strassenFuel fuel X Y ≠ .ok [] := by
  obtain ⟨f, rfl⟩ := exists_ofFn_of_isSquare hX
  obtain ⟨g, rfl⟩ := exists_ofFn_of_isSquare hY
  intro hc
  obtain ⟨c, hc', -⟩ := strassenFuel_table fuel m f g [] hc
  have := congrArg List.length hc'
  simp at this
  omega

/-- On tables of a common dimension no invocation of the whole recursion takes the
shape-mismatch branch, whether the run completes or not. -/
theorem strassenCount_mismatches (fuel : Nat) : ∀ (n : Nat) (f g : Nat → Nat → Int),
    (strassenCount fuel (ofFn n f) (ofFn n g)).cost.mismatches = 0 := by
  induction fuel with
  | zero => intro n f g; rfl
  | succ fuel ih =>
    intro n f g
    rw [strassenCount]
    simp only [length_ofFn, ne_eq, not_true_eq_false, if_false]
    refine Counted.mismatches_bind _ _ rfl fun _ _ => ?_
    by_cases hn : n ≤ 2
    · simp only [hn, if_true]
      exact Counted.mismatches_lift_bind _ _ fun C _ =>
        Counted.mismatches_bind _ _ rfl fun _ _ => rfl
    · have hle : 2 * (n / 2) ≤ n := by omega
      simp only [hn, if_false, splitLoop_ofFn n (n / 2) f g hle, Counted.lift_ok_bind,
        addMatrix_ofFn, subtractMatrix_ofFn]
      refine Counted.mismatches_bind _ _ (ih _ _ _) fun p1 _ => ?_
      refine Counted.mismatches_bind _ _ (ih _ _ _) fun p2 _ => ?_
      refine Counted.mismatches_bind _ _ (ih _ _ _) fun p3 _ => ?_
      refine Counted.mismatches_bind _ _ (ih _ _ _) fun p4 _ => ?_
      refine Counted.mismatches_bind _ _ (ih _ _ _) fun p5 _ => ?_
      refine Counted.mismatches_bind _ _ (ih _ _ _) fun p6 _ => ?_
      refine Counted.mismatches_bind _ _ (ih _ _ _) fun p7 _ => ?_
      exact Counted.mismatches_lift_bind _ _ fun _ _ =>
        Counted.mismatches_lift_bind _ _ fun _ _ =>
        Counted.mismatches_lift_bind _ _ fun _ _ =>
        Counted.mismatches_lift_bind _ _ fun _ _ =>
        Counted.mismatches_lift_bind _ _ fun _ _ =>
        Counted.mismatches_lift_bind _ _ fun _ _ =>
        Counted.mismatches_lift_bind _ _ fun _ _ =>
        Counted.mismatches_lift_bind _ _ fun _ _ => rfl

/-- The counters of a run on tables of dimension `2^(k+1)`: `7^k` base cases with eight
multiplications each, no mismatch. -/
theorem strassenCount_cost_pow2 (k : Nat) : ∀ (fuel : Nat) (f g : Nat → Nat → Int), k < fuel →
    (strassenCount fuel (ofFn (2 ^ (k + 1)) f) (ofFn (2 ^ (k + 1)) g)).cost
      = ⟨invocationsPow k, 7 ^ k, 8 * 7 ^ k, 0⟩ := by
  induction k with
  | zero =>
    intro fuel f g hfuel
    obtain ⟨m, rfl⟩ : ∃ m, fuel = m + 1 := ⟨fuel - 1, by omega⟩
    rw [strassenCount]
    simp only [length_ofFn, ne_eq, not_true_eq_false, if_false, Nat.zero_add, Nat.pow_one,
      Nat.le_refl, if_true, baseCase_two, Counted.lift_ok_bind, Counted.cost_charge_bind,
      Counted.cost_pure]
    simp [Cost.add, invocationsPow]
  | succ k ih =>
    intro fuel f g hfuel
    obtain ⟨m, rfl⟩ : ∃ m, fuel = m + 1 := ⟨fuel - 1, by omega⟩
    have hm : k < m := by omega
    have e : ∀ f g : Nat → Nat → Int,
        strassenCount m (ofFn (2 ^ (k + 1)) f) (ofFn (2 ^ (k + 1)) g)
          = ⟨.ok (ofFn (2 ^ (k + 1)) fun i j => ∑ t in Finset.range (2 ^ (k + 1)), f i t * g t j),
              ⟨invocationsPow k, 7 ^ k, 8 * 7 ^ k, 0⟩⟩ :=
      fun f g => Counted.eq_mk _
        ((strassenCount_run m _ _).trans (strassenFuel_ofFn k m f g hm)) (ih m f g hm)
    have hpos : 0 < 2 ^ k := Nat.pow_pos (by decide)
    have hbig : ¬ 2 ^ (k + 1 + 1) ≤ 2 := by
      have : 2 ^ (k + 1 + 1) = 4 * 2 ^ k := by ring
      omega
    have hhalf : 2 ^ (k + 1 + 1) / 2 = 2 ^ (k + 1) := by
      rw [pow_succ 2 (k + 1)]
      exact Nat.mul_div_cancel _ (by decide)
    rw [strassenCount]
    simp only [length_ofFn, ne_eq, not_true_eq_false, if_false, hbig, hhalf]
    rw [splitLoop_ofFn (2 ^ (k + 1 + 1)) (2 ^ (k + 1)) f g (by omega)]
    simp only [Counted.lift_ok_bind, addMatrix_ofFn, subtractMatrix_ofFn, e,
      Counted.cost_charge_bind, Counted.cost_mk_ok_bind, Counted.cost_lift]
    simp only [Cost.add, invocationsPow, Cost.mk.injEq]
    refine ⟨by omega, ?_, ?_, trivial⟩
    · rw [pow_succ 7 k]; omega
    · rw [pow_succ 7 k]; omega

/-- With fuel `k` the recursion on tables of dimension `2^(k+1)` is cut off: it needs
`k + 1` nested invocations. -/
theorem strassenFuel_pow2_cut (k : Nat) : ∀ f g : Nat → Nat → Int,
    strassenFuel k (ofFn (2 ^ (k + 1)) f) (ofFn (2 ^ (k + 1)) g) = .fault .outOfFuel := by
  induction k with
  | zero => intro f g; rfl
  | succ k ih =>
    intro f g
    have hpos : 0 < 2 ^ k := Nat.pow_pos (by decide)
    have hbig : ¬ 2 ^ (k + 1 + 1) ≤ 2 := by
      have : 2 ^ (k + 1 + 1) = 4 * 2 ^ k := by ring
      omega
    have hhalf : 2 ^ (k + 1 + 1) / 2 = 2 ^ (k + 1) := by
      rw [pow_succ 2 (k + 1)]
      exact Nat.mul_div_cancel _ (by decide)
    rw [strassenFuel]
    simp only [length_ofFn, ne_eq, not_true_eq_false, if_false, hbig, hhalf]
    rw [splitLoop_ofFn (2 ^ (k + 1 + 1)) (2 ^ (k + 1)) f g (by omega)]
    simp only [Run.ok_bind_step, subtractMatrix_ofFn, ih, Run.fault_bind]

theorem naiveMults_eq (n : Nat) : naiveMults n = n ^ 3 := by
  unfold naiveMults
  simp only [List.length_range, List.map_const', List.sum_replicate, smul_eq_mul]
  ring

/-- The operands of the seven recursive calls on tables of dimension `n`: all fourteen
are built without fault and are tables of dimension `n / 2`. -/
theorem recursive_operands_square (n : Nat) (A B : Matrix)
    (hA : IsSquare A n) (hB : IsSquare B n) :
    ∃ q s1 s2 s3 s4 s5 t5 s6 t6 s7 t7,
      splitLoop A B (n / 2) = .ok q ∧
      subtractMatrix q.b12 q.b22 = .ok s1 ∧ addMatrix q.a11 q.a12 = .ok s2 ∧
      addMatrix q.a21 q.a22 = .ok s3 ∧ subtractMatrix q.b21 q.b11 = .ok s4 ∧
      addMatrix q.a11 q.a22 = .ok s5 ∧ addMatrix q.b11 q.b22 = .ok t5 ∧
      subtractMatrix q.a12 q.a22 = .ok s6 ∧ addMatrix q.b21 q.b22 = .ok t6 ∧
      subtractMatrix q.a11 q.a21 = .ok s7 ∧ addMatrix q.b11 q.b12 = .ok t7 ∧
      (IsSquare q.a11 (n / 2) ∧ IsSquare s1 (n / 2)) ∧
      (IsSquare s2 (n / 2) ∧ IsSquare q.b22 (n / 2)) ∧
      (IsSquare s3 (n / 2) ∧ IsSquare q.b11 (n / 2)) ∧
      (IsSquare q.a22 (n / 2) ∧ IsSquare s4 (n / 2)) ∧
      (IsSquare s5 (n / 2) ∧ IsSquare t5 (n / 2)) ∧
      (IsSquare s6 (n / 2) ∧ IsSquare t6 (n / 2)) ∧
      (IsSquare s7 (n / 2) ∧ IsSquare t7 (n / 2)) := by
  obtain ⟨f, rfl⟩ := exists_ofFn_of_isSquare hA
  obtain ⟨g, rfl⟩ := exists_ofFn_of_isSquare hB
  have hle : 2 * (n / 2) ≤ n := by omega
  refine ⟨_, _, _, _, _, _, _, _, _, _, _, splitLoop_ofFn n (n / 2) f g hle,
    subtractMatrix_ofFn _ _ _, addMatrix_ofFn _ _ _, addMatrix_ofFn _ _ _,
    subtractMatrix_ofFn _ _ _, addMatrix_ofFn _ _ _, addMatrix_ofFn _ _ _,
    subtractMatrix_ofFn _ _ _, addMatrix_ofFn _ _ _, subtractMatrix_ofFn _ _ _,
    addMatrix_ofFn _ _ _, ⟨isSquare_ofFn _ _, isSquare_ofFn _ _⟩,
    ⟨isSquare_ofFn _ _, isSquare_ofFn _ _⟩, ⟨isSquare_ofFn _ _, isSquare_ofFn _ _⟩,
    ⟨isSquare_ofFn _ _, isSquare_ofFn _ _⟩, ⟨isSquare_ofFn _ _, isSquare_ofFn _ _⟩,
    ⟨isSquare_ofFn _ _, isSquare_ofFn _ _⟩, ⟨isSquare_ofFn _ _, isSquare_ofFn _ _⟩⟩

theorem invocationsPow_succ (k : Nat) :
    invocationsPow (k + 1) = invocationsPow k + 7 ^ (k + 1) := by
  induction k with
  | zero => rfl
  | succ k ih =>
    have h1 : invocationsPow (k + 1 + 1) = 1 + 7 * invocationsPow (k + 1) := rfl
    have h2 : invocationsPow (k + 1) = 1 + 7 * invocationsPow k := rfl
    rw [h1, ih, pow_succ 7 (k + 1)]
    omega

theorem invocationsPow_closed (k : Nat) : 6 * invocationsPow k + 1 = 7 ^ (k + 1) := by
  induction k with
  | zero => rfl
  | succ k ih =>
    have h1 : invocationsPow (k + 1) = 1 + 7 * invocationsPow k := rfl
    rw [h1, pow_succ 7 (k + 1)]
    omega

theorem invocationsPow_calls (k : Nat) :
    invocationsPow k = 1 + 7 * (invocationsPow k - 7 ^ k) := by
  cases k with
  | zero => rfl
  | succ k =>
    rw [invocationsPow_succ, Nat.add_sub_cancel]
    have h1 : invocationsPow (k + 1) = 1 + 7 * invocationsPow k := rfl
    rw [← invocationsPow_succ, h1]

/-- Claim C15: for square operands of equal dimension `n > 2`, the operands of the seven
recursive calls are built without fault and are square of dimension `n / 2`; in the
instrumented run, whose outcome is that of `strassen`, no invocation at any depth takes
the shape-mismatch branch; and no call on square operands of dimension `n / 2` returns
the empty matrix. -/
theorem no_mismatch_in_recursion (n : Nat) (A B : Matrix) (hn : 2 < n)
    (hA : IsSquare A n) (hB : IsSquare B n) :
    (∃ q s1 s2 s3 s4 s5 t5 s6 t6 s7 t7,
      splitLoop A B (n / 2) = .ok q ∧
      subtractMatrix q.b12 q.b22 = .ok s1 ∧ addMatrix q.a11 q.a12 = .ok s2 ∧
      addMatrix q.a21 q.a22 = .ok s3 ∧ subtractMatrix q.b21 q.b11 = .ok s4 ∧
      addMatrix q.a11 q.a22 = .ok s5 ∧ addMatrix q.b11 q.b22 = .ok t5 ∧
      subtractMatrix q.a12 q.a22 = .ok s6 ∧ addMatrix q.b21 q.b22 = .ok t6 ∧
      subtractMatrix q.a11 q.a21 = .ok s7 ∧ addMatrix q.b11 q.b12 = .ok t7 ∧
      (IsSquare q.a11 (n / 2) ∧ IsSquare s1 (n / 2)) ∧
      (IsSquare s2 (n / 2) ∧ IsSquare q.b22 (n / 2)) ∧
      (IsSquare s3 (n / 2) ∧ IsSquare q.b11 (n / 2)) ∧
      (IsSquare q.a22 (n / 2) ∧ IsSquare s4 (n / 2)) ∧
      (IsSquare s5 (n / 2) ∧ IsSquare t5 (n / 2)) ∧
      (IsSquare s6 (n / 2) ∧ IsSquare t6 (n / 2)) ∧
      (IsSquare s7 (n / 2) ∧ IsSquare t7 (n / 2))) ∧
    (∀ fuel, (strassenCount fuel A B).run = strassenFuel fuel A B ∧
      (strassenCount fuel A B).cost.mismatches = 0) ∧
    (∀ fuel X Y, IsSquare X (n / 2) → IsSquare Y (n / 2) →
      X.length = Y.length ∧ strassenFuel fuel X Y ≠ .ok []) := by
  refine ⟨recursive_operands_square n A B hA hB, ?_, ?_⟩
  · intro fuel
    refine ⟨strassenCount_run fuel A B, ?_⟩
    obtain ⟨f, rfl⟩ := exists_ofFn_of_isSquare hA
    obtain ⟨g, rfl⟩ := exists_ofFn_of_isSquare hB
    exact strassenCount_mismatches fuel n f g
  · intro fuel X Y hX hY
    exact ⟨hX.1.trans hY.1.symm, strassenFuel_ne_empty fuel (n / 2) X Y (by omega) hX hY⟩

theorem no_mismatch_in_recursion_witness :
    (strassenCount 5 [[1, 2, 3], [4, 5, 6], [7, 8, 9]]
        [[1, 0, 0], [0, 1, 0], [0, 0, 1]]).cost.mismatches = 0 ∧
    strassenFuel 4 [[2]] [[3]] ≠ .ok [] :=
  ⟨((no_mismatch_in_recursion 3 [[1, 2, 3], [4, 5, 6], [7, 8, 9]]
      [[1, 0, 0], [0, 1, 0], [0, 0, 1]] (by decide) (by decide) (by decide)).2.1 5).2,
   ((no_mismatch_in_recursion 3 [[1, 2, 3], [4, 5, 6], [7, 8, 9]]
      [[1, 0, 0], [0, 1, 0], [0, 0, 1]] (by decide) (by decide) (by decide)).2.2 4 [[2]] [[3]]
      (by decide) (by decide)).2⟩

/-- Claim C18: on square operands of dimension `2^k`, `k ≥ 1`, the instrumented run
(whose outcome is that of `strassen`) completes `7^(k-1)` base cases and `8 * 7^(k-1)`
scalar multiplications; every invocation above the base case makes exactly seven calls
(`invocations = 1 + 7 * (invocations - baseCases)`), each on square operands of dimension
`n / 2`; the recursion is `k - 1` deep (fuel `k` suffices, fuel `k - 1` does not); the
standard definition uses `(2^k)^3 = 8^k` multiplications. -/
theorem multiplication_count (k : Nat) (A B : Matrix) (hk : 1 ≤ k)
    (hA : IsSquare A (2 ^ k)) (hB : IsSquare B (2 ^ k)) :
    (∀ fuel, (strassenCount fuel A B).run = strassenFuel fuel A B) ∧
    (strassenCount (A.length + 1) A B).run = .ok (naiveMul A B) ∧
    (strassenCount (A.length + 1) A B).cost.baseCases = 7 ^ (k - 1) ∧
    (strassenCount (A.length + 1) A B).cost.mults = 8 * 7 ^ (k - 1) ∧
    6 * (strassenCount (A.length + 1) A B).cost.invocations + 1 = 7 ^ k ∧
    (strassenCount (A.length + 1) A B).cost.invocations
      = 1 + 7 * ((strassenCount (A.length + 1) A B).cost.invocations
          - (strassenCount (A.length + 1) A B).cost.baseCases) ∧
    strassenFuel k A B = .ok (naiveMul A B) ∧
    strassenFuel (k - 1) A B = .fault .outOfFuel ∧
    naiveMults (2 ^ k) = 8 ^ k ∧ 8 * 7 ^ (k - 1) ≤ 8 ^ k ∧
    (2 < 2 ^ k → ∃ q s1 s2 s3 s4 s5 t5 s6 t6 s7 t7,
      splitLoop A B (2 ^ k / 2) = .ok q ∧
      subtractMatrix q.b12 q.b22 = .ok s1 ∧ addMatrix q.a11 q.a12 = .ok s2 ∧
      addMatrix q.a21 q.a22 = .ok s3 ∧ subtractMatrix q.b21 q.b11 = .ok s4 ∧
      addMatrix q.a11 q.a22 = .ok s5 ∧ addMatrix q.b11 q.b22 = .ok t5 ∧
      subtractMatrix q.a12 q.a22 = .ok s6 ∧ addMatrix q.b21 q.b22 = .ok t6 ∧
      subtractMatrix q.a11 q.a21 = .ok s7 ∧ addMatrix q.b11 q.b12 = .ok t7 ∧
      (IsSquare q.a11 (2 ^ k / 2) ∧ IsSquare s1 (2 ^ k / 2)) ∧
      (IsSquare s2 (2 ^ k / 2) ∧ IsSquare q.b22 (2 ^ k / 2)) ∧
      (IsSquare s3 (2 ^ k / 2) ∧ IsSquare q.b11 (2 ^ k / 2)) ∧
      (IsSquare q.a22 (2 ^ k / 2) ∧ IsSquare s4 (2 ^ k / 2)) ∧
      (IsSquare s5 (2 ^ k / 2) ∧ IsSquare t5 (2 ^ k / 2)) ∧
      (IsSquare s6 (2 ^ k / 2) ∧ IsSquare t6 (2 ^ k / 2)) ∧
      (IsSquare s7 (2 ^ k / 2) ∧ IsSquare t7 (2 ^ k / 2))) := by
  obtain ⟨k', rfl⟩ : ∃ m, k = m + 1 := ⟨k - 1, by omega⟩
  have hops := recursive_operands_square (2 ^ (k' + 1)) A B hA hB
  have hlen : A.length = 2 ^ (k' + 1) := hA.1
  have hrun := strassenFuel_eq_naiveMul k' (A.length + 1) A B
    (by rw [hlen]; exact lt_two_pow_succ k') hA hB
  have hrunk := strassenFuel_eq_naiveMul k' (k' + 1) A B (Nat.lt_succ_self k') hA hB
  obtain ⟨f, rfl⟩ := exists_ofFn_of_isSquare hA
  obtain ⟨g, rfl⟩ := exists_ofFn_of_isSquare hB
  have hcost := strassenCount_cost_pow2 k' ((ofFn (2 ^ (k' + 1)) f).length + 1) f g
    (by rw [hlen]; exact lt_two_pow_succ k')
  simp only [Nat.add_sub_cancel]
  refine ⟨fun fuel => strassenCount_run fuel _ _, (strassenCount_run _ _ _).trans hrun,
    ?_, ?_, ?_, ?_, hrunk, strassenFuel_pow2_cut k' f g, ?_, ?_, fun _ => hops⟩
  · rw [hcost]
  · rw [hcost]
  · rw [hcost]
    exact invocationsPow_closed k'
  · rw [hcost]
    exact invocationsPow_calls k'
  · rw [naiveMults_eq, ← pow_mul, Nat.mul_comm, pow_mul]
    norm_num
  · rw [pow_succ 8 k']
    have : 7 ^ k' ≤ 8 ^ k' := Nat.pow_le_pow_left (by decide) k'
    omega

set_option maxRecDepth 100000 in
theorem multiplication_count_witness :
    (strassenCount 5 [[1, 2, 3, 4], [5, 6, 7, 8], [9, 10, 11, 12], [13, 14, 15, 16]]
        [[17, 18, 19, 20], [21, 22, 23, 24], [25, 26, 27, 28], [29, 30, 31, 32]]).cost.mults
      = 8 * 7 ^ (2 - 1) ∧
    (strassenCount 5 [[1, 2, 3, 4], [5, 6, 7, 8], [9, 10, 11, 12], [13, 14, 15, 16]]
        [[17, 18, 19, 20], [21, 22, 23, 24], [25, 26, 27, 28], [29, 30, 31, 32]]).cost
      = ⟨8, 7, 56, 0⟩ :=
  ⟨(multiplication_count 2 [[1, 2, 3, 4], [5, 6, 7, 8], [9, 10, 11, 12], [13, 14, 15, 16]]
      [[17, 18, 19, 20], [21, 22, 23, 24], [25, 26, 27, 28], [29, 30, 31, 32]]
      (by decide) (by decide) (by decide)).2.2.2.1, by decide⟩

/-! ## Wrapping arithmetic -/

theorem cast_wrap32 (x : Int) : ((wrap32 x : Int) : ZMod 4294967296) = (x : ZMod 4294967296) := by
  unfold wrap32
  have h := ZMod.intCast_mod (x + 2147483648) 4294967296
  push_cast at h ⊢
  rw [h]
  ring

theorem wrap32_congr {a b : Int}
    (h : (a : ZMod 4294967296) = (b : ZMod 4294967296)) : wrap32 a = wrap32 b := by
  have h1 : ((a + 2147483648 : Int) : ZMod 4294967296) = ((b + 2147483648 : Int) : ZMod 4294967296) := by
    push_cast
    rw [h]
  have h2 := (ZMod.intCast_eq_intCast_iff' _ _ _).mp h1
  unfold wrap32
  have h3 : ((4294967296 : Nat) : Int) = 4294967296 := by norm_num
  rw [h3] at h2
  rw [h2]

theorem wrap32_range (x : Int) : -2147483648 ≤ wrap32 x ∧ wrap32 x < 2147483648 := by
  unfold wrap32
  omega

theorem wrap32_of_range {x : Int} (h1 : -2147483648 ≤ x) (h2 : x < 2147483648) :
    wrap32 x = x := by
  unfold wrap32
  omega

theorem addMatrix32_ofFn (n : Nat) (f g : Nat → Nat → Int) :
    addMatrix32 (ofFn n f) (ofFn n g) = .ok (ofFn n fun i j => wrap32 (f i j + g i j)) := by
  unfold addMatrix32
  simp only [length_ofFn]
  rw [← fill_zero n (fun i j => wrap32 (f i j + g i j)),
    ← fill_full n (fun i j => wrap32 (f i j + g i j))]
  apply nestedLoop_eq (fun i j C => do
    let a ← getE (ofFn n f) i j
    let b ← getE (ofFn n g) i j
    setE C i j (wrap32 (a + b))) n n (fill n fun i j => wrap32 (f i j + g i j))
  · intro i j hi hj
    simp only [getE_ofFn f hi hj, getE_ofFn g hi hj, Run.ok_bind]
    exact setE_fill (fun i j => wrap32 (f i j + g i j)) hi hj
  · intro i _
    exact fill_row n _ i

theorem subtractMatrix32_ofFn (n : Nat) (f g : Nat → Nat → Int) :
    subtractMatrix32 (ofFn n f) (ofFn n g)
      = .ok (ofFn n fun i j => wrap32 (f i j - g i j)) := by
  unfold subtractMatrix32
  simp only [length_ofFn]
  rw [← fill_zero n (fun i j => wrap32 (f i j - g i j)),
    ← fill_full n (fun i j => wrap32 (f i j - g i j))]
  apply nestedLoop_eq (fun i j C => do
    let a ← getE (ofFn n f) i j
    let b ← getE (ofFn n g) i j
    setE C i j (wrap32 (a - b))) n n (fill n fun i j => wrap32 (f i j - g i j))
  · intro i j hi hj
    simp only [getE_ofFn f hi hj, getE_ofFn g hi hj, Run.ok_bind]
    exact setE_fill (fun i j => wrap32 (f i j - g i j)) hi hj
  · intro i _
    exact fill_row n _ i

theorem baseCase32_two (f g : Nat → Nat → Int) :
    baseCase32 (ofFn 2 f) (ofFn 2 g) 2
      = .ok (ofFn 2 fun i j => wrap32 (∑ t in Finset.range 2, f i t * g t j)) := by
  have h0 : (0 : Nat) < 2 := by decide
  have h1 : (1 : Nat) < 2 := by decide
  simp only [baseCase32, mkMatrix_eq_ofFn, getE_ofFn f h0 h0, getE_ofFn f h0 h1,
    getE_ofFn f h1 h0, getE_ofFn f h1 h1, getE_ofFn g h0 h0, getE_ofFn g h0 h1,
    getE_ofFn g h1 h0, getE_ofFn g h1 h1, Run.ok_bind_step, setE_ofFn _ _ h0 h0,
    setE_ofFn _ _ h0 h1, setE_ofFn _ _ h1 h0, setE_ofFn _ _ h1 h1, Run.pure_eq]
  congr 1
  apply ofFn_congr
  intro i j hi hj
  have key : ∀ a b c d : Int, wrap32 (wrap32 (a * b) + wrap32 (c * d))
      = wrap32 (∑ t in Finset.range 2, if t = 0 then a * b else c * d) := by
    intro a b c d
    apply wrap32_congr
    simp [Finset.sum_range_succ, cast_wrap32]
  interval_cases i <;> interval_cases j <;>
    simp [upd, key, Finset.sum_range_succ]

theorem naiveMul32_ofFn (n : Nat) (f g : Nat → Nat → Int) :
    naiveMul32 (ofFn n f) (ofFn n g)
      = ofFn n fun i j => wrap32 (∑ t in Finset.range n, f i t * g t j) := by
  unfold naiveMul32
  simp only [length_ofFn]
  apply ofFn_congr
  intro i j hi hj
  have key : ∀ m, m ≤ n →
      (List.range m).foldl
        (fun acc t => wrap32 (acc + wrap32 (entry (ofFn n f) i t * entry (ofFn n g) t j))) 0
      = wrap32 (∑ t in Finset.range m, f i t * g t j) := by
    intro m
    induction m with
    | zero => intro _; rfl
    | succ m ih =>
      intro hm
      have hm' : m < n := by omega
      rw [List.range_succ, List.foldl_append, ih (by omega), Finset.sum_range_succ]
      simp only [List.foldl_cons, List.foldl_nil, entry_ofFn f hi hm', entry_ofFn g hm' hj]
      apply wrap32_congr
      simp only [Int.cast_add, cast_wrap32]
  exact key n (Nat.le_refl n)

/-- The seven-product combination over wrapping integers, entry by entry: the joined
quadrant tables are the wrapped product of the two `2h × 2h` tables. -/
theorem strassen_combine32 (h : Nat) (f g : Nat → Nat → Int) (i j : Nat)
    (hi : i < 2 * h) (hj : j < 2 * h) :
    joinVal h
      (fun i j => wrap32 (wrap32 (wrap32
        (wrap32 (∑ t in Finset.range h,
            wrap32 (f i t + f (i + h) (t + h)) * wrap32 (g t j + g (t + h) (j + h)))
          + wrap32 (∑ t in Finset.range h, f (i + h) (t + h) * wrap32 (g (t + h) j - g t j)))
          - wrap32 (∑ t in Finset.range h, wrap32 (f i t + f i (t + h)) * g (t + h) (j + h)))
          + wrap32 (∑ t in Finset.range h, wrap32 (f i (t + h) - f (i + h) (t + h))
              * wrap32 (g (t + h) j + g (t + h) (j + h)))))
      (fun i j => wrap32
        (wrap32 (∑ t in Finset.range h, f i t * wrap32 (g t (j + h) - g (t + h) (j + h)))
          + wrap32 (∑ t in Finset.range h, wrap32 (f i t + f i (t + h)) * g (t + h) (j + h))))
      (fun i j => wrap32
        (wrap32 (∑ t in Finset.range h, wrap32 (f (i + h) t + f (i + h) (t + h)) * g t j)
          + wrap32 (∑ t in Finset.range h, f (i + h) (t + h) * wrap32 (g (t + h) j - g t j))))
      (fun i j => wrap32 (wrap32 (wrap32
        (wrap32 (∑ t in Finset.range h,
            wrap32 (f i t + f (i + h) (t + h)) * wrap32 (g t j + g (t + h) (j + h)))
          + wrap32 (∑ t in Finset.range h, f i t * wrap32 (g t (j + h) - g (t + h) (j + h))))
          - wrap32 (∑ t in Finset.range h, wrap32 (f (i + h) t + f (i + h) (t + h)) * g t j))
          - wrap32 (∑ t in Finset.range h, wrap32 (f i t - f (i + h) t)
              * wrap32 (g t j + g t (j + h)))))
      i j
    = wrap32 (∑ t in Finset.range (2 * h), f i t * g t j) := by
  rw [← strassen_combine h f g i j hi hj]
  by_cases hi' : i < h
  · by_cases hj' : j < h
    · rw [joinVal_11 _ _ _ _ hi' hj', joinVal_11 _ _ _ _ hi' hj']
      apply wrap32_congr
      simp only [Int.cast_add, Int.cast_sub, Int.cast_mul, Int.cast_sum, cast_wrap32]
    · obtain ⟨j0, rfl⟩ : ∃ j0, j = j0 + h := ⟨j - h, by omega⟩
      have hj0 : j0 < h := by omega
      rw [joinVal_12 _ _ _ _ hi' hj0, joinVal_12 _ _ _ _ hi' hj0]
      apply wrap32_congr
      simp only [Int.cast_add, Int.cast_sub, Int.cast_mul, Int.cast_sum, cast_wrap32]
  · obtain ⟨i0, rfl⟩ : ∃ i0, i = i0 + h := ⟨i - h, by omega⟩
    have hi0 : i0 < h := by omega
    by_cases hj' : j < h
    · rw [joinVal_21 _ _ _ _ hi0 hj', joinVal_21 _ _ _ _ hi0 hj']
      apply wrap32_congr
      simp only [Int.cast_add, Int.cast_sub, Int.cast_mul, Int.cast_sum, cast_wrap32]
    · obtain ⟨j0, rfl⟩ : ∃ j0, j = j0 + h := ⟨j - h, by omega⟩
      have hj0 : j0 < h := by omega
      rw [joinVal_22 _ _ _ _ hi0 hj0, joinVal_22 _ _ _ _ hi0 hj0]
      apply wrap32_congr
      simp only [Int.cast_add, Int.cast_sub, Int.cast_mul, Int.cast_sum, cast_wrap32]

/-- With enough fuel, the wrapping `strassen` on two tables of dimension `2^(k+1)` returns
the table of their wrapped product. -/
theorem strassenFuel32_ofFn (k : Nat) : ∀ (fuel : Nat) (f g : Nat → Nat → Int), k < fuel →
    strassenFuel32 fuel (ofFn (2 ^ (k + 1)) f) (ofFn (2 ^ (k + 1)) g)
      = .ok (ofFn (2 ^ (k + 1)) fun i j =>
          wrap32 (∑ t in Finset.range (2 ^ (k + 1)), f i t * g t j)) := by
  induction k with
  | zero =>
    intro fuel f g hfuel
    obtain ⟨fuel', rfl⟩ : ∃ m, fuel = m + 1 := ⟨fuel - 1, by omega⟩
    simp only [strassenFuel32, length_ofFn, ne_eq, not_true_eq_false, if_false]
    exact baseCase32_two f g
  | succ k ih =>
    intro fuel f g hfuel
    obtain ⟨fuel', rfl⟩ : ∃ m, fuel = m + 1 := ⟨fuel - 1, by omega⟩
    have ih' := fun f g => ih fuel' f g (by omega)
    have hpos : 0 < 2 ^ k := Nat.pow_pos (by decide)
    have hbig : ¬ 2 ^ (k + 1 + 1) ≤ 2 := by
      have : 2 ^ (k + 1 + 1) = 4 * 2 ^ k := by ring
      omega
    have hhalf : 2 ^ (k + 1 + 1) / 2 = 2 ^ (k + 1) := by
      rw [pow_succ 2 (k + 1)]
      exact Nat.mul_div_cancel _ (by decide)
    have hdouble : 2 ^ (k + 1 + 1) = 2 * 2 ^ (k + 1) := by ring
    rw [strassenFuel32]
    simp only [length_ofFn, ne_eq, not_true_eq_false, if_false, hbig, hhalf]
    rw [splitLoop_ofFn (2 ^ (k + 1 + 1)) (2 ^ (k + 1)) f g (by omega)]
    simp only [Run.ok_bind_step, addMatrix32_ofFn, subtractMatrix32_ofFn, ih']
    rw [joinLoop_ofFn _ _ _ _ _ _ (by omega)]
    congr 1
    apply ofFn_congr
    intro i j hi hj
    rw [hdouble] at hi hj ⊢
    exact strassen_combine32 (2 ^ (k + 1)) f g i j hi hj

/-- Claim C17: with 32-bit entries whose `+`, `-` and `*` wrap modulo `2^32`, for square
operands of dimension `2^k`, `k ≥ 1`, `strassen` returns the standard product computed
with the same wrapping arithmetic: entry `(i, j)` is the exact sum of products reduced
into `[-2^31, 2^31)`. On `overflowA` and the identity the operand `a11 + a22` overflows
(`2^30 + 2^30`), yet the result is the exact product. -/
theorem strassen32_eq_naive32 (k : Nat) (A B : Matrix) (hk : 1 ≤ k)
    (hA : IsSquare A (2 ^ k)) (hB : IsSquare B (2 ^ k)) :
    strassen32 A B = .ok (naiveMul32 A B) ∧ IsSquare (naiveMul32 A B) (2 ^ k) ∧
    (∀ i j, i < 2 ^ k → j < 2 ^ k →
      entry (naiveMul32 A B) i j
          = wrap32 (∑ t in Finset.range (2 ^ k), entry A i t * entry B t j) ∧
        -2147483648 ≤ entry (naiveMul32 A B) i j ∧ entry (naiveMul32 A B) i j < 2147483648) ∧
    (wrap32 (1073741824 + 1073741824) = -2147483648 ∧
      strassen32 overflowA (identity 4) = .ok (naiveMul overflowA (identity 4)) ∧
      naiveMul32 overflowA (identity 4) = naiveMul overflowA (identity 4)) := by
  obtain ⟨k', rfl⟩ : ∃ m, k = m + 1 := ⟨k - 1, by omega⟩
  obtain ⟨f, rfl⟩ := exists_ofFn_of_isSquare hA
  obtain ⟨g, rfl⟩ := exists_ofFn_of_isSquare hB
  refine ⟨?_, ?_, ?_, by decide, by decide, by decide⟩
  · unfold strassen32
    rw [length_ofFn, naiveMul32_ofFn]
    exact strassenFuel32_ofFn k' _ f g (lt_two_pow_succ k')
  · rw [naiveMul32_ofFn]
    exact isSquare_ofFn _ _
  · intro i j hi hj
    rw [naiveMul32_ofFn, entry_ofFn _ hi hj]
    refine ⟨?_, wrap32_range _⟩
    congr 1
    apply Finset.sum_congr rfl
    intro t ht
    have ht' : t < 2 ^ (k' + 1) := Finset.mem_range.mp ht
    rw [entry_ofFn f hi ht', entry_ofFn g ht' hj]

theorem strassen32_eq_naive32_witness :
    strassen32 [[2147483647, 2147483647], [3, 4]] [[2147483647, 6], [2147483647, 8]]
      = .ok (naiveMul32 [[2147483647, 2147483647], [3, 4]] [[2147483647, 6], [2147483647, 8]]) :=
  (strassen32_eq_naive32 1 [[2147483647, 2147483647], [3, 4]]
    [[2147483647, 6], [2147483647, 8]] (by decide) (by decide) (by decide)).1

/-! ## The claims on entry values, over the 32-bit arithmetic of the source -/

theorem wrap32_add_wrap (x y : Int) : wrap32 (wrap32 x + wrap32 y) = wrap32 (x + y) := by
  apply wrap32_congr
  simp only [Int.cast_add, cast_wrap32]

/-- With enough fuel, the wrapping `strassen` on square operands of dimension `2^(k+1)`
returns the wrapping naive product. -/
theorem strassenFuel32_eq_naiveMul32 (k fuel : Nat) (A B : Matrix) (hfuel : k < fuel)
    (hA : IsSquare A (2 ^ (k + 1))) (hB : IsSquare B (2 ^ (k + 1))) :
    strassenFuel32 fuel A B = .ok (naiveMul32 A B) := by
  obtain ⟨f, rfl⟩ := exists_ofFn_of_isSquare hA
  obtain ⟨g, rfl⟩ := exists_ofFn_of_isSquare hB
  rw [strassenFuel32_ofFn k fuel f g hfuel, naiveMul32_ofFn]

/-- The entries of the wrapping naive product: the exact sum of products reduced by
`wrap32`. -/
theorem entry_naiveMul32 {n i j : Nat} (A B : Matrix) (hA : IsSquare A n) (hB : IsSquare B n)
    (hi : i < n) (hj : j < n) :
    entry (naiveMul32 A B) i j
      = wrap32 (∑ t in Finset.range n, entry A i t * entry B t j) := by
  obtain ⟨f, rfl⟩ := exists_ofFn_of_isSquare hA
  obtain ⟨g, rfl⟩ := exists_ofFn_of_isSquare hB
  rw [naiveMul32_ofFn, entry_ofFn _ hi hj]
  congr 1
  apply Finset.sum_congr rfl
  intro t ht
  have ht' : t < n := Finset.mem_range.mp ht
  rw [entry_ofFn f hi ht', entry_ofFn g ht' hj]

theorem isSquare_naiveMul32 {n : Nat} (A B : Matrix) (hA : IsSquare A n) (hB : IsSquare B n) :
    IsSquare (naiveMul32 A B) n := by
  obtain ⟨f, rfl⟩ := exists_ofFn_of_isSquare hA
  obtain ⟨g, rfl⟩ := exists_ofFn_of_isSquare hB
  rw [naiveMul32_ofFn]
  exact isSquare_ofFn _ _

/-- Claim C11, as amended: for square matrices `A`, `B` of the same dimension `n`,
`addMatrix` returns a new `n × n` matrix `C` in which `C[i][j]` is `A[i][j] + B[i][j]`
in 32-bit arithmetic, that is the sum reduced modulo `2^32` into `[-2^31, 2^31)`; it is
the exact sum whenever that sum lies in this range. -/
theorem addMatrix32_entries (n : Nat) (A B : Matrix) (hA : IsSquare A n) (hB : IsSquare B n) :
    ∃ C, addMatrix32 A B = .ok C ∧ IsSquare C n ∧
      ∀ i j, i < n → j < n →
        getE C i j = .ok (wrap32 (entry A i j + entry B i j)) ∧
        entry C i j = wrap32 (entry A i j + entry B i j) ∧
        (-2147483648 ≤ entry A i j + entry B i j → entry A i j + entry B i j < 2147483648 →
          entry C i j = entry A i j + entry B i j) := by
  obtain ⟨f, rfl⟩ := exists_ofFn_of_isSquare hA
  obtain ⟨g, rfl⟩ := exists_ofFn_of_isSquare hB
  refine ⟨_, addMatrix32_ofFn n f g, isSquare_ofFn _ _, ?_⟩
  intro i j hi hj
  simp only [getE_ofFn _ hi hj, entry_ofFn _ hi hj, true_and]
  exact fun h1 h2 => wrap32_of_range h1 h2

theorem addMatrix32_entries_witness :
    ∃ C, addMatrix32 [[2147483647, 2], [3, 4]] [[1, 6], [7, 8]] = .ok C ∧ IsSquare C 2 ∧
      ∀ i j, i < 2 → j < 2 →
        getE C i j
          = .ok (wrap32 (entry [[2147483647, 2], [3, 4]] i j + entry [[1, 6], [7, 8]] i j)) ∧
        entry C i j
          = wrap32 (entry [[2147483647, 2], [3, 4]] i j + entry [[1, 6], [7, 8]] i j) ∧
        (-2147483648 ≤ entry [[2147483647, 2], [3, 4]] i j + entry [[1, 6], [7, 8]] i j →
          entry [[2147483647, 2], [3, 4]] i j + entry [[1, 6], [7, 8]] i j < 2147483648 →
          entry C i j = entry [[2147483647, 2], [3, 4]] i j + entry [[1, 6], [7, 8]] i j) :=
  addMatrix32_entries 2 [[2147483647, 2], [3, 4]] [[1, 6], [7, 8]] (by decide) (by decide)

/-- Counterexample to claim C11 as stated: on in-range operands the source returns
`-2147483648` where the exact sum `2147483647 + 1` is `2147483648`. -/
theorem addMatrix32_not_exact :
    addMatrix32 [[2147483647, -5], [-2147483648, 0]] [[1, -7], [-1, 0]]
      = .ok [[-2147483648, -12], [2147483647, 0]] ∧
    ¬ ∃ C, addMatrix32 [[2147483647, -5], [-2147483648, 0]] [[1, -7], [-1, 0]] = .ok C ∧
      ∀ i j, i < 2 → j < 2 →
        entry C i j
          = entry [[2147483647, -5], [-2147483648, 0]] i j + entry [[1, -7], [-1, 0]] i j := by
  have hv : addMatrix32 [[2147483647, -5], [-2147483648, 0]] [[1, -7], [-1, 0]]
      = .ok [[-2147483648, -12], [2147483647, 0]] := by decide
  refine ⟨hv, ?_⟩
  rintro ⟨C, hC, h⟩
  rw [hv] at hC
  cases hC
  exact absurd (h 0 0 (by decide) (by decide)) (by decide)

/-- Claim C12, as amended: for square matrices `A`, `B` of the same dimension `n`,
`subtractMatrix` returns a new `n × n` matrix `C` in which `C[i][j]` is
`A[i][j] - B[i][j]` in 32-bit arithmetic, that is the difference reduced modulo `2^32`
into `[-2^31, 2^31)`; it is the exact difference whenever that lies in this range. -/
theorem subtractMatrix32_entries (n : Nat) (A B : Matrix) (hA : IsSquare A n)
    (hB : IsSquare B n) :
    ∃ C, subtractMatrix32 A B = .ok C ∧ IsSquare C n ∧
      ∀ i j, i < n → j < n →
        getE C i j = .ok (wrap32 (entry A i j - entry B i j)) ∧
        entry C i j = wrap32 (entry A i j - entry B i j) ∧
        (-2147483648 ≤ entry A i j - entry B i j → entry A i j - entry B i j < 2147483648 →
          entry C i j = entry A i j - entry B i j) := by
  obtain ⟨f, rfl⟩ := exists_ofFn_of_isSquare hA
  obtain ⟨g, rfl⟩ := exists_ofFn_of_isSquare hB
  refine ⟨_, subtractMatrix32_ofFn n f g, isSquare_ofFn _ _, ?_⟩
  intro i j hi hj
  simp only [getE_ofFn _ hi hj, entry_ofFn _ hi hj, true_and]
  exact fun h1 h2 => wrap32_of_range h1 h2

theorem subtractMatrix32_entries_witness :
    ∃ C, subtractMatrix32 [[-2147483648, 2], [3, 4]] [[1, 6], [7, 8]] = .ok C ∧
      IsSquare C 2 ∧
      ∀ i j, i < 2 → j < 2 →
        getE C i j
          = .ok (wrap32 (entry [[-2147483648, 2], [3, 4]] i j - entry [[1, 6], [7, 8]] i j)) ∧
        entry C i j
          = wrap32 (entry [[-2147483648, 2], [3, 4]] i j - entry [[1, 6], [7, 8]] i j) ∧
        (-2147483648 ≤ entry [[-2147483648, 2], [3, 4]] i j - entry [[1, 6], [7, 8]] i j →
          entry [[-2147483648, 2], [3, 4]] i j - entry [[1, 6], [7, 8]] i j < 2147483648 →
          entry C i j = entry [[-2147483648, 2], [3, 4]] i j - entry [[1, 6], [7, 8]] i j) :=
  subtractMatrix32_entries 2 [[-2147483648, 2], [3, 4]] [[1, 6], [7, 8]] (by decide)
    (by decide)

/-- Counterexample to claim C12 as stated: on in-range operands the source returns
`2147483647` where the exact difference `-2147483648 - 1` is `-2147483649`. -/
theorem subtractMatrix32_not_exact :
    subtractMatrix32 [[-2147483648, 5], [2147483647, 0]] [[1, 7], [-1, 0]]
      = .ok [[2147483647, -2], [-2147483648, 0]] ∧
    ¬ ∃ C, subtractMatrix32 [[-2147483648, 5], [2147483647, 0]] [[1, 7], [-1, 0]] = .ok C ∧
      ∀ i j, i < 2 → j < 2 →
        entry C i j
          = entry [[-2147483648, 5], [2147483647, 0]] i j - entry [[1, 7], [-1, 0]] i j := by
  have hv : subtractMatrix32 [[-2147483648, 5], [2147483647, 0]] [[1, 7], [-1, 0]]
      = .ok [[2147483647, -2], [-2147483648, 0]] := by decide
  refine ⟨hv, ?_⟩
  rintro ⟨C, hC, h⟩
  rw [hv] at hC
  cases hC
  exact absurd (h 0 0 (by decide) (by decide)) (by decide)

/-- Claim C1, as amended: for every `k ≥ 1` and all square matrices `A`, `B` of dimension
`2^k`, `strassen` returns the `2^k × 2^k` matrix that the naive cubic product gives in the
same 32-bit arithmetic: entry `(i, j)` is the sum over `t < 2^k` of `A[i][t] * B[t][j]`
reduced modulo `2^32` into `[-2^31, 2^31)`, and it is the exact sum whenever that sum
lies in this range. -/
theorem strassen32_product_pow2 (k : Nat) (A B : Matrix) (hk : 1 ≤ k)
    (hA : IsSquare A (2 ^ k)) (hB : IsSquare B (2 ^ k)) :
    strassen32 A B = .ok (naiveMul32 A B) ∧ IsSquare (naiveMul32 A B) (2 ^ k) ∧
      ∀ i j, i < 2 ^ k → j < 2 ^ k →
        entry (naiveMul32 A B) i j
          = wrap32 (∑ t in Finset.range (2 ^ k), entry A i t * entry B t j) ∧
        (-2147483648 ≤ ∑ t in Finset.range (2 ^ k), entry A i t * entry B t j →
          ∑ t in Finset.range (2 ^ k), entry A i t * entry B t j < 2147483648 →
          entry (naiveMul32 A B) i j
            = ∑ t in Finset.range (2 ^ k), entry A i t * entry B t j) := by
  obtain ⟨k', rfl⟩ : ∃ m, k = m + 1 := ⟨k - 1, by omega⟩
  refine ⟨?_, isSquare_naiveMul32 A B hA hB, ?_⟩
  · unfold strassen32
    rw [hA.1]
    exact strassenFuel32_eq_naiveMul32 k' _ A B (lt_two_pow_succ k') hA hB
  · intro i j hi hj
    rw [entry_naiveMul32 A B hA hB hi hj]
    exact ⟨rfl, fun h1 h2 => wrap32_of_range h1 h2⟩

theorem strassen32_product_pow2_witness :
    IsSquare [[1, 2], [3, 4]] (2 ^ 1) ∧ IsSquare [[5, 6], [7, 8]] (2 ^ 1) ∧
    strassen32 [[1, 2], [3, 4]] [[5, 6], [7, 8]]
      = .ok (naiveMul32 [[1, 2], [3, 4]] [[5, 6], [7, 8]]) :=
  ⟨by decide, by decide,
    (strassen32_product_pow2 1 [[1, 2], [3, 4]] [[5, 6], [7, 8]] (by decide) (by decide)
      (by decide)).1⟩

/-- Counterexample to claim C1 as stated: on in-range `2 × 2` operands the source returns
`2` at `(0, 0)`, where the exact sum of products is `9223372028264841218`. -/
theorem strassen32_not_exact :
    strassen32 [[2147483647, 2147483647], [3, 4]] [[2147483647, 6], [2147483647, 8]]
      = .ok [[2, -14], [2147483641, 50]] ∧
    ¬ ∃ C, strassen32 [[2147483647, 2147483647], [3, 4]] [[2147483647, 6], [2147483647, 8]]
        = .ok C ∧
      ∀ i j, i < 2 ^ 1 → j < 2 ^ 1 →
        entry C i j = ∑ t in Finset.range (2 ^ 1),
          entry [[2147483647, 2147483647], [3, 4]] i t
            * entry [[2147483647, 6], [2147483647, 8]] t j := by
  have hv : strassen32 [[2147483647, 2147483647], [3, 4]]
      [[2147483647, 6], [2147483647, 8]] = .ok [[2, -14], [2147483641, 50]] := by decide
  refine ⟨hv, ?_⟩
  rintro ⟨C, hC, h⟩
  rw [hv] at hC
  cases hC
  have h00 := h 0 0 (by decide) (by decide)
  simp [Finset.sum_range_succ, entry] at h00

/-- Claim C4, as amended: on `2 × 2` operands `strassen` returns, without recursion (fuel
for a single invocation suffices), the four multiply-accumulate expressions of the base
case evaluated in 32-bit arithmetic, each being the exact value reduced modulo `2^32`
into `[-2^31, 2^31)`; this is the naive product in the same arithmetic, it is exact
whenever the exact value lies in the range, and test 1 yields `[[19, 22], [43, 50]]`. -/
theorem strassen32_two_by_two :
    (∀ a00 a01 a10 a11 b00 b01 b10 b11 : Int,
      strassen32 [[a00, a01], [a10, a11]] [[b00, b01], [b10, b11]]
        = .ok [[wrap32 (a00 * b00 + a01 * b10), wrap32 (a00 * b01 + a01 * b11)],
               [wrap32 (a10 * b00 + a11 * b10), wrap32 (a10 * b01 + a11 * b11)]] ∧
      strassenFuel32 1 [[a00, a01], [a10, a11]] [[b00, b01], [b10, b11]]
        = .ok [[wrap32 (a00 * b00 + a01 * b10), wrap32 (a00 * b01 + a01 * b11)],
               [wrap32 (a10 * b00 + a11 * b10), wrap32 (a10 * b01 + a11 * b11)]] ∧
      baseCase32 [[a00, a01], [a10, a11]] [[b00, b01], [b10, b11]] 2
        = .ok [[wrap32 (wrap32 (a00 * b00) + wrap32 (a01 * b10)),
                wrap32 (wrap32 (a00 * b01) + wrap32 (a01 * b11))],
               [wrap32 (wrap32 (a10 * b00) + wrap32 (a11 * b10)),
                wrap32 (wrap32 (a10 * b01) + wrap32 (a11 * b11))]] ∧
      naiveMul32 [[a00, a01], [a10, a11]] [[b00, b01], [b10, b11]]
        = [[wrap32 (a00 * b00 + a01 * b10), wrap32 (a00 * b01 + a01 * b11)],
           [wrap32 (a10 * b00 + a11 * b10), wrap32 (a10 * b01 + a11 * b11)]]) ∧
    (∀ x : Int, -2147483648 ≤ x → x < 2147483648 → wrap32 x = x) ∧
    strassen32 [[1, 2], [3, 4]] [[5, 6], [7, 8]] = .ok [[19, 22], [43, 50]] := by
  refine ⟨?_, fun x h1 h2 => wrap32_of_range h1 h2, by decide⟩
  intro a00 a01 a10 a11 b00 b01 b10 b11
  have hb : baseCase32 [[a00, a01], [a10, a11]] [[b00, b01], [b10, b11]] 2
      = .ok [[wrap32 (wrap32 (a00 * b00) + wrap32 (a01 * b10)),
              wrap32 (wrap32 (a00 * b01) + wrap32 (a01 * b11))],
             [wrap32 (wrap32 (a10 * b00) + wrap32 (a11 * b10)),
              wrap32 (wrap32 (a10 * b01) + wrap32 (a11 * b11))]] := rfl
  have h1 : strassenFuel32 1 [[a00, a01], [a10, a11]] [[b00, b01], [b10, b11]]
      = .ok [[wrap32 (a00 * b00 + a01 * b10), wrap32 (a00 * b01 + a01 * b11)],
             [wrap32 (a10 * b00 + a11 * b10), wrap32 (a10 * b01 + a11 * b11)]] := by
    have e : strassenFuel32 1 [[a00, a01], [a10, a11]] [[b00, b01], [b10, b11]]
        = baseCase32 [[a00, a01], [a10, a11]] [[b00, b01], [b10, b11]] 2 := rfl
    rw [e, hb]
    simp only [wrap32_add_wrap]
  have hsqA : IsSquare [[a00, a01], [a10, a11]] (2 ^ (0 + 1)) := by
    simp [IsSquare]
  have hsqB : IsSquare [[b00, b01], [b10, b11]] (2 ^ (0 + 1)) := by
    simp [IsSquare]
  have hn := strassenFuel32_eq_naiveMul32 0 1 _ _ (by decide) hsqA hsqB
  refine ⟨?_, h1, hb, ?_⟩
  · exact h1
  · rw [h1] at hn
    exact (Run.ok.inj hn).symm

/-- Counterexample to claim C4 as stated: on in-range `2 × 2` operands the source returns
`[[2, -14], [2147483641, 50]]`, not the exact values of the four expressions. -/
theorem strassen32_two_by_two_not_exact :
    strassen32 [[2147483647, 2147483647], [3, 4]] [[2147483647, 6], [2147483647, 8]]
      = .ok [[2, -14], [2147483641, 50]] ∧
    strassen32 [[2147483647, 2147483647], [3, 4]] [[2147483647, 6], [2147483647, 8]]
      ≠ .ok [[2147483647 * 2147483647 + 2147483647 * 2147483647,
               2147483647 * 6 + 2147483647 * 8],
              [3 * 2147483647 + 4 * 2147483647, 3 * 6 + 4 * 8]] := by
  refine ⟨by decide, by decide⟩

theorem strassen32_two_by_two_witness :
    (-2147483648 : Int) ≤ 19 ∧ (19 : Int) < 2147483648 ∧ wrap32 19 = 19 :=
  ⟨by decide, by decide, strassen32_two_by_two.2.1 19 (by decide) (by decide)⟩

theorem baseCase32_zero (f g : Nat → Nat → Int) :
    baseCase32 (ofFn 0 f) (ofFn 0 g) 0 = .fault .outOfBounds := by
  simp only [baseCase32, getE_ofFn_row_out f (Nat.le_refl 0), Run.fault_bind]

theorem baseCase32_one (f g : Nat → Nat → Int) :
    baseCase32 (ofFn 1 f) (ofFn 1 g) 1 = .fault .outOfBounds := by
  have h0 : (0 : Nat) < 1 := by decide
  simp only [baseCase32, getE_ofFn f h0 h0, getE_ofFn g h0 h0,
    getE_ofFn_col_out f h0 (Nat.le_refl 1), Run.ok_bind_step, Run.fault_bind]

/-- A completed wrapping run on two tables of dimension `n` returns a table of dimension
`n`; above the base case that table is zero outside its leading `2 (n/2) × 2 (n/2)`
block. -/
theorem strassenFuel32_table (fuel : Nat) : ∀ (n : Nat) (f g : Nat → Nat → Int) (C : Matrix),
    strassenFuel32 fuel (ofFn n f) (ofFn n g) = .ok C →
    ∃ c, C = ofFn n c ∧
      (2 < n → ∀ i j, 2 * (n / 2) ≤ i ∨ 2 * (n / 2) ≤ j → c i j = 0) := by
  induction fuel with
  | zero => intro n f g C h; cases h
  | succ fuel ih =>
    intro n f g C h
    rw [strassenFuel32] at h
    simp only [length_ofFn, ne_eq, not_true_eq_false, if_false] at h
    by_cases hn : n ≤ 2
    · simp only [hn, if_true] at h
      have h3 : n = 0 ∨ n = 1 ∨ n = 2 := by omega
      rcases h3 with rfl | rfl | rfl
      · rw [baseCase32_zero] at h; cases h
      · rw [baseCase32_one] at h; cases h
      · rw [baseCase32_two] at h
        exact ⟨_, (Run.ok.inj h).symm, fun h2 => absurd h2 (by decide)⟩
    · simp only [hn, if_false] at h
      have hle : 2 * (n / 2) ≤ n := by omega
      rw [splitLoop_ofFn n (n / 2) f g hle] at h
      simp only [Run.ok_bind_step, addMatrix32_ofFn, subtractMatrix32_ofFn] at h
      obtain ⟨p1, e1, h⟩ := Run.bind_eq_ok h
      obtain ⟨c1, rfl, -⟩ := ih _ _ _ _ e1
      obtain ⟨p2, e2, h⟩ := Run.bind_eq_ok h
      obtain ⟨c2, rfl, -⟩ := ih _ _ _ _ e2
      obtain ⟨p3, e3, h⟩ := Run.bind_eq_ok h
      obtain ⟨c3, rfl, -⟩ := ih _ _ _ _ e3
      obtain ⟨p4, e4, h⟩ := Run.bind_eq_ok h
      obtain ⟨c4, rfl, -⟩ := ih _ _ _ _ e4
      obtain ⟨p5, e5, h⟩ := Run.bind_eq_ok h
      obtain ⟨c5, rfl, -⟩ := ih _ _ _ _ e5
      obtain ⟨p6, e6, h⟩ := Run.bind_eq_ok h
      obtain ⟨c6, rfl, -⟩ := ih _ _ _ _ e6
      obtain ⟨p7, e7, h⟩ := Run.bind_eq_ok h
      obtain ⟨c7, rfl, -⟩ := ih _ _ _ _ e7
      simp only [Run.ok_bind_step, addMatrix32_ofFn, subtractMatrix32_ofFn] at h
      rw [joinLoop_ofFn n (n / 2) _ _ _ _ hle] at h
      refine ⟨_, (Run.ok.inj h).symm, ?_⟩
      intro _ i j hij
      exact joinVal_outside _ _ _ _ hij

/-- On `5 × 5` tables the wrapping `strassen` completes; the result is zero in row and
column 4 and its leading `4 × 4` block is the wrapped product of the leading `4 × 4`
blocks. -/
theorem strassenFuel32_five (f g : Nat → Nat → Int) :
    strassenFuel32 6 (ofFn 5 f) (ofFn 5 g) = .ok (ofFn 5 fun i j =>
      if i < 4 ∧ j < 4 then wrap32 (∑ t in Finset.range 4, f i t * g t j) else 0) := by
  have key : ∀ f g : Nat → Nat → Int, strassenFuel32 5 (ofFn 2 f) (ofFn 2 g)
      = .ok (ofFn 2 fun i j => wrap32 (∑ t in Finset.range 2, f i t * g t j)) :=
    fun f g => strassenFuel32_ofFn 0 5 f g (by decide)
  have h52 : 5 / 2 = 2 := by decide
  rw [strassenFuel32]
  simp only [length_ofFn, ne_eq, not_true_eq_false, if_false, h52,
    show ¬ (5 ≤ 2) by decide]
  rw [splitLoop_ofFn 5 2 f g (by decide)]
  simp only [Run.ok_bind_step, addMatrix32_ofFn, subtractMatrix32_ofFn, key]
  rw [joinLoop_ofFn 5 2 _ _ _ _ (by decide)]
  congr 1
  apply ofFn_congr
  intro i j _ _
  by_cases hij : i < 4 ∧ j < 4
  · rw [if_pos hij]
    exact strassen_combine32 2 f g i j hij.1 hij.2
  · rw [if_neg hij]
    exact joinVal_outside _ _ _ _ (by omega)

/-- Claim C14, as amended: for odd `n > 2` and square `n × n` operands, every completed run
of `strassen` returns an `n × n` matrix whose last row and last column are zero; for
`n = 5` the run completes and each entry of the leading `4 × 4` block of the result is the
corresponding entry of the product of the leading `4 × 4` blocks in 32-bit arithmetic: the
exact sum reduced modulo `2^32` into `[-2^31, 2^31)`, exact whenever it lies in that
range. -/
theorem odd_dimension_zero_border32 (n : Nat) (A B : Matrix) (hodd : n % 2 = 1) (hn : 2 < n)
    (hA : IsSquare A n) (hB : IsSquare B n) :
    (∀ C, strassen32 A B = .ok C →
      IsSquare C n ∧ ∀ i, i < n → entry C i (n - 1) = 0 ∧ entry C (n - 1) i = 0) ∧
    (n = 5 → ∃ C, strassen32 A B = .ok C ∧
      ∀ i j, i < 4 → j < 4 →
        entry C i j = wrap32 (∑ t in Finset.range 4, entry A i t * entry B t j) ∧
        (-2147483648 ≤ ∑ t in Finset.range 4, entry A i t * entry B t j →
          ∑ t in Finset.range 4, entry A i t * entry B t j < 2147483648 →
          entry C i j = ∑ t in Finset.range 4, entry A i t * entry B t j)) := by
  obtain ⟨f, rfl⟩ := exists_ofFn_of_isSquare hA
  obtain ⟨g, rfl⟩ := exists_ofFn_of_isSquare hB
  constructor
  · intro C hC
    unfold strassen32 at hC
    obtain ⟨c, rfl, hz⟩ := strassenFuel32_table _ n f g C hC
    refine ⟨isSquare_ofFn _ _, ?_⟩
    intro i hi
    have hlast : n - 1 < n := by omega
    rw [entry_ofFn c hi hlast, entry_ofFn c hlast hi]
    exact ⟨hz hn i (n - 1) (by omega), hz hn (n - 1) i (by omega)⟩
  · rintro rfl
    refine ⟨ofFn 5 fun i j =>
      if i < 4 ∧ j < 4 then wrap32 (∑ t in Finset.range 4, f i t * g t j) else 0, ?_, ?_⟩
    · unfold strassen32
      simp only [length_ofFn]
      exact strassenFuel32_five f g
    · intro i j hi hj
      have hs : ∑ t in Finset.range 4, entry (ofFn 5 f) i t * entry (ofFn 5 g) t j
          = ∑ t in Finset.range 4, f i t * g t j := by
        apply Finset.sum_congr rfl
        intro t ht
        have ht' : t < 4 := Finset.mem_range.mp ht
        rw [entry_ofFn f (by omega) (by omega), entry_ofFn g (by omega) (by omega)]
      rw [entry_ofFn _ (by omega) (by omega), if_pos ⟨hi, hj⟩, hs]
      exact ⟨rfl, fun h1 h2 => wrap32_of_range h1 h2⟩

theorem odd_dimension_zero_border32_witness :
    (∀ C, strassen32 largeFive (ofFn 5 fun i j => if i = j then 1 else 0) = .ok C →
      IsSquare C 5 ∧ ∀ i, i < 5 → entry C i (5 - 1) = 0 ∧ entry C (5 - 1) i = 0) ∧
    (5 = 5 → ∃ C, strassen32 largeFive (ofFn 5 fun i j => if i = j then 1 else 0) = .ok C ∧
      ∀ i j, i < 4 → j < 4 →
        entry C i j = wrap32 (∑ t in Finset.range 4,
          entry largeFive i t * entry (ofFn 5 fun i j => if i = j then 1 else 0) t j) ∧
        (-2147483648 ≤ ∑ t in Finset.range 4,
            entry largeFive i t * entry (ofFn 5 fun i j => if i = j then 1 else 0) t j →
          ∑ t in Finset.range 4,
            entry largeFive i t * entry (ofFn 5 fun i j => if i = j then 1 else 0) t j
              < 2147483648 →
          entry C i j = ∑ t in Finset.range 4,
            entry largeFive i t * entry (ofFn 5 fun i j => if i = j then 1 else 0) t j)) :=
  odd_dimension_zero_border32 5 largeFive (ofFn 5 fun i j => if i = j then 1 else 0)
    (by decide) (by decide) (isSquare_ofFn _ _) (isSquare_ofFn _ _)

set_option maxRecDepth 100000 in
/-- Counterexample to the `n = 5` part of claim C14 as stated: on the in-range operand
`largeFive` the source returns `30` at `(0, 0)`, where the exact product of the leading
blocks has `18446744030759878686`. -/
theorem odd_dimension_not_exact :
    strassen32 largeFive largeFive
      = .ok [[30, 40, 50, 60, 0], [40, 54, 68, 82, 0], [50, 68, 86, 104, 0],
             [60, 82, 104, 126, 0], [0, 0, 0, 0, 0]] ∧
    IsSquare largeFive 5 ∧
    ¬ ∃ C, strassen32 largeFive largeFive = .ok C ∧
      ∀ i j, i < 4 → j < 4 →
        entry C i j = ∑ t in Finset.range 4, entry largeFive i t * entry largeFive t j := by
  have hv : strassen32 largeFive largeFive
      = .ok [[30, 40, 50, 60, 0], [40, 54, 68, 82, 0], [50, 68, 86, 104, 0],
             [60, 82, 104, 126, 0], [0, 0, 0, 0, 0]] := by decide
  refine ⟨hv, by decide, ?_⟩
  rintro ⟨C, hC, h⟩
  rw [hv] at hC
  cases hC
  have h00 := h 0 0 (by decide) (by decide)
  have r00 : entry largeFive 0 0 = 2147483647 := by decide
  have r01 : entry largeFive 0 1 = 2147483646 := by decide
  have r02 : entry largeFive 0 2 = 2147483645 := by decide
  have r03 : entry largeFive 0 3 = 2147483644 := by decide
  have r10 : entry largeFive 1 0 = 2147483646 := by decide
  have r20 : entry largeFive 2 0 = 2147483645 := by decide
  have r30 : entry largeFive 3 0 = 2147483644 := by decide
  have l00 : entry [[30, 40, 50, 60, 0], [40, 54, 68, 82, 0], [50, 68, 86, 104, 0],
      [60, 82, 104, 126, 0], [0, 0, 0, 0, 0]] 0 0 = 30 := by decide
  rw [l00] at h00
  simp only [Finset.sum_range_succ, Finset.sum_range_zero, r00, r01, r02, r03, r10, r20,
    r30] at h00
  norm_num at h00

/-- Claim C13, as amended: for every `h` (in particular `h ≥ 1`) and `h × h` quadrants
`a11 … b22`, with the ten operands built by the source's 32-bit `addMatrix` and
`subtractMatrix` and `p1 … p7` the products of those operands in the same arithmetic, the
combinations of lines 105-109 give the block products `a11*b11 + a12*b21`,
`a11*b12 + a12*b22`, `a21*b11 + a22*b21`, `a21*b12 + a22*b22` computed in the same
arithmetic: every entry is the exact block sum reduced modulo `2^32`. For `h ≥ 2`, when
each recursive call returns the product of its operands, `strassen` on the `2h × 2h`
operands joined from the quadrants returns the join of these four matrices. -/
theorem seven_product_identity32 (h : Nat) (q : Quadrants)
    (ha11 : IsSquare q.a11 h) (ha12 : IsSquare q.a12 h) (ha21 : IsSquare q.a21 h)
    (ha22 : IsSquare q.a22 h) (hb11 : IsSquare q.b11 h) (hb12 : IsSquare q.b12 h)
    (hb21 : IsSquare q.b21 h) (hb22 : IsSquare q.b22 h) :
    ∃ s1 s2 s3 s4 s5 t5 s6 t6 s7 t7 c11 c12 c21 c22 JA JB,
      subtractMatrix32 q.b12 q.b22 = .ok s1 ∧ addMatrix32 q.a11 q.a12 = .ok s2 ∧
      addMatrix32 q.a21 q.a22 = .ok s3 ∧ subtractMatrix32 q.b21 q.b11 = .ok s4 ∧
      addMatrix32 q.a11 q.a22 = .ok s5 ∧ addMatrix32 q.b11 q.b22 = .ok t5 ∧
      subtractMatrix32 q.a12 q.a22 = .ok s6 ∧ addMatrix32 q.b21 q.b22 = .ok t6 ∧
      subtractMatrix32 q.a11 q.a21 = .ok s7 ∧ addMatrix32 q.b11 q.b12 = .ok t7 ∧
      (do addMatrix32 (← subtractMatrix32 (← addMatrix32 (naiveMul32 s5 t5)
            (naiveMul32 q.a22 s4)) (naiveMul32 s2 q.b22)) (naiveMul32 s6 t6)) = .ok c11 ∧
      addMatrix32 (naiveMul32 q.a11 s1) (naiveMul32 s2 q.b22) = .ok c12 ∧
      addMatrix32 (naiveMul32 s3 q.b11) (naiveMul32 q.a22 s4) = .ok c21 ∧
      (do subtractMatrix32 (← subtractMatrix32 (← addMatrix32 (naiveMul32 s5 t5)
            (naiveMul32 q.a11 s1)) (naiveMul32 s3 q.b11)) (naiveMul32 s7 t7)) = .ok c22 ∧
      addMatrix32 (naiveMul32 q.a11 q.b11) (naiveMul32 q.a12 q.b21) = .ok c11 ∧
      addMatrix32 (naiveMul32 q.a11 q.b12) (naiveMul32 q.a12 q.b22) = .ok c12 ∧
      addMatrix32 (naiveMul32 q.a21 q.b11) (naiveMul32 q.a22 q.b21) = .ok c21 ∧
      addMatrix32 (naiveMul32 q.a21 q.b12) (naiveMul32 q.a22 q.b22) = .ok c22 ∧
      (∀ i j, i < h → j < h →
        entry c11 i j = wrap32 (∑ t in Finset.range h, entry q.a11 i t * entry q.b11 t j
          + ∑ t in Finset.range h, entry q.a12 i t * entry q.b21 t j) ∧
        entry c12 i j = wrap32 (∑ t in Finset.range h, entry q.a11 i t * entry q.b12 t j
          + ∑ t in Finset.range h, entry q.a12 i t * entry q.b22 t j) ∧
        entry c21 i j = wrap32 (∑ t in Finset.range h, entry q.a21 i t * entry q.b11 t j
          + ∑ t in Finset.range h, entry q.a22 i t * entry q.b21 t j) ∧
        entry c22 i j = wrap32 (∑ t in Finset.range h, entry q.a21 i t * entry q.b12 t j
          + ∑ t in Finset.range h, entry q.a22 i t * entry q.b22 t j)) ∧
      joinLoop (2 * h) h q.a11 q.a12 q.a21 q.a22 = .ok JA ∧
      joinLoop (2 * h) h q.b11 q.b12 q.b21 q.b22 = .ok JB ∧
      (2 ≤ h → ∀ fuel,
        (∀ X Y, IsSquare X h → IsSquare Y h →
          strassenFuel32 fuel X Y = .ok (naiveMul32 X Y)) →
        strassenFuel32 (fuel + 1) JA JB = joinLoop (2 * h) h c11 c12 c21 c22) := by
  obtain ⟨a11, a12, a21, a22, b11, b12, b21, b22⟩ := q
  simp only at ha11 ha12 ha21 ha22 hb11 hb12 hb21 hb22 ⊢
  obtain ⟨f11, rfl⟩ := exists_ofFn_of_isSquare ha11
  obtain ⟨f12, rfl⟩ := exists_ofFn_of_isSquare ha12
  obtain ⟨f21, rfl⟩ := exists_ofFn_of_isSquare ha21
  obtain ⟨f22, rfl⟩ := exists_ofFn_of_isSquare ha22
  obtain ⟨g11, rfl⟩ := exists_ofFn_of_isSquare hb11
  obtain ⟨g12, rfl⟩ := exists_ofFn_of_isSquare hb12
  obtain ⟨g21, rfl⟩ := exists_ofFn_of_isSquare hb21
  obtain ⟨g22, rfl⟩ := exists_ofFn_of_isSquare hb22
  -- every quadrant is read as a quadrant of the joined `2h × 2h` table
  have e11 : ∀ c11 c12 c21 c22 : Nat → Nat → Int,
      ofFn h c11 = ofFn h fun i j => joinVal h c11 c12 c21 c22 i j :=
    fun c11 c12 c21 c22 => ofFn_congr fun i j hi hj => (joinVal_11 c11 c12 c21 c22 hi hj).symm
  have e12 : ∀ c11 c12 c21 c22 : Nat → Nat → Int,
      ofFn h c12 = ofFn h fun i j => joinVal h c11 c12 c21 c22 i (j + h) :=
    fun c11 c12 c21 c22 => ofFn_congr fun i j hi hj => (joinVal_12 c11 c12 c21 c22 hi hj).symm
  have e21 : ∀ c11 c12 c21 c22 : Nat → Nat → Int,
      ofFn h c21 = ofFn h fun i j => joinVal h c11 c12 c21 c22 (i + h) j :=
    fun c11 c12 c21 c22 => ofFn_congr fun i j hi hj => (joinVal_21 c11 c12 c21 c22 hi hj).symm
  have e22 : ∀ c11 c12 c21 c22 : Nat → Nat → Int,
      ofFn h c22 = ofFn h fun i j => joinVal h c11 c12 c21 c22 (i + h) (j + h) :=
    fun c11 c12 c21 c22 => ofFn_congr fun i j hi hj => (joinVal_22 c11 c12 c21 c22 hi hj).symm
  rw [e11 f11 f12 f21 f22, e12 f11 f12 f21 f22, e21 f11 f12 f21 f22, e22 f11 f12 f21 f22,
    e11 g11 g12 g21 g22, e12 g11 g12 g21 g22, e21 g11 g12 g21 g22, e22 g11 g12 g21 g22]
  generalize joinVal h f11 f12 f21 f22 = F
  generalize joinVal h g11 g12 g21 g22 = G
  clear e11 e12 e21 e22 ha11 ha12 ha21 ha22 hb11 hb12 hb21 hb22
  have hent : ∀ (X : Nat → Nat → Int) (i j : Nat), i < h → j < h →
      entry (ofFn h X) i j = X i j := fun X i j hi hj => entry_ofFn X hi hj
  refine ⟨_, _, _, _, _, _, _, _, _, _,
    ofFn h fun i j => wrap32 (∑ t in Finset.range (2 * h), F i t * G t j),
    ofFn h fun i j => wrap32 (∑ t in Finset.range (2 * h), F i t * G t (j + h)),
    ofFn h fun i j => wrap32 (∑ t in Finset.range (2 * h), F (i + h) t * G t j),
    ofFn h fun i j => wrap32 (∑ t in Finset.range (2 * h), F (i + h) t * G t (j + h)),
    ofFn (2 * h) F, ofFn (2 * h) G,
    subtractMatrix32_ofFn _ _ _, addMatrix32_ofFn _ _ _, addMatrix32_ofFn _ _ _,
    subtractMatrix32_ofFn _ _ _, addMatrix32_ofFn _ _ _, addMatrix32_ofFn _ _ _,
    subtractMatrix32_ofFn _ _ _, addMatrix32_ofFn _ _ _, subtractMatrix32_ofFn _ _ _,
    addMatrix32_ofFn _ _ _, ?_, ?_, ?_, ?_, ?_, ?_, ?_, ?_, ?_, ?_, ?_, ?_⟩
  · simp only [naiveMul32_ofFn, addMatrix32_ofFn, subtractMatrix32_ofFn, Run.ok_bind_step]
    congr 1
    apply ofFn_congr
    intro i j hi hj
    have key := strassen_combine32 h F G i j (by omega) (by omega)
    rw [joinVal_11 _ _ _ _ hi hj] at key
    exact key
  · simp only [naiveMul32_ofFn, addMatrix32_ofFn, subtractMatrix32_ofFn, Run.ok_bind_step]
    congr 1
    apply ofFn_congr
    intro i j hi hj
    have key := strassen_combine32 h F G i (j + h) (by omega) (by omega)
    rw [joinVal_12 _ _ _ _ hi hj] at key
    exact key
  · simp only [naiveMul32_ofFn, addMatrix32_ofFn, subtractMatrix32_ofFn, Run.ok_bind_step]
    congr 1
    apply ofFn_congr
    intro i j hi hj
    have key := strassen_combine32 h F G (i + h) j (by omega) (by omega)
    rw [joinVal_21 _ _ _ _ hi hj] at key
    exact key
  · simp only [naiveMul32_ofFn, addMatrix32_ofFn, subtractMatrix32_ofFn, Run.ok_bind_step]
    congr 1
    apply ofFn_congr
    intro i j hi hj
    have key := strassen_combine32 h F G (i + h) (j + h) (by omega) (by omega)
    rw [joinVal_22 _ _ _ _ hi hj] at key
    exact key
  · simp only [naiveMul32_ofFn, addMatrix32_ofFn]
    congr 1
    apply ofFn_congr
    intro i j _ _
    rw [sum_range_double]
    apply wrap32_congr
    simp only [Int.cast_add, cast_wrap32]
  · simp only [naiveMul32_ofFn, addMatrix32_ofFn]
    congr 1
    apply ofFn_congr
    intro i j _ _
    rw [sum_range_double]
    apply wrap32_congr
    simp only [Int.cast_add, cast_wrap32]
  · simp only [naiveMul32_ofFn, addMatrix32_ofFn]
    congr 1
    apply ofFn_congr
    intro i j _ _
    rw [sum_range_double]
    apply wrap32_congr
    simp only [Int.cast_add, cast_wrap32]
  · simp only [naiveMul32_ofFn, addMatrix32_ofFn]
    congr 1
    apply ofFn_congr
    intro i j _ _
    rw [sum_range_double]
    apply wrap32_congr
    simp only [Int.cast_add, cast_wrap32]
  · intro i j hi hj
    have hs : ∀ (X Y : Nat → Nat → Int),
        ∑ t in Finset.range h, entry (ofFn h X) i t * entry (ofFn h Y) t j
          = ∑ t in Finset.range h, X i t * Y t j := by
      intro X Y
      apply Finset.sum_congr rfl
      intro t ht
      rw [hent X i t hi (Finset.mem_range.mp ht), hent Y t j (Finset.mem_range.mp ht) hj]
    simp only [hent _ i j hi hj, hs, sum_range_double, and_self]
  · rw [joinLoop_ofFn _ _ _ _ _ _ (Nat.le_refl _)]
    congr 1
    apply ofFn_congr
    intro i j hi hj
    exact joinVal_quadrants h F i j hi hj
  · rw [joinLoop_ofFn _ _ _ _ _ _ (Nat.le_refl _)]
    congr 1
    apply ofFn_congr
    intro i j hi hj
    exact joinVal_quadrants h G i j hi hj
  · intro hh fuel hrec
    have hrec' : ∀ f' g' : Nat → Nat → Int, strassenFuel32 fuel (ofFn h f') (ofFn h g')
        = .ok (ofFn h fun i j => wrap32 (∑ t in Finset.range h, f' i t * g' t j)) := by
      intro f' g'
      rw [hrec _ _ (isSquare_ofFn _ _) (isSquare_ofFn _ _), naiveMul32_ofFn]
    have hbig : ¬ 2 * h ≤ 2 := by omega
    have hhalf : 2 * h / 2 = h := Nat.mul_div_cancel_left h (by decide)
    rw [strassenFuel32]
    simp only [length_ofFn, ne_eq, not_true_eq_false, if_false, hbig, hhalf]
    rw [splitLoop_ofFn (2 * h) h F G (Nat.le_refl _)]
    simp only [Run.ok_bind_step, addMatrix32_ofFn, subtractMatrix32_ofFn, hrec']
    rw [joinLoop_ofFn _ _ _ _ _ _ (Nat.le_refl _), joinLoop_ofFn _ _ _ _ _ _ (Nat.le_refl _)]
    congr 1
    apply ofFn_congr
    intro i j hi hj
    rw [strassen_combine32 h F G i j hi hj]
    exact (joinVal_quadrants h
      (fun i j => wrap32 (∑ t in Finset.range (2 * h), F i t * G t j)) i j hi hj).symm

theorem seven_product_identity32_witness :
    ∃ c11 c12 c21 c22 JA JB,
      joinLoop (2 * 2) 2 [[1, 2], [3, 4]] [[5, 6], [7, 8]] [[9, 10], [11, 12]]
        [[13, 14], [15, 16]] = .ok JA ∧
      joinLoop (2 * 2) 2 [[1, 0], [0, 1]] [[2, 0], [0, 2]] [[3, 0], [0, 3]]
        [[4, 0], [0, 4]] = .ok JB ∧
      addMatrix32 (naiveMul32 [[1, 2], [3, 4]] [[1, 0], [0, 1]])
        (naiveMul32 [[5, 6], [7, 8]] [[3, 0], [0, 3]]) = .ok c11 ∧
      strassenFuel32 (1 + 1) JA JB = joinLoop (2 * 2) 2 c11 c12 c21 c22 := by
  obtain ⟨s1, s2, s3, s4, s5, t5, s6, t6, s7, t7, c11, c12, c21, c22, JA, JB, -, -, -, -, -,
      -, -, -, -, -, -, -, -, -, hb11, -, -, -, -, hJA, hJB, hrun⟩ :=
    seven_product_identity32 2
      ⟨[[1, 2], [3, 4]], [[5, 6], [7, 8]], [[9, 10], [11, 12]], [[13, 14], [15, 16]],
        [[1, 0], [0, 1]], [[2, 0], [0, 2]], [[3, 0], [0, 3]], [[4, 0], [0, 4]]⟩
      (by decide) (by decide) (by decide) (by decide) (by decide) (by decide) (by decide)
      (by decide)
  exact ⟨c11, c12, c21, c22, JA, JB, hJA, hJB, hb11,
    hrun (by decide) 1 (fun X Y hX hY =>
      strassenFuel32_eq_naiveMul32 0 1 X Y (by decide) hX hY)⟩

/-- Counterexample to claim C13 as stated (exact products and sums): with `1 × 1`
quadrants `a11 = a12 = [[1]]`, `b11 = [[2147483647]]`, `b21 = [[1]]` and the others
zero, the ten operands and the seven products are exact, yet the source's
`c11 = p5 + p4 - p2 + p6` is `-2147483648` where `a11*b11 + a12*b21` is `2147483648`. -/
theorem seven_product_not_exact :
    (subtractMatrix32 [[0]] [[0]] = .ok [[0]] ∧ addMatrix32 [[1]] [[1]] = .ok [[2]] ∧
      addMatrix32 [[0]] [[0]] = .ok [[0]] ∧
      subtractMatrix32 [[1]] [[2147483647]] = .ok [[-2147483646]] ∧
      addMatrix32 [[1]] [[0]] = .ok [[1]] ∧
      addMatrix32 [[2147483647]] [[0]] = .ok [[2147483647]] ∧
      subtractMatrix32 [[1]] [[0]] = .ok [[1]] ∧ addMatrix32 [[1]] [[0]] = .ok [[1]] ∧
      subtractMatrix32 [[1]] [[0]] = .ok [[1]] ∧
      addMatrix32 [[2147483647]] [[0]] = .ok [[2147483647]]) ∧
    (naiveMul32 [[1]] [[0]] = naiveMul [[1]] [[0]] ∧
      naiveMul32 [[2]] [[0]] = naiveMul [[2]] [[0]] ∧
      naiveMul32 [[0]] [[2147483647]] = naiveMul [[0]] [[2147483647]] ∧
      naiveMul32 [[0]] [[-2147483646]] = naiveMul [[0]] [[-2147483646]] ∧
      naiveMul32 [[1]] [[2147483647]] = naiveMul [[1]] [[2147483647]] ∧
      naiveMul32 [[1]] [[1]] = naiveMul [[1]] [[1]] ∧
      naiveMul32 [[1]] [[2147483647]] = naiveMul [[1]] [[2147483647]]) ∧
    (do addMatrix32 (← subtractMatrix32 (← addMatrix32 (naiveMul32 [[1]] [[2147483647]])
          (naiveMul32 [[0]] [[-2147483646]])) (naiveMul32 [[2]] [[0]]))
          (naiveMul32 [[1]] [[1]])) = .ok [[-2147483648]] ∧
    addMatrix (naiveMul [[1]] [[2147483647]]) (naiveMul [[1]] [[1]]) = .ok [[2147483648]] ∧
    (do addMatrix32 (← subtractMatrix32 (← addMatrix32 (naiveMul32 [[1]] [[2147483647]])
          (naiveMul32 [[0]] [[-2147483646]])) (naiveMul32 [[2]] [[0]]))
          (naiveMul32 [[1]] [[1]]))
      ≠ addMatrix (naiveMul [[1]] [[2147483647]]) (naiveMul [[1]] [[1]]) := by
  refine ⟨⟨by decide, by decide, by decide, by decide, by decide, by decide, by decide,
    by decide, by decide, by decide⟩,
    ⟨by decide, by decide, by decide, by decide, by decide, by decide, by decide⟩,
    by decide, by decide, by decide⟩

/-! ## The 32-bit run is the entrywise reduction of the run over unbounded integers -/

theorem wrap32_mul_wrap (x y : Int) : wrap32 (wrap32 x * wrap32 y) = wrap32 (x * y) := by
  apply wrap32_congr
  simp only [Int.cast_mul, cast_wrap32]

theorem wrap32_sub_wrap (x y : Int) : wrap32 (wrap32 x - wrap32 y) = wrap32 (x - y) := by
  apply wrap32_congr
  simp only [Int.cast_sub, cast_wrap32]

theorem wrap32_mac (a b c d : Int) :
    wrap32 (wrap32 (wrap32 a * wrap32 b) + wrap32 (wrap32 c * wrap32 d))
      = wrap32 (a * b + c * d) := by
  apply wrap32_congr
  simp only [Int.cast_add, Int.cast_mul, cast_wrap32]

theorem length_wrapM (M : Matrix) : (wrapM M).length = M.length := by
  simp [wrapM]

theorem wrapM_mkMatrix (n : Nat) : wrapM (mkMatrix n) = mkMatrix n := by
  have h0 : wrap32 0 = 0 := by decide
  simp [wrapM, mkMatrix, h0]

theorem getE_wrapM (M : Matrix) (i j : Nat) :
    getE (wrapM M) i j = Run.map wrap32 (getE M i j) := by
  unfold getE wrapM
  rw [List.getElem?_map]
  cases M[i]? with
  | none => rfl
  | some row =>
    simp only [Option.map_some', List.getElem?_map]
    cases row[j]? with
    | none => rfl
    | some v => rfl

theorem setE_wrapM (M : Matrix) (i j : Nat) (v : Int) :
    setE (wrapM M) i j (wrap32 v) = Run.map wrapM (setE M i j v) := by
  unfold setE wrapM
  rw [List.getElem?_map]
  cases M[i]? with
  | none => rfl
  | some row =>
    simp only [Option.map_some', List.length_map]
    by_cases hj : j < row.length
    · simp only [hj, if_true, Run.map, List.map_set]
    · simp only [hj, if_false, Run.map]

/-- Sequencing respects a relation between two runs given by a map on values. -/
theorem Run.bind_sim {α α' β β' : Type} {x' : Run α'} {x : Run α} {φ : α → α'}
    {f' : α' → Run β'} {f : α → Run β} {ψ : β → β'}
    (hx : x' = Run.map φ x) (hf : ∀ a, f' (φ a) = Run.map ψ (f a)) :
    (x' >>= f') = Run.map ψ (x >>= f) := by
  subst hx
  cases x with
  | ok a => exact hf a
  | fault e => rfl

theorem forLoop_sim {σ σ' : Type} (φ : σ → σ') (body' : Nat → σ' → Run σ')
    (body : Nat → σ → Run σ) (hbody : ∀ i s, body' i (φ s) = Run.map φ (body i s))
    (n : Nat) (s : σ) : forLoop body' n (φ s) = Run.map φ (forLoop body n s) := by
  induction n with
  | zero => rfl
  | succ k ih =>
    show (forLoop body' k (φ s) >>= body' k) = Run.map φ (forLoop body k s >>= body k)
    exact Run.bind_sim ih (hbody k)

theorem addMatrix32_wrapM (A B : Matrix) :
    addMatrix32 (wrapM A) (wrapM B) = Run.map wrapM (addMatrix A B) := by
  unfold addMatrix32 addMatrix
  simp only [length_wrapM]
  nth_rewrite 1 [← wrapM_mkMatrix]
  apply forLoop_sim wrapM
  intro i C
  apply forLoop_sim wrapM
  intro j C
  refine Run.bind_sim (getE_wrapM A i j) fun a => ?_
  refine Run.bind_sim (getE_wrapM B i j) fun b => ?_
  rw [wrap32_add_wrap]
  exact setE_wrapM C i j (a + b)

theorem subtractMatrix32_wrapM (A B : Matrix) :
    subtractMatrix32 (wrapM A) (wrapM B) = Run.map wrapM (subtractMatrix A B) := by
  unfold subtractMatrix32 subtractMatrix
  simp only [length_wrapM]
  nth_rewrite 1 [← wrapM_mkMatrix]
  apply forLoop_sim wrapM
  intro i C
  apply forLoop_sim wrapM
  intro j C
  refine Run.bind_sim (getE_wrapM A i j) fun a => ?_
  refine Run.bind_sim (getE_wrapM B i j) fun b => ?_
  rw [wrap32_sub_wrap]
  exact setE_wrapM C i j (a - b)

theorem splitLoop_wrapM (A B : Matrix) (h : Nat) :
    splitLoop (wrapM A) (wrapM B) h = Run.map Quadrants.wrap (splitLoop A B h) := by
  unfold splitLoop
  have hz : (⟨mkMatrix h, mkMatrix h, mkMatrix h, mkMatrix h, mkMatrix h, mkMatrix h,
      mkMatrix h, mkMatrix h⟩ : Quadrants)
      = Quadrants.wrap ⟨mkMatrix h, mkMatrix h, mkMatrix h, mkMatrix h, mkMatrix h,
          mkMatrix h, mkMatrix h, mkMatrix h⟩ := by
    simp only [Quadrants.wrap, wrapM_mkMatrix]
  simp only []
  nth_rewrite 1 [hz]
  apply forLoop_sim Quadrants.wrap
  intro i q
  apply forLoop_sim Quadrants.wrap
  intro j q
  unfold splitBody
  refine Run.bind_sim (getE_wrapM A i j) fun x1 => ?_
  refine Run.bind_sim (setE_wrapM q.a11 i j x1) fun a11 => ?_
  refine Run.bind_sim (getE_wrapM A i (j + h)) fun x2 => ?_
  refine Run.bind_sim (setE_wrapM q.a12 i j x2) fun a12 => ?_
  refine Run.bind_sim (getE_wrapM A (i + h) j) fun x3 => ?_
  refine Run.bind_sim (setE_wrapM q.a21 i j x3) fun a21 => ?_
  refine Run.bind_sim (getE_wrapM A (i + h) (j + h)) fun x4 => ?_
  refine Run.bind_sim (setE_wrapM q.a22 i j x4) fun a22 => ?_
  refine Run.bind_sim (getE_wrapM B i j) fun x5 => ?_
  refine Run.bind_sim (setE_wrapM q.b11 i j x5) fun b11 => ?_
  refine Run.bind_sim (getE_wrapM B i (j + h)) fun x6 => ?_
  refine Run.bind_sim (setE_wrapM q.b12 i j x6) fun b12 => ?_
  refine Run.bind_sim (getE_wrapM B (i + h) j) fun x7 => ?_
  refine Run.bind_sim (setE_wrapM q.b21 i j x7) fun b21 => ?_
  refine Run.bind_sim (getE_wrapM B (i + h) (j + h)) fun x8 => ?_
  refine Run.bind_sim (setE_wrapM q.b22 i j x8) fun b22 => ?_
  rfl

theorem joinLoop_wrapM (n h : Nat) (c11 c12 c21 c22 : Matrix) :
    joinLoop n h (wrapM c11) (wrapM c12) (wrapM c21) (wrapM c22)
      = Run.map wrapM (joinLoop n h c11 c12 c21 c22) := by
  unfold joinLoop
  nth_rewrite 1 [← wrapM_mkMatrix]
  apply forLoop_sim wrapM
  intro i C
  apply forLoop_sim wrapM
  intro j C
  unfold joinBody
  refine Run.bind_sim (getE_wrapM c11 i j) fun x1 => ?_
  refine Run.bind_sim (setE_wrapM C i j x1) fun C1 => ?_
  refine Run.bind_sim (getE_wrapM c12 i j) fun x2 => ?_
  refine Run.bind_sim (setE_wrapM C1 i (j + h) x2) fun C2 => ?_
  refine Run.bind_sim (getE_wrapM c21 i j) fun x3 => ?_
  refine Run.bind_sim (setE_wrapM C2 (i + h) j x3) fun C3 => ?_
  refine Run.bind_sim (getE_wrapM c22 i j) fun x4 => ?_
  exact setE_wrapM C3 (i + h) (j + h) x4

theorem baseCase32_wrapM (A B : Matrix) (n : Nat) :
    baseCase32 (wrapM A) (wrapM B) n = Run.map wrapM (baseCase A B n) := by
  unfold baseCase32 baseCase
  simp only []
  refine Run.bind_sim (getE_wrapM A 0 0) fun a => ?_
  refine Run.bind_sim (getE_wrapM B 0 0) fun b => ?_
  refine Run.bind_sim (getE_wrapM A 0 1) fun c => ?_
  refine Run.bind_sim (getE_wrapM B 1 0) fun d => ?_
  rw [wrap32_mac]
  nth_rewrite 1 [← wrapM_mkMatrix n]
  refine Run.bind_sim (setE_wrapM (mkMatrix n) 0 0 (a * b + c * d)) fun C1 => ?_
  refine Run.bind_sim (getE_wrapM A 0 0) fun a => ?_
  refine Run.bind_sim (getE_wrapM B 0 1) fun b => ?_
  refine Run.bind_sim (getE_wrapM A 0 1) fun c => ?_
  refine Run.bind_sim (getE_wrapM B 1 1) fun d => ?_
  rw [wrap32_mac]
  refine Run.bind_sim (setE_wrapM C1 0 1 (a * b + c * d)) fun C2 => ?_
  refine Run.bind_sim (getE_wrapM A 1 0) fun a => ?_
  refine Run.bind_sim (getE_wrapM B 0 0) fun b => ?_
  refine Run.bind_sim (getE_wrapM A 1 1) fun c => ?_
  refine Run.bind_sim (getE_wrapM B 1 0) fun d => ?_
  rw [wrap32_mac]
  refine Run.bind_sim (setE_wrapM C2 1 0 (a * b + c * d)) fun C3 => ?_
  refine Run.bind_sim (getE_wrapM A 1 0) fun a => ?_
  refine Run.bind_sim (getE_wrapM B 0 1) fun b => ?_
  refine Run.bind_sim (getE_wrapM A 1 1) fun c => ?_
  refine Run.bind_sim (getE_wrapM B 1 1) fun d => ?_
  rw [wrap32_mac]
  refine Run.bind_sim (setE_wrapM C3 1 1 (a * b + c * d)) fun C4 => ?_
  rfl

/-- The recursion over 32-bit integers on reduced operands is the entrywise reduction of
the recursion over unbounded integers: both take the same branches, fault at the same
places, and the values agree modulo `2^32`. -/
theorem strassenFuel32_wrapM (fuel : Nat) (A B : Matrix) :
    strassenFuel32 fuel (wrapM A) (wrapM B) = Run.map wrapM (strassenFuel fuel A B) := by
  induction fuel generalizing A B with
  | zero => rfl
  | succ k ih =>
    rw [strassenFuel32, strassenFuel]
    simp only [length_wrapM]
    by_cases h1 : A.length ≠ B.length
    · rw [if_pos h1, if_pos h1]
      rfl
    · rw [if_neg h1, if_neg h1]
      by_cases h2 : A.length ≤ 2
      · rw [if_pos h2, if_pos h2]
        exact baseCase32_wrapM A B _
      · rw [if_neg h2, if_neg h2]
        refine Run.bind_sim (splitLoop_wrapM A B _) fun q => ?_
        refine Run.bind_sim (subtractMatrix32_wrapM q.b12 q.b22) fun t1 => ?_
        refine Run.bind_sim (ih q.a11 t1) fun p1 => ?_
        refine Run.bind_sim (addMatrix32_wrapM q.a11 q.a12) fun s2 => ?_
        refine Run.bind_sim (ih s2 q.b22) fun p2 => ?_
        refine Run.bind_sim (addMatrix32_wrapM q.a21 q.a22) fun s3 => ?_
        refine Run.bind_sim (ih s3 q.b11) fun p3 => ?_
        refine Run.bind_sim (subtractMatrix32_wrapM q.b21 q.b11) fun t4 => ?_
        refine Run.bind_sim (ih q.a22 t4) fun p4 => ?_
        refine Run.bind_sim (addMatrix32_wrapM q.a11 q.a22) fun s5 => ?_
        refine Run.bind_sim (addMatrix32_wrapM q.b11 q.b22) fun t5 => ?_
        refine Run.bind_sim (ih s5 t5) fun p5 => ?_
        refine Run.bind_sim (subtractMatrix32_wrapM q.a12 q.a22) fun s6 => ?_
        refine Run.bind_sim (addMatrix32_wrapM q.b21 q.b22) fun t6 => ?_
        refine Run.bind_sim (ih s6 t6) fun p6 => ?_
        refine Run.bind_sim (subtractMatrix32_wrapM q.a11 q.a21) fun s7 => ?_
        refine Run.bind_sim (addMatrix32_wrapM q.b11 q.b12) fun t7 => ?_
        refine Run.bind_sim (ih s7 t7) fun p7 => ?_
        refine Run.bind_sim (addMatrix32_wrapM p5 p4) fun u1 => ?_
        refine Run.bind_sim (subtractMatrix32_wrapM u1 p2) fun u2 => ?_
        refine Run.bind_sim (addMatrix32_wrapM u2 p6) fun c11 => ?_
        refine Run.bind_sim (addMatrix32_wrapM p1 p2) fun c12 => ?_
        refine Run.bind_sim (addMatrix32_wrapM p3 p4) fun c21 => ?_
        refine Run.bind_sim (addMatrix32_wrapM p5 p1) fun v1 => ?_
        refine Run.bind_sim (subtractMatrix32_wrapM v1 p3) fun v2 => ?_
        refine Run.bind_sim (subtractMatrix32_wrapM v2 p7) fun c22 => ?_
        exact joinLoop_wrapM _ _ c11 c12 c21 c22

theorem wrap32_idem (x : Int) : wrap32 (wrap32 x) = wrap32 x :=
  wrap32_of_range (wrap32_range x).1 (wrap32_range x).2

theorem wrapM_of_inRange (M : Matrix) (h : InRange32 M) : wrapM M = M := by
  unfold wrapM
  conv_rhs => rw [← List.map_id M]
  apply List.map_congr_left
  intro row hrow
  conv_rhs => rw [id, ← List.map_id row]
  apply List.map_congr_left
  intro x hx
  exact wrap32_of_range (h row hrow x hx).1 (h row hrow x hx).2

/-- On operands whose entries fit the 32-bit range, the source's run is the entrywise
reduction of the run over unbounded integers. -/
theorem strassen32_eq_wrap_strassen (A B : Matrix) (hA : InRange32 A) (hB : InRange32 B) :
    strassen32 A B = Run.map wrapM (strassen A B) := by
  have h := strassenFuel32_wrapM (A.length + 1) A B
  rw [wrapM_of_inRange A hA, wrapM_of_inRange B hB] at h
  exact h

theorem wrapM_ofFn (n : Nat) (f : Nat → Nat → Int) :
    wrapM (ofFn n f) = ofFn n fun i j => wrap32 (f i j) := by
  simp [wrapM, ofFn, List.map_map, Function.comp_def]

theorem wrapM_identity (n : Nat) : wrapM (identity n) = identity n := by
  unfold identity
  rw [wrapM_ofFn]
  apply ofFn_congr
  intro i j _ _
  by_cases h : i = j
  · simp only [h, if_true]
    decide
  · simp only [h, if_false]
    decide

/-- The identity law holds of the source's 32-bit run as well: on a `2^k × 2^k` operand
whose entries fit the 32-bit range, multiplying by the identity on either side returns
the operand. -/
theorem strassen32_identity (k : Nat) (A : Matrix) (hk : 1 ≤ k) (hA : IsSquare A (2 ^ k))
    (hr : InRange32 A) :
    strassen32 A (identity (2 ^ k)) = .ok A ∧ strassen32 (identity (2 ^ k)) A = .ok A := by
  obtain ⟨k', rfl⟩ : ∃ m, k = m + 1 := ⟨k - 1, by omega⟩
  have hw := wrapM_of_inRange A hr
  have h1 := strassenFuel32_wrapM (A.length + 1) A (identity (2 ^ (k' + 1)))
  have h2 := strassenFuel32_wrapM ((identity (2 ^ (k' + 1))).length + 1)
    (identity (2 ^ (k' + 1))) A
  rw [hw, wrapM_identity] at h1 h2
  obtain ⟨f, rfl⟩ := exists_ofFn_of_isSquare hA
  unfold strassen32
  rw [h1, h2]
  unfold identity
  simp only [length_ofFn]
  rw [strassenFuel_ofFn k' _ _ _ (lt_two_pow_succ k'),
    strassenFuel_ofFn k' _ _ _ (lt_two_pow_succ k')]
  have e1 : (ofFn (2 ^ (k' + 1)) fun i j =>
      ∑ t in Finset.range (2 ^ (k' + 1)), f i t * (if t = j then 1 else 0))
      = ofFn (2 ^ (k' + 1)) f := by
    apply ofFn_congr
    intro i j _ hj
    simp [Finset.sum_ite_eq', hj]
  have e2 : (ofFn (2 ^ (k' + 1)) fun i j =>
      ∑ t in Finset.range (2 ^ (k' + 1)), (if i = t then 1 else 0) * f t j)
      = ofFn (2 ^ (k' + 1)) f := by
    apply ofFn_congr
    intro i j hi _
    simp [Finset.sum_ite_eq, hi]
  rw [e1, e2]
  exact ⟨congrArg Run.ok hw, congrArg Run.ok hw⟩

end Strassen
